import Mathlib

/-!
Verification development for the DocWire document-revision tracking engine.

Shallow embedding of the DWML markup codec (`dwml.py`), the revision-token
logic (`bump.py`), the line diff (`diff.py`), the record store and file
helpers (`utils.py`), the save pipeline (`watch.py`), metadata sync
(`sync.py`), issue scanning (`fix.py`), history archiving (`archive.py`)
and the revision bump (`cli.py`).

Python strings are modelled as `List Char`; regular-expression scans from
the source are modelled by explicit leftmost-match scanning functions over
character lists.
-/

namespace DocWire

/-- Python strings are modelled as lists of characters. -/
abbrev Str := List Char

/-- Python regex word character `\w` (ASCII reading): alphanumeric or underscore. -/
def wordChar (c : Char) : Bool := c.isAlphanum || c = '_'

/-- Python whitespace as used by `str.strip()` and the regex class `\s`. -/
def pySpace (c : Char) : Bool :=
  c = ' ' || c = '\t' || c = '\n' || c = '\r' || c = '\x0b' || c = '\x0c'

/-- Whether `p` is a prefix of `s`. -/
def isPre : Str → Str → Bool
  | [], _ => true
  | _ :: _, [] => false
  | a :: as, b :: bs => a = b && isPre as bs

/-- Whether `pat` occurs as a contiguous substring of `s`. -/
def hasSub (pat : Str) : Str → Bool
  | [] => isPre pat []
  | s@(_ :: rest) => isPre pat s || hasSub pat rest

/-- Split `s` at the leftmost occurrence of `pat`: returns the part before
the occurrence and the part after it (regex leftmost-match search for a
literal pattern). -/
def breakOn (pat : Str) : Str → Option (Str × Str)
  | [] => if isPre pat [] then some ([], []) else none
  | s@(c :: rest) =>
    if isPre pat s then some ([], s.drop pat.length)
    else (breakOn pat rest).map (fun pq => (c :: pq.1, pq.2))

/-- Strip a literal prefix, returning the remainder on success. -/
def stripPre (pat s : Str) : Option Str :=
  if isPre pat s then some (s.drop pat.length) else none

/-- Greedy run of word characters from the front (`\w+` matching), with the rest. -/
def takeWordRun : Str → Str × Str
  | [] => ([], [])
  | c :: rest =>
    if wordChar c then
      let p := takeWordRun rest
      (c :: p.1, p.2)
    else ([], c :: rest)

/-- Greedy run of non-`|` characters from the front (`[^|]*` matching), with the rest. -/
def takeNoPipe : Str → Str × Str
  | [] => ([], [])
  | c :: rest =>
    if c = '|' then ([], c :: rest)
    else
      let p := takeNoPipe rest
      (c :: p.1, p.2)

/-- Python `content.split('\n')`. -/
def splitNl : Str → List Str
  | [] => [[]]
  | c :: rest =>
    if c = '\n' then [] :: splitNl rest
    else
      match splitNl rest with
      | [] => [[c]]
      | l :: ls => (c :: l) :: ls

/-- Python `'\n'.join(lines)`. -/
def joinNl : List Str → Str
  | [] => []
  | [l] => l
  | l :: ls => l ++ '\n' :: joinNl ls

/-- Drop leading Python whitespace. -/
def dropSpace : Str → Str
  | [] => []
  | c :: rest => if pySpace c then dropSpace rest else c :: rest

/-- Python `str.strip()`. -/
def pyStrip (s : Str) : Str := ((dropSpace s).reverse |> dropSpace).reverse

theorem isPre_iff {p s : Str} : isPre p s = true ↔ ∃ t, s = p ++ t := by
  induction p generalizing s with
  | nil => simp [isPre]
  | cons a as ih =>
    cases s with
    | nil =>
      simp [isPre]
    | cons b bs =>
      simp only [isPre, Bool.and_eq_true, decide_eq_true_eq, ih, List.cons_append]
      constructor
      · rintro ⟨rfl, t, rfl⟩; exact ⟨t, rfl⟩
      · rintro ⟨t, h⟩
        cases h
        exact ⟨rfl, t, rfl⟩

theorem isPre_append (p t : Str) : isPre p (p ++ t) = true :=
  isPre_iff.mpr ⟨t, rfl⟩

theorem isPre_refl (p : Str) : isPre p p = true := by
  have := isPre_append p []
  simpa using this

theorem hasSub_iff {pat s : Str} :
    hasSub pat s = true ↔ ∃ a b, s = a ++ pat ++ b := by
  induction s with
  | nil =>
    simp only [hasSub, isPre_iff]
    constructor
    · rintro ⟨t, h⟩
      exact ⟨[], t, by simpa using h⟩
    · rintro ⟨a, b, h⟩
      refine ⟨b, ?_⟩
      have : a = [] ∧ pat ++ b = [] := by
        constructor
        · cases a with
          | nil => rfl
          | cons x xs => simp at h
        · cases a with
          | nil => simpa using h.symm
          | cons x xs => simp at h
      rcases this with ⟨rfl, h2⟩
      simpa using h2.symm
  | cons c rest ih =>
    simp only [hasSub, Bool.or_eq_true, isPre_iff, ih]
    constructor
    · rintro (⟨t, h⟩ | ⟨a, b, h⟩)
      · exact ⟨[], t, by simpa using h⟩
      · exact ⟨c :: a, b, by simp [h]⟩
    · rintro ⟨a, b, h⟩
      cases a with
      | nil => exact Or.inl ⟨b, by simpa using h⟩
      | cons x xs =>
        simp only [List.cons_append, List.cons.injEq] at h
        exact Or.inr ⟨xs, b, h.2⟩

theorem hasSub_append_left {pat a : Str} (b : Str) (h : hasSub pat a = true) :
    hasSub pat (a ++ b) = true := by
  rcases hasSub_iff.mp h with ⟨x, y, rfl⟩
  exact hasSub_iff.mpr ⟨x, y ++ b, by simp⟩

theorem hasSub_append_right {pat b : Str} (a : Str) (h : hasSub pat b = true) :
    hasSub pat (a ++ b) = true := by
  rcases hasSub_iff.mp h with ⟨x, y, rfl⟩
  exact hasSub_iff.mpr ⟨a ++ x, y, by simp⟩

theorem breakOn_eq {pat s a b : Str} (h : breakOn pat s = some (a, b)) :
    s = a ++ pat ++ b := by
  induction s generalizing a b with
  | nil =>
    simp only [breakOn] at h
    by_cases hp : isPre pat [] = true
    · rcases isPre_iff.mp hp with ⟨t, ht⟩
      have hpat : pat = [] := by
        cases pat with
        | nil => rfl
        | cons x xs => simp at ht
      simp [hp, hpat] at h
      simp [h.1.symm, h.2.symm, hpat]
    · simp [Bool.not_eq_true] at hp
      simp [hp] at h
  | cons c rest ih =>
    simp only [breakOn] at h
    by_cases hp : isPre pat (c :: rest) = true
    · simp only [hp, if_pos] at h
      rcases isPre_iff.mp hp with ⟨t, ht⟩
      have hdrop : (c :: rest).drop pat.length = t := by
        rw [ht, List.drop_append_of_le_length (le_refl _)]
        simp
      rw [hdrop] at h
      cases h
      simpa using ht
    · rw [if_neg hp] at h
      rcases Option.map_eq_some'.mp h with ⟨⟨p, q⟩, hpq, hco⟩
      cases hco
      have := ih hpq
      simp [this]

theorem hasSub_cons (pat : Str) (c : Char) (s : Str) :
    hasSub pat (c :: s) = (isPre pat (c :: s) || hasSub pat s) := rfl

theorem hasSub_nil_of_ne {pat : Str} (hp : pat ≠ []) : hasSub pat [] = false := by
  cases pat with
  | nil => exact absurd rfl hp
  | cons x xs => simp [hasSub, isPre]

theorem hasSub_of_isPre {pat s : Str} (h : isPre pat s = true) : hasSub pat s = true := by
  rcases isPre_iff.mp h with ⟨t, rfl⟩
  exact hasSub_iff.mpr ⟨[], t, rfl⟩

theorem isPre_extend {p a : Str} (rest : Str) (h : isPre p a = true) :
    isPre p (a ++ rest) = true := by
  rcases isPre_iff.mp h with ⟨t, rfl⟩
  exact isPre_iff.mpr ⟨t ++ rest, by simp⟩

theorem isPre_split {p a b : Str} (h : isPre p (a ++ b) = true) :
    isPre p a = true ∨ ∃ t, p = a ++ t ∧ isPre t b = true := by
  induction a generalizing p with
  | nil =>
    right
    exact ⟨p, rfl, by simpa using h⟩
  | cons c a' ih =>
    cases p with
    | nil => left; simp [isPre]
    | cons d p' =>
      simp only [List.cons_append, isPre, Bool.and_eq_true, decide_eq_true_eq] at h
      rcases h with ⟨rfl, h2⟩
      rcases ih h2 with h3 | ⟨t, rfl, h4⟩
      · left; simpa [isPre] using h3
      · right; exact ⟨t, rfl, h4⟩

theorem hasSub_append_no_head {pat1 : Str} {h0 : Char} {a b : Str}
    (ha : ∀ c ∈ a, c ≠ h0) :
    hasSub (h0 :: pat1) (a ++ b) = hasSub (h0 :: pat1) b := by
  induction a with
  | nil => rfl
  | cons c a' ih =>
    have hc : c ≠ h0 := ha c (List.mem_cons_self c a')
    have hpre : isPre (h0 :: pat1) (c :: (a' ++ b)) = false := by
      simp [isPre, Ne.symm hc]
    rw [List.cons_append, hasSub_cons, hpre]
    simp only [Bool.false_or]
    exact ih fun c hc' => ha c (List.mem_cons_of_mem _ hc')

theorem breakOn_append_no_head {pat1 : Str} {h0 : Char} {a b : Str}
    (ha : ∀ c ∈ a, c ≠ h0) :
    breakOn (h0 :: pat1) (a ++ b) =
      (breakOn (h0 :: pat1) b).map (fun pq => (a ++ pq.1, pq.2)) := by
  induction a with
  | nil =>
    cases h : breakOn (h0 :: pat1) b <;> simp [h]
  | cons c a' ih =>
    have hc : c ≠ h0 := ha c (List.mem_cons_self c a')
    have hpre : isPre (h0 :: pat1) (c :: (a' ++ b)) = false := by
      simp [isPre, Ne.symm hc]
    rw [List.cons_append, breakOn, hpre]
    simp only [Bool.false_eq_true, if_false]
    rw [ih fun c hc' => ha c (List.mem_cons_of_mem _ hc')]
    cases h : breakOn (h0 :: pat1) b <;> simp [h]

theorem isPre_append_nl_eq {pat a b : Str} (hnl : '\n' ∉ pat) :
    isPre pat (a ++ '\n' :: b) = isPre pat (a ++ ['\n']) := by
  by_cases h1 : isPre pat (a ++ ['\n']) = true
  · rw [h1]
    have := isPre_extend b h1
    simpa using this
  · rw [Bool.not_eq_true] at h1
    rw [h1]
    by_cases h2 : isPre pat (a ++ '\n' :: b) = true
    · exfalso
      have : a ++ '\n' :: b = (a ++ ['\n']) ++ b := by simp
      rw [this] at h2
      rcases isPre_split h2 with h3 | ⟨t, rfl, _⟩
      · rw [h1] at h3; exact Bool.false_ne_true h3
      · exact hnl (by simp)
    · simpa using h2

theorem hasSub_append_nl {pat a b : Str} (hp : pat ≠ []) (hnl : '\n' ∉ pat) :
    hasSub pat (a ++ '\n' :: b) = (hasSub pat a || hasSub pat b) := by
  induction a with
  | nil =>
    have hpre : isPre pat ('\n' :: b) = false := by
      by_cases h : isPre pat ('\n' :: b) = true
      · exfalso
        cases pat with
        | nil => exact hp rfl
        | cons x xs =>
          simp only [isPre, Bool.and_eq_true, decide_eq_true_eq] at h
          exact hnl (by simp [h.1])
      · simpa using h
    simp [hasSub_cons, hpre, hasSub_nil_of_ne hp]
  | cons c a' ih =>
    rw [List.cons_append, hasSub_cons, ih, hasSub_cons, Bool.or_assoc]
    congr 1
    have h1 : isPre pat (c :: (a' ++ '\n' :: b)) = isPre pat ((c :: a') ++ '\n' :: b) := rfl
    have h2 : isPre pat (c :: a') = isPre pat ((c :: a') ++ ['\n']) := by
      by_cases h : isPre pat (c :: a') = true
      · rw [h, isPre_extend ['\n'] h]
      · rw [Bool.not_eq_true] at h
        rw [h]
        by_cases h' : isPre pat ((c :: a') ++ ['\n']) = true
        · exfalso
          rcases isPre_split h' with h3 | ⟨t, rfl, h4⟩
          · rw [h] at h3; exact Bool.false_ne_true h3
          · cases t with
            | nil =>
              simp only [List.append_nil] at h
              rw [isPre_refl] at h
              simp at h
            | cons u t' =>
              simp only [isPre, Bool.and_eq_true, decide_eq_true_eq] at h4
              exact hnl (by simp [h4.1])
        · simpa using h'
    rw [h1, isPre_append_nl_eq hnl, h2]

theorem breakOn_self (pat b : Str) : breakOn pat (pat ++ b) = some ([], b) := by
  cases hs : pat ++ b with
  | nil =>
    have hp : pat = [] := by cases pat <;> simp_all
    have hb : b = [] := by cases b <;> simp_all
    subst hp; subst hb
    simp [breakOn, isPre]
  | cons c rest =>
    rw [breakOn]
    have hpre : isPre pat (c :: rest) = true := by
      rw [← hs]; exact isPre_append pat b
    rw [hpre]
    simp only [if_true]
    congr 1
    rw [← hs, List.drop_left]

theorem breakOn_marker_nl {pat a b : Str} (hp : pat ≠ []) (hnl : '\n' ∉ pat)
    (hno : hasSub pat (a ++ ['\n']) = false) :
    breakOn pat ((a ++ ['\n']) ++ pat ++ b) = some (a ++ ['\n'], b) := by
  induction a with
  | nil =>
    have hpre : isPre pat ('\n' :: (pat ++ b)) = false := by
      by_cases h : isPre pat ('\n' :: (pat ++ b)) = true
      · exfalso
        cases pat with
        | nil => exact hp rfl
        | cons x xs =>
          simp only [isPre, Bool.and_eq_true, decide_eq_true_eq] at h
          exact hnl (by simp [h.1])
      · simpa using h
    have : ([] : Str) ++ ['\n'] ++ pat ++ b = '\n' :: (pat ++ b) := by simp
    rw [this, breakOn, hpre]
    simp only [Bool.false_eq_true, if_false]
    rw [breakOn_self]
    rfl
  | cons c a' ih =>
    simp only [List.cons_append] at hno
    have hX : hasSub pat (a' ++ ['\n']) = false := by
      rw [hasSub_cons] at hno
      exact (Bool.or_eq_false_iff.mp hno).2
    have hpre : isPre pat (c :: ((a' ++ ['\n']) ++ (pat ++ b))) = false := by
      by_cases h : isPre pat (c :: ((a' ++ ['\n']) ++ (pat ++ b))) = true
      · exfalso
        have hre : c :: ((a' ++ ['\n']) ++ (pat ++ b)) =
            (c :: (a' ++ ['\n'])) ++ (pat ++ b) := rfl
        rw [hre] at h
        rcases isPre_split h with h3 | ⟨t, rfl, _⟩
        · have hss : hasSub pat (c :: (a' ++ ['\n'])) = true := hasSub_of_isPre h3
          rw [hno] at hss
          exact Bool.false_ne_true hss
        · exact hnl (by simp)
      · simpa using h
    have hre2 : ((c :: a') ++ ['\n']) ++ pat ++ b =
        c :: ((a' ++ ['\n']) ++ (pat ++ b)) := by simp
    rw [hre2, breakOn, hpre]
    simp only [Bool.false_eq_true, if_false]
    rw [show (a' ++ ['\n']) ++ (pat ++ b) = (a' ++ ['\n']) ++ pat ++ b by simp, ih hX]
    rfl

theorem splitNl_no_nl {a : Str} (ha : '\n' ∉ a) : splitNl a = [a] := by
  induction a with
  | nil => rfl
  | cons c a' ih =>
    have hc : ¬(c = '\n') := fun h => ha (by simp [h])
    rw [splitNl, if_neg hc, ih (fun h => ha (List.mem_cons_of_mem _ h))]

theorem splitNl_append_nl {a b : Str} (ha : '\n' ∉ a) :
    splitNl (a ++ '\n' :: b) = a :: splitNl b := by
  induction a with
  | nil => simp [splitNl]
  | cons c a' ih =>
    have hc : ¬(c = '\n') := fun h => ha (by simp [h])
    rw [List.cons_append, splitNl, if_neg hc, ih (fun h => ha (List.mem_cons_of_mem _ h))]

/-- A string has no leading Python whitespace. -/
def headNonSpace : Str → Bool
  | [] => true
  | c :: _ => !pySpace c

/-- A string equal to its own `strip()`: no leading or trailing whitespace. -/
def trimmedB (s : Str) : Bool := headNonSpace s && headNonSpace s.reverse

theorem dropSpace_of_headNonSpace {s : Str} (h : headNonSpace s = true) :
    dropSpace s = s := by
  cases s with
  | nil => rfl
  | cons c rest =>
    simp only [headNonSpace, Bool.not_eq_true'] at h
    rw [dropSpace, h]
    simp

theorem pyStrip_of_trimmed {s : Str} (h : trimmedB s = true) : pyStrip s = s := by
  rw [trimmedB, Bool.and_eq_true] at h
  obtain ⟨h1, h2⟩ := h
  rw [pyStrip]
  rw [dropSpace_of_headNonSpace h1, dropSpace_of_headNonSpace h2, List.reverse_reverse]

theorem pyStrip_pad {s : Str} (h : trimmedB s = true) :
    pyStrip (' ' :: (s ++ [' '])) = s := by
  rw [trimmedB, Bool.and_eq_true] at h
  obtain ⟨h1, h2⟩ := h
  rw [pyStrip]
  rw [show dropSpace (' ' :: (s ++ [' '])) = dropSpace (s ++ [' ']) by simp [dropSpace, pySpace]]
  cases s with
  | nil => simp [dropSpace, pySpace]
  | cons c rest =>
    simp only [headNonSpace, Bool.not_eq_true'] at h1
    rw [List.cons_append, dropSpace, h1]
    simp only [Bool.false_eq_true, if_false]
    rw [show ((c :: (rest ++ [' '])).reverse) = ' ' :: (c :: rest).reverse by simp]
    rw [show dropSpace (' ' :: (c :: rest).reverse) = dropSpace ((c :: rest).reverse) by
      simp [dropSpace, pySpace]]
    rw [dropSpace_of_headNonSpace h2, List.reverse_reverse]

/-! ## MarkupCodec: `dwml.py` -/

/-- A block/container field value: Python stores either a `str` or a `list`
of strings in `fields` (`DWMLBlock.set`, `_parse_value_line`). -/
inductive FieldValue where
  | scalar (v : Str)
  | list (vs : List Str)
deriving DecidableEq, Repr

/-- An insertion-ordered string-keyed dictionary (Python `dict`). -/
abbrev Dict (α : Type) := List (Str × α)

/-- Python `d[k] = v`: overwrite in place if the key exists, else append. -/
def dinsert {α : Type} : Dict α → Str → α → Dict α
  | [], k, v => [(k, v)]
  | (k', v') :: rest, k, v =>
    if k' = k then (k, v) :: rest else (k', v') :: dinsert rest k v

/-- Python `d.get(k)`. -/
def dlookup {α : Type} : Dict α → Str → Option α
  | [], _ => none
  | (k', v) :: rest, k => if k' = k then some v else dlookup rest k

/-- Python `k in d`. -/
def dmem {α : Type} (d : Dict α) (k : Str) : Bool := (dlookup d k).isSome

abbrev Fields := Dict FieldValue

/-- `DWMLContainer`: a `=dw=...=wd=` container. -/
structure DWMLContainer where
  fields : Fields := []
  added : List Str := []
  removed : List Str := []
  comments : List Str := []
  raw_lines : List Str := []
deriving DecidableEq, Repr

/-- `DWMLBlock`: a named block. -/
structure DWMLBlock where
  name : Str
  fields : Fields := []
  containers : List DWMLContainer := []
  comments : List Str := []
  raw_lines : List Str := []
deriving DecidableEq, Repr

/-- `DWML`: a parsed document (dict of blocks plus the block-name order). -/
structure DWML where
  blocks : Dict DWMLBlock := []
  block_order : List Str := []
deriving DecidableEq, Repr

/-- `DWMLBlock.set`. -/
def DWMLBlock.set (b : DWMLBlock) (key : Str) (value : FieldValue) : DWMLBlock :=
  { b with fields := dinsert b.fields key value }

/-- `DWMLBlock.add_container`. -/
def DWMLBlock.add_container (b : DWMLBlock) (c : DWMLContainer) : DWMLBlock :=
  { b with containers := b.containers ++ [c] }

/-- `DWML.add_block`: create a block (setting the given fields) and append it. -/
def DWML.add_block (doc : DWML) (name : Str) (fields : Fields := []) : DWML :=
  let block := fields.foldl (fun b kv => b.set kv.1 kv.2) { name := name : DWMLBlock }
  { blocks := dinsert doc.blocks name block,
    block_order := doc.block_order ++ [name] }

theorem stripPre_eq {pat s r : Str} (h : stripPre pat s = some r) : s = pat ++ r := by
  rw [stripPre] at h
  by_cases hp : isPre pat s = true
  · rw [if_pos hp] at h
    rcases isPre_iff.mp hp with ⟨t, rfl⟩
    rw [List.drop_left] at h
    cases h
    rfl
  · rw [if_neg hp] at h
    cases h

theorem takeWordRun_eq (s : Str) : s = (takeWordRun s).1 ++ (takeWordRun s).2 := by
  induction s with
  | nil => rfl
  | cons c rest ih =>
    rw [takeWordRun]
    by_cases h : wordChar c = true
    · simp only [h, if_true, List.cons_append]
      exact congrArg (c :: ·) ih
    · simp only [h, if_false]
      simp at h
      simp [h]

theorem takeNoPipe_eq (s : Str) : s = (takeNoPipe s).1 ++ (takeNoPipe s).2 := by
  induction s with
  | nil => rfl
  | cons c rest ih =>
    rw [takeNoPipe]
    by_cases h : c = '|'
    · simp [h]
    · simp only [h, if_false, List.cons_append]
      exact congrArg (c :: ·) ih

/-- One attempted match of the block regex `=d=(\w+)=w=(.*?)=q=\1=e=` (DOTALL)
at the start of `s`: returns the name, block content, and the remainder after
the close tag. -/
def DWML.tryBlockAt (s : Str) : Option (Str × Str × Str) :=
  match stripPre ("=d=".data) s with
  | none => none
  | some s1 =>
    if (takeWordRun s1).1.isEmpty then none
    else
      match stripPre ("=w=".data) (takeWordRun s1).2 with
      | none => none
      | some s3 =>
        match breakOn (("=q=".data) ++ (takeWordRun s1).1 ++ ("=e=".data)) s3 with
        | none => none
        | some bc => some ((takeWordRun s1).1, bc.1, bc.2)

theorem tryBlockAt_eq {s : Str} {n bc rest : Str}
    (h : DWML.tryBlockAt s = some (n, bc, rest)) :
    s = ("=d=".data) ++ n ++ ("=w=".data) ++ bc ++
        (("=q=".data) ++ n ++ ("=e=".data)) ++ rest ∧ n ≠ [] := by
  rw [DWML.tryBlockAt] at h
  split at h
  · exact absurd h (by simp)
  · rename_i s1 h1
    split at h
    · exact absurd h (by simp)
    · rename_i hne
      split at h
      · exact absurd h (by simp)
      · rename_i s3 h3
        split at h
        · exact absurd h (by simp)
        · rename_i bc2 h4
          have e1 := stripPre_eq h1
          have e2 := takeWordRun_eq s1
          have e3 := stripPre_eq h3
          have e4 := breakOn_eq h4
          cases h
          constructor
          · rw [e1]
            conv_lhs => rw [e2]
            rw [e3, e4]
            simp
          · intro hn
            rw [hn] at hne
            simp at hne

theorem tryBlockAt_length {s : Str} {n bc rest : Str}
    (h : DWML.tryBlockAt s = some (n, bc, rest)) : rest.length < s.length := by
  have e := (tryBlockAt_eq h).1
  have el := congrArg List.length e
  simp only [List.length_append, List.length_cons, List.length_nil] at el
  omega

/-- Fuel-driven worker for `DWML.findBlocks` (structural recursion so that
the scan evaluates in the kernel). -/
def findBlocksGo : Nat → Str → List (Str × Str)
  | 0, _ => []
  | _, [] => []
  | fuel + 1, c :: rest =>
    match DWML.tryBlockAt (c :: rest) with
    | some (n2, bc2, r2) => (n2, bc2) :: findBlocksGo fuel r2
    | none => findBlocksGo fuel rest

theorem findBlocksGo_congr : ∀ (f1 : Nat), ∀ (f2 : Nat) (s : Str),
    s.length < f1 → s.length < f2 → findBlocksGo f1 s = findBlocksGo f2 s := by
  intro f1
  induction f1 with
  | zero => intro f2 s h1 _; exact absurd h1 (by omega)
  | succ f ih =>
    intro f2 s h1 h2
    cases f2 with
    | zero => exact absurd h2 (by omega)
    | succ g =>
      cases s with
      | nil => rfl
      | cons c rest =>
        rw [findBlocksGo, findBlocksGo]
        cases h : DWML.tryBlockAt (c :: rest) with
        | some nbr =>
          obtain ⟨n2, bc2, r2⟩ := nbr
          have hl := tryBlockAt_length h
          simp only [List.length_cons] at h1 h2 hl
          dsimp only
          rw [ih g r2 (by omega) (by omega)]
        | none =>
          simp only [List.length_cons] at h1 h2
          dsimp only
          rw [ih g rest (by omega) (by omega)]

/-- `finditer` of the block regex: all non-overlapping leftmost matches, as
(name, content) pairs. -/
def DWML.findBlocks (s : Str) : List (Str × Str) := findBlocksGo (s.length + 1) s

theorem findBlocks_nil : DWML.findBlocks [] = [] := rfl

theorem findBlocks_some {c : Char} {s : Str} {n bc rest : Str}
    (h : DWML.tryBlockAt (c :: s) = some (n, bc, rest)) :
    DWML.findBlocks (c :: s) = (n, bc) :: DWML.findBlocks rest := by
  rw [DWML.findBlocks, DWML.findBlocks]
  rw [show (c :: s).length + 1 = s.length + 1 + 1 by simp, findBlocksGo, h]
  have hl := tryBlockAt_length h
  simp only [List.length_cons] at hl
  dsimp only
  rw [findBlocksGo_congr (s.length + 1) (rest.length + 1) rest (by omega) (by omega)]

theorem findBlocks_none_cons {c : Char} {s : Str} (h : DWML.tryBlockAt (c :: s) = none) :
    DWML.findBlocks (c :: s) = DWML.findBlocks s := by
  rw [DWML.findBlocks, DWML.findBlocks]
  rw [show (c :: s).length + 1 = s.length + 1 + 1 by simp, findBlocksGo, h]

/-- Fuel-driven worker for `DWML.splitContainers`. -/
def splitContainersGo : Nat → Str → List Str × Str
  | 0, _ => ([], [])
  | _, [] => ([], [])
  | fuel + 1, c :: rest =>
    if isPre ("=dw=".data) (c :: rest) = true then
      match breakOn ("=wd=".data) ((c :: rest).drop 4) with
      | some iq =>
        let r := splitContainersGo fuel iq.2
        (iq.1 :: r.1, r.2)
      | none =>
        let r := splitContainersGo fuel rest
        (r.1, c :: r.2)
    else
      let r := splitContainersGo fuel rest
      (r.1, c :: r.2)

theorem splitContainers_close_length {c : Char} {rest : Str} {iq : Str × Str}
    (h : breakOn ("=wd=".data) ((c :: rest).drop 4) = some iq) :
    iq.2.length < (c :: rest).length := by
  have e := breakOn_eq (show breakOn (("=wd=".data)) ((c :: rest).drop 4) =
    some (iq.1, iq.2) from by rw [h])
  have el := congrArg List.length e
  rw [List.length_drop] at el
  simp only [List.length_append, List.length_cons, List.length_nil] at el ⊢
  omega

theorem splitContainersGo_congr : ∀ (f1 : Nat), ∀ (f2 : Nat) (s : Str),
    s.length < f1 → s.length < f2 → splitContainersGo f1 s = splitContainersGo f2 s := by
  intro f1
  induction f1 with
  | zero => intro f2 s h1 _; exact absurd h1 (by omega)
  | succ f ih =>
    intro f2 s h1 h2
    cases f2 with
    | zero => exact absurd h2 (by omega)
    | succ g =>
      cases s with
      | nil => rfl
      | cons c rest =>
        rw [splitContainersGo, splitContainersGo]
        by_cases hp : isPre ("=dw=".data) (c :: rest) = true
        · rw [if_pos hp, if_pos hp]
          cases h : breakOn ("=wd=".data) ((c :: rest).drop 4) with
          | some iq =>
            have hl := splitContainers_close_length h
            simp only [List.length_cons] at h1 h2 hl
            simp only [ih g iq.2 (by omega) (by omega)]
          | none =>
            simp only [List.length_cons] at h1 h2
            simp only [ih g rest (by omega) (by omega)]
        · rw [if_neg hp, if_neg hp]
          simp only [List.length_cons] at h1 h2
          simp only [ih g rest (by omega) (by omega)]

/-- Combined model of `container_pattern.finditer` and `container_pattern.sub('', ...)`
for `=dw=(.*?)=wd=` (DOTALL): the list of container contents in match order, and
the content with the matched spans removed. -/
def DWML.splitContainers (s : Str) : List Str × Str := splitContainersGo (s.length + 1) s

theorem splitContainers_nil : DWML.splitContainers [] = ([], []) := rfl

theorem splitContainers_open {c : Char} {rest : Str} {iq : Str × Str}
    (hp : isPre ("=dw=".data) (c :: rest) = true)
    (h : breakOn ("=wd=".data) ((c :: rest).drop 4) = some iq) :
    DWML.splitContainers (c :: rest) =
      (iq.1 :: (DWML.splitContainers iq.2).1, (DWML.splitContainers iq.2).2) := by
  rw [DWML.splitContainers, DWML.splitContainers]
  rw [show (c :: rest).length + 1 = rest.length + 1 + 1 by simp, splitContainersGo,
    if_pos hp, h]
  have hl := splitContainers_close_length h
  simp only [List.length_cons] at hl
  simp only [splitContainersGo_congr (rest.length + 1) (iq.2.length + 1) iq.2
    (by omega) (by omega)]

theorem splitContainers_step {c : Char} {rest : Str}
    (hp : isPre ("=dw=".data) (c :: rest) = false ∨
      breakOn ("=wd=".data) ((c :: rest).drop 4) = none) :
    DWML.splitContainers (c :: rest) =
      ((DWML.splitContainers rest).1, c :: (DWML.splitContainers rest).2) := by
  rw [DWML.splitContainers, DWML.splitContainers]
  rw [show (c :: rest).length + 1 = rest.length + 1 + 1 by simp, splitContainersGo]
  rcases hp with hp | hp
  · rw [if_neg (by rw [hp]; exact Bool.false_ne_true)]
  · by_cases hp2 : isPre ("=dw=".data) (c :: rest) = true
    · rw [if_pos hp2, hp]
    · rw [if_neg hp2]

/-- Regex search for `opn(.*?)cls` on a single line (the line parsers run on
`'\n'`-split lines, so `.` covers every character): the raw text between the
leftmost `opn` and the first `cls` after it. -/
def searchTag (opn cls s : Str) : Option Str :=
  match breakOn opn s with
  | none => none
  | some pr =>
    match breakOn cls pr.2 with
    | none => none
    | some mq => some mq.1

/-- Search for `CONTENT_PATTERN` (`=x=\s*(.*?)\s*=z=`) on a single line: the
flanking `\s*` make the group the stripped text between the delimiters. -/
def searchContent (s : Str) : Option Str :=
  (searchTag ("=x=".data) ("=z=".data) s).map pyStrip

/-- One attempted match of `VALUE_PATTERN` (`(\w+);\|([^|]*)\|;`) at the start
of `s`: key, value, and remainder. -/
def tryValueAt (s : Str) : Option (Str × Str × Str) :=
  if (takeWordRun s).1.isEmpty then none
  else
    match stripPre (";|".data) (takeWordRun s).2 with
    | none => none
    | some s2 =>
      match stripPre ("|;".data) (takeNoPipe s2).2 with
      | none => none
      | some s4 => some ((takeWordRun s).1, (takeNoPipe s2).1, s4)

theorem tryValueAt_eq {s k v rest : Str} (h : tryValueAt s = some (k, v, rest)) :
    s = k ++ (";|".data) ++ v ++ ("|;".data) ++ rest ∧ k ≠ [] := by
  rw [tryValueAt] at h
  split at h
  · exact absurd h (by simp)
  · rename_i hne
    split at h
    · exact absurd h (by simp)
    · rename_i s2 h2
      split at h
      · exact absurd h (by simp)
      · rename_i s4 h4
        cases h
        constructor
        · conv_lhs => rw [takeWordRun_eq s]
          rw [stripPre_eq h2]
          conv_lhs => rw [takeNoPipe_eq s2]
          rw [stripPre_eq h4]
          simp
        · intro hk
          rw [hk] at hne
          simp at hne

theorem tryValueAt_length {s k v rest : Str} (h : tryValueAt s = some (k, v, rest)) :
    rest.length < s.length := by
  obtain ⟨e, hk⟩ := tryValueAt_eq h
  have el := congrArg List.length e
  simp only [List.length_append, List.length_cons, List.length_nil] at el
  have : k.length ≠ 0 := fun h0 => hk (List.length_eq_zero.mp h0)
  omega

/-- Fuel-driven worker for `valueMatches`. -/
def valueMatchesGo : Nat → Str → List (Str × Str)
  | 0, _ => []
  | _, [] => []
  | fuel + 1, c :: rest =>
    match tryValueAt (c :: rest) with
    | some (k, v, r) => (k, v) :: valueMatchesGo fuel r
    | none => valueMatchesGo fuel rest

theorem valueMatchesGo_congr : ∀ (f1 : Nat), ∀ (f2 : Nat) (s : Str),
    s.length < f1 → s.length < f2 → valueMatchesGo f1 s = valueMatchesGo f2 s := by
  intro f1
  induction f1 with
  | zero => intro f2 s h1 _; exact absurd h1 (by omega)
  | succ f ih =>
    intro f2 s h1 h2
    cases f2 with
    | zero => exact absurd h2 (by omega)
    | succ g =>
      cases s with
      | nil => rfl
      | cons c rest =>
        rw [valueMatchesGo, valueMatchesGo]
        cases h : tryValueAt (c :: rest) with
        | some kvr =>
          obtain ⟨k, v, r⟩ := kvr
          have hl := tryValueAt_length h
          simp only [List.length_cons] at h1 h2 hl
          dsimp only
          rw [ih g r (by omega) (by omega)]
        | none =>
          simp only [List.length_cons] at h1 h2
          dsimp only
          rw [ih g rest (by omega) (by omega)]

/-- `VALUE_PATTERN.finditer`: all non-overlapping leftmost key/value matches. -/
def valueMatches (s : Str) : List (Str × Str) := valueMatchesGo (s.length + 1) s

theorem valueMatches_nil : valueMatches [] = [] := rfl

theorem valueMatches_some {c : Char} {s : Str} {k v r : Str}
    (h : tryValueAt (c :: s) = some (k, v, r)) :
    valueMatches (c :: s) = (k, v) :: valueMatches r := by
  rw [valueMatches, valueMatches]
  rw [show (c :: s).length + 1 = s.length + 1 + 1 by simp, valueMatchesGo, h]
  have hl := tryValueAt_length h
  simp only [List.length_cons] at hl
  dsimp only
  rw [valueMatchesGo_congr (s.length + 1) (r.length + 1) r (by omega) (by omega)]

theorem valueMatches_none {c : Char} {s : Str} (h : tryValueAt (c :: s) = none) :
    valueMatches (c :: s) = valueMatches s := by
  rw [valueMatches, valueMatches]
  rw [show (c :: s).length + 1 = s.length + 1 + 1 by simp, valueMatchesGo, h]

/-- One repetition of `;\|[^|]*\|;,?` inside `list_pattern`s group (the
optional comma is matched greedily): value and remainder. -/
def tryListRep (s : Str) : Option (Str × Str) :=
  match stripPre (";|".data) s with
  | none => none
  | some s1 =>
    match stripPre ("|;".data) (takeNoPipe s1).2 with
    | none => none
    | some s3 =>
      match s3 with
      | ',' :: rest => some ((takeNoPipe s1).1, rest)
      | _ => some ((takeNoPipe s1).1, s3)

theorem tryListRep_eq {s v rest : Str} (h : tryListRep s = some (v, rest)) :
    s = (";|".data) ++ v ++ ("|;".data) ++ rest ∨
      s = (";|".data) ++ v ++ ("|;".data) ++ (',' :: rest) := by
  rw [tryListRep] at h
  split at h
  · exact absurd h (by simp)
  · rename_i s1 h1
    split at h
    · exact absurd h (by simp)
    · rename_i s3 h3
      have e1 := stripPre_eq h1
      have e3 := stripPre_eq h3
      split at h
      · cases h
        right
        rw [e1]
        conv_lhs => rw [takeNoPipe_eq s1]
        rw [e3]
        simp
      · cases h
        left
        rw [e1]
        conv_lhs => rw [takeNoPipe_eq s1]
        rw [e3]
        simp

theorem tryListRep_length {s v rest : Str} (h : tryListRep s = some (v, rest)) :
    rest.length + 4 ≤ s.length := by
  rcases tryListRep_eq h with e | e <;>
  · have el := congrArg List.length e
    simp only [List.length_append, List.length_cons, List.length_nil] at el
    omega

/-- Fuel-driven worker for `listChainAux`: the greedy `(?:;\|[^|]*\|;,?)+`
repetition, collecting values and the remainder after the whole chain. -/
def listChainAuxGo : Nat → Str → List Str × Str
  | 0, s => ([], s)
  | fuel + 1, s =>
    match tryListRep s with
    | none => ([], s)
    | some (v, rest2) =>
      let r := listChainAuxGo fuel rest2
      (v :: r.1, r.2)

theorem listChainAuxGo_congr : ∀ (f1 : Nat), ∀ (f2 : Nat) (s : Str),
    s.length < f1 → s.length < f2 → listChainAuxGo f1 s = listChainAuxGo f2 s := by
  intro f1
  induction f1 with
  | zero => intro f2 s h1 _; exact absurd h1 (by omega)
  | succ f ih =>
    intro f2 s h1 h2
    cases f2 with
    | zero => exact absurd h2 (by omega)
    | succ g =>
      rw [listChainAuxGo, listChainAuxGo]
      cases h : tryListRep s with
      | some vr =>
        obtain ⟨v, rest2⟩ := vr
        have hl := tryListRep_length h
        simp only [ih g rest2 (by omega) (by omega)]
      | none => rfl

/-- The greedy `(?:;\|[^|]*\|;,?)+` repetition: the values collected and the
remainder after the whole chain (possibly zero repetitions). -/
def listChainAux (s : Str) : List Str × Str := listChainAuxGo (s.length + 1) s

theorem listChainAux_none {s : Str} (h : tryListRep s = none) :
    listChainAux s = ([], s) := by
  rw [listChainAux, listChainAuxGo, h]

theorem listChainAux_some {s : Str} {v rest : Str} (h : tryListRep s = some (v, rest)) :
    listChainAux s =
      ((v :: (listChainAux rest).1), (listChainAux rest).2) := by
  rw [listChainAux, listChainAux, listChainAuxGo, h]
  have hl := tryListRep_length h
  simp only [listChainAuxGo_congr (s.length) (rest.length + 1) rest (by omega) (by omega)]

theorem listChainAux_length (s : Str) : (listChainAux s).2.length ≤ s.length := by
  have key : ∀ (fuel : Nat) (t : Str), (listChainAuxGo fuel t).2.length ≤ t.length := by
    intro fuel
    induction fuel with
    | zero => intro t; rfl
    | succ f ih =>
      intro t
      rw [listChainAuxGo]
      cases h : tryListRep t with
      | none => rfl
      | some vr =>
        obtain ⟨v, rest2⟩ := vr
        have hl := tryListRep_length h
        have := ih rest2
        simp only
        omega
  exact key (s.length + 1) s

/-- One attempted match of `list_pattern` (`(\w+)((?:;\|[^|]*\|;,?)+)`) at the
start of `s`: key, the values of the repetition group (at least one), and the
remainder. -/
def tryListAt (s : Str) : Option (Str × List Str × Str) :=
  if (takeWordRun s).1.isEmpty then none
  else
    if (listChainAux (takeWordRun s).2).1.isEmpty then none
    else
      some ((takeWordRun s).1, (listChainAux (takeWordRun s).2).1,
        (listChainAux (takeWordRun s).2).2)

theorem tryListAt_length {s : Str} {k : Str} {vs : List Str} {rest : Str}
    (h : tryListAt s = some (k, vs, rest)) : rest.length < s.length := by
  rw [tryListAt] at h
  split at h
  · exact absurd h (by simp)
  · rename_i hne
    split at h
    · exact absurd h (by simp)
    · cases h
      have e := takeWordRun_eq s
      have hkne : (takeWordRun s).1 ≠ [] := by
        intro h0
        rw [h0] at hne
        simp at hne
      have h1 : (listChainAux (takeWordRun s).2).2.length ≤ (takeWordRun s).2.length :=
        listChainAux_length (takeWordRun s).2
      have el := congrArg List.length e
      simp only [List.length_append] at el
      have : (takeWordRun s).1.length ≠ 0 :=
        fun h0 => hkne (List.length_eq_zero.mp h0)
      omega

/-- Fuel-driven worker for `listMatches`. -/
def listMatchesGo : Nat → Str → List (Str × List Str)
  | 0, _ => []
  | _, [] => []
  | fuel + 1, c :: rest =>
    match tryListAt (c :: rest) with
    | some (k, vs, r) => (k, vs) :: listMatchesGo fuel r
    | none => listMatchesGo fuel rest

theorem listMatchesGo_congr : ∀ (f1 : Nat), ∀ (f2 : Nat) (s : Str),
    s.length < f1 → s.length < f2 → listMatchesGo f1 s = listMatchesGo f2 s := by
  intro f1
  induction f1 with
  | zero => intro f2 s h1 _; exact absurd h1 (by omega)
  | succ f ih =>
    intro f2 s h1 h2
    cases f2 with
    | zero => exact absurd h2 (by omega)
    | succ g =>
      cases s with
      | nil => rfl
      | cons c rest =>
        rw [listMatchesGo, listMatchesGo]
        cases h : tryListAt (c :: rest) with
        | some kvr =>
          obtain ⟨k, vs, r⟩ := kvr
          have hl := tryListAt_length h
          simp only [List.length_cons] at h1 h2 hl
          dsimp only
          rw [ih g r (by omega) (by omega)]
        | none =>
          simp only [List.length_cons] at h1 h2
          dsimp only
          rw [ih g rest (by omega) (by omega)]

/-- `list_pattern.finditer`, with `VALUE_LIST_PATTERN.findall` applied to each
match: key and collected values. -/
def listMatches (s : Str) : List (Str × List Str) := listMatchesGo (s.length + 1) s

theorem listMatches_nil : listMatches [] = [] := rfl

theorem listMatches_some {c : Char} {s : Str} {k : Str} {vs : List Str} {r : Str}
    (h : tryListAt (c :: s) = some (k, vs, r)) :
    listMatches (c :: s) = (k, vs) :: listMatches r := by
  rw [listMatches, listMatches]
  rw [show (c :: s).length + 1 = s.length + 1 + 1 by simp, listMatchesGo, h]
  have hl := tryListAt_length h
  simp only [List.length_cons] at hl
  dsimp only
  rw [listMatchesGo_congr (s.length + 1) (r.length + 1) r (by omega) (by omega)]

theorem listMatches_none {c : Char} {s : Str} (h : tryListAt (c :: s) = none) :
    listMatches (c :: s) = listMatches s := by
  rw [listMatches, listMatches]
  rw [show (c :: s).length + 1 = s.length + 1 + 1 by simp, listMatchesGo, h]

/-- `DWML._parse_value_line`: the `VALUE_PATTERN` loop (duplicate keys become
lists) followed by the `list_pattern` loop (comma-joined lists override when
more than one value was found). -/
def parse_value_line (fields : Fields) (line : Str) : Fields :=
  let fields1 := (valueMatches line).foldl (fun fs kv =>
    match dlookup fs kv.1 with
    | some (FieldValue.list vs) => dinsert fs kv.1 (FieldValue.list (vs ++ [kv.2]))
    | some (FieldValue.scalar v0) => dinsert fs kv.1 (FieldValue.list [v0, kv.2])
    | none => dinsert fs kv.1 (FieldValue.scalar kv.2)) fields
  (listMatches line).foldl (fun fs kl =>
    if 1 < kl.2.length then dinsert fs kl.1 (FieldValue.list kl.2) else fs) fields1

/-- `DWML._parse_container_content`: per-line comment / added / removed /
content classification. -/
def parse_container_content (content : Str) : DWMLContainer :=
  (splitNl content).foldl (fun cont rawLine =>
    let line := pyStrip rawLine
    if line.isEmpty then cont
    else
      match searchTag ("=#=".data) ("=o=".data) line with
      | some m => { cont with comments := cont.comments ++ [pyStrip m] }
      | none =>
        match searchTag ("=+=".data) ("=o=".data) line with
        | some m => { cont with added := cont.added ++ [pyStrip m] }
        | none =>
          match searchTag ("=-=".data) ("=o=".data) line with
          | some m => { cont with removed := cont.removed ++ [pyStrip m] }
          | none =>
            match searchContent line with
            | some inner => { cont with fields := parse_value_line cont.fields inner }
            | none => { cont with raw_lines := cont.raw_lines ++ [line] }) {}

/-- `DWML._parse_fields` with a block target: per-line comment / content
classification (only blocks collect comments here). -/
def parse_fields_block (b : DWMLBlock) (content : Str) : DWMLBlock :=
  (splitNl content).foldl (fun blk rawLine =>
    let line := pyStrip rawLine
    if line.isEmpty then blk
    else
      match searchTag ("=#=".data) ("=o=".data) line with
      | some m => { blk with comments := blk.comments ++ [pyStrip m] }
      | none =>
        match searchContent line with
        | some inner => { blk with fields := parse_value_line blk.fields inner }
        | none => { blk with raw_lines := blk.raw_lines ++ [line] }) b

/-- `DWML._parse_block_content`: containers first (their spans then removed
from the block-level content), fields and comments after. -/
def parse_block_content (name : Str) (content : Str) : DWMLBlock :=
  let cr := DWML.splitContainers content
  if cr.1.isEmpty then parse_fields_block { name := name } content
  else
    let blk := cr.1.foldl
      (fun b ci => b.add_container (parse_container_content ci)) { name := name }
    parse_fields_block blk cr.2

/-- `DWML.parse` / `DWML._parse_content`. -/
def DWML.parse (content : Str) : DWML :=
  (DWML.findBlocks content).foldl (fun doc nb =>
    { blocks := dinsert doc.blocks nb.1 (parse_block_content nb.1 nb.2),
      block_order := doc.block_order ++ [nb.1] }) {}

/-- Python `','.join(strings)`. -/
def joinComma : List Str → Str
  | [] => []
  | [l] => l
  | l :: ls => l ++ ',' :: joinComma ls

/-- One rendered `=x= ... =z=` field line (`DWML.render`). -/
def renderFieldLine (kv : Str × FieldValue) : Str :=
  match kv.2 with
  | FieldValue.scalar v =>
      ("=x= ".data) ++ kv.1 ++ (";|".data) ++ v ++ ("|; =z=".data)
  | FieldValue.list vs =>
      ("=x= ".data) ++ kv.1 ++
        joinComma (vs.map (fun v => (";|".data) ++ v ++ ("|;".data))) ++ (" =z=".data)

/-- The rendered lines of one container (`DWML.render`). -/
def renderContainerLines (c : DWMLContainer) : List Str :=
  ("=dw=".data)
    :: (c.comments.map (fun cm => ("=#= ".data) ++ cm ++ (" =o=".data))
        ++ c.fields.map renderFieldLine
        ++ c.added.map (fun a => ("=+= ".data) ++ a ++ (" =o=".data))
        ++ c.removed.map (fun r => ("=-= ".data) ++ r ++ (" =o=".data))
        ++ [("=wd=".data)])

/-- The rendered lines of one block (`DWML.render`). -/
def renderBlockLines (name : Str) (b : DWMLBlock) : List Str :=
  (("=d=".data) ++ name ++ ("=w=".data))
    :: (b.comments.map (fun cm => ("=#= ".data) ++ cm ++ (" =o=".data))
        ++ b.fields.map renderFieldLine
        ++ (b.containers.map renderContainerLines).flatten
        ++ [("=q=".data) ++ name ++ ("=e=".data)])

/-- `DWML.render`: iterate `block_order`, looking each name up in `blocks`
(the dictionary access `self.blocks[name]`; the fallback block is never
reached on documents whose order entries are dictionary keys). -/
def DWML.render (doc : DWML) : Str :=
  joinNl ((doc.block_order.map (fun n =>
    renderBlockLines n ((dlookup doc.blocks n).getD { name := n }))).flatten)

/-- Module-level `dwml.has_block`: search for `=d=name=w=.*?=q=name=e=` (DOTALL). -/
def dwml_has_block (content name : Str) : Bool :=
  match breakOn (("=d=".data) ++ name ++ ("=w=".data)) content with
  | none => false
  | some pr => (breakOn (("=q=".data) ++ name ++ ("=e=".data)) pr.2).isSome

/-! ## Header helpers: `head.py` -/

/-- `head.has_header`: the document carries a `meta` block. -/
def has_header (content : Str) : Bool := dwml_has_block content ("meta".data)

/-- `head.parse_header`: the fields of the parsed `meta` block. -/
def parse_header (content : Str) : Fields :=
  if has_header content then
    match dlookup (DWML.parse content).blocks ("meta".data) with
    | some b => b.fields
    | none => []
  else []

/-! ## RevisionId: `bump.py` -/

/-- Decimal digits of a natural number. -/
def natToStr (n : Nat) : Str := Nat.toDigits 10 n

/-- Python `str()` of an integer. -/
def intToStr : Int → Str
  | Int.ofNat n => natToStr n
  | Int.negSucc n => '-' :: natToStr (n + 1)

/-- Greedy run of decimal digits from the front (`\d+` matching), with the rest. -/
def takeDigitRun : Str → Str × Str
  | [] => ([], [])
  | c :: rest =>
    if c.isDigit then
      let p := takeDigitRun rest
      (c :: p.1, p.2)
    else ([], c :: rest)

/-- Value of a string of decimal digits (Python `int` on a digit string). -/
def natOfDigits (s : Str) : Nat := s.foldl (fun n c => n * 10 + (c.toNat - 48)) 0

/-- The parsed `avNrN` revision token (`bump.parse_version` result dict). -/
structure Version where
  base : Char
  major : Nat
  revision : Nat
deriving DecidableEq, Repr

/-- `bump.parse_version`: match `^([a-z])v(\d+)r(\d+)$` against the stripped
string; `None` on mismatch or on a falsy argument. -/
def parse_version (version_str : Str) : Option Version :=
  if version_str.isEmpty then none
  else
    match pyStrip version_str with
    | b :: 'v' :: rest =>
      if 'a' ≤ b ∧ b ≤ 'z' then
        let d1 := takeDigitRun rest
        if d1.1.isEmpty then none
        else
          match d1.2 with
          | 'r' :: rest2 =>
            let d2 := takeDigitRun rest2
            if d2.1.isEmpty ∨ ¬d2.2.isEmpty then none
            else some { base := b, major := natOfDigits d1.1, revision := natOfDigits d2.1 }
          | _ => none
      else none
    | _ => none

/-- `bump.format_version`. -/
def format_version : Option Version → Str
  | none => ("av1r1".data)
  | some p => p.base :: ('v' :: natToStr p.major) ++ ('r' :: natToStr p.revision)

/-- `bump.increment_r`: revision + 1 (or the default on an unparsable token). -/
def increment_r (version_str : Str) : Str :=
  match parse_version version_str with
  | none => ("av1r1".data)
  | some p => format_version (some { p with revision := p.revision + 1 })

/-- `bump.increment_v`: major + 1, revision reset to 1. -/
def increment_v (version_str : Str) : Str :=
  match parse_version version_str with
  | none => ("av1r1".data)
  | some p => format_version (some { p with major := p.major + 1, revision := 1 })

/-- `bump.check_rebase`: the base letter changed (false when either side is
unparsable). -/
def check_rebase (old_version new_version : Str) : Bool :=
  match parse_version old_version, parse_version new_version with
  | some o, some n => o.base ≠ n.base
  | _, _ => false

/-! ## Dynamic record values

The record store passes Python values of several runtime types through the
`meta` dictionary (`str`, `list`, `int` from `read_loc`, and the
`ref_versions` `dict`).  `DV` is that dynamic value type; operations that
would raise a `TypeError`/`AttributeError` in Python on a given variant are
modelled in `Except Unit`. -/

inductive DV where
  | s (v : Str)
  | l (vs : List Str)
  | i (n : Int)
  | d (m : List (Str × Str))
deriving DecidableEq, Repr

/-- Python truthiness of a dynamic value. -/
def DV.truthy : DV → Bool
  | DV.s v => !v.isEmpty
  | DV.l vs => !vs.isEmpty
  | DV.i n => n ≠ 0
  | DV.d m => !m.isEmpty

/-- Python `str()` of a dynamic value (an approximate `repr` for containers;
those cases are unreachable for values this engine stores). -/
def DV.pyStr : DV → Str
  | DV.s v => v
  | DV.i n => intToStr n
  | DV.l vs => Char.ofNat 91 ::
      joinComma (vs.map (fun v => Char.ofNat 39 :: v ++ [Char.ofNat 39])) ++ [Char.ofNat 93]
  | DV.d m => Char.ofNat 123 ::
      joinComma (m.map (fun kv => kv.1 ++ ':' :: ' ' :: kv.2)) ++ [Char.ofNat 125]

/-- A block field value as the dynamic value it is at runtime. -/
def FieldValue.dv : FieldValue → DV
  | FieldValue.scalar v => DV.s v
  | FieldValue.list vs => DV.l vs

/-- `bump.parse_version` applied to a dynamic value: falsy non-strings return
`None` via the `if not version_str` guard; truthy non-strings raise
(`version_str.strip()` on a non-string). -/
def parse_version_dv : DV → Except Unit (Option Version)
  | DV.s v => Except.ok (parse_version v)
  | other => if other.truthy then Except.error () else Except.ok none

/-- `bump.check_rebase` on dynamic values. -/
def check_rebase_dv (old_version new_version : DV) : Except Unit Bool := do
  let op ← parse_version_dv old_version
  let np ← parse_version_dv new_version
  match op, np with
  | some o, some n => Except.ok (decide (o.base ≠ n.base))
  | _, _ => Except.ok false

/-- `bump.increment_r` on a dynamic value. -/
def increment_r_dv (version : DV) : Except Unit Str := do
  match ← parse_version_dv version with
  | none => Except.ok ("av1r1".data)
  | some p => Except.ok (format_version (some { p with revision := p.revision + 1 }))

/-! ## DiffEngine: `diff.py` -/

/-- Python `str.splitlines()` (restricted to `'\n'` separators; the engine is
line-oriented over text read in universal-newline mode). -/
def splitlines : Str → List Str
  | [] => []
  | c :: rest =>
    if c = '\n' then [] :: splitlines rest
    else
      match splitlines rest with
      | [] => [[c]]
      | l :: ls => (c :: l) :: ls

/-- A longest common subsequence of two line lists: the model of the line
alignment `difflib.Differ.compare` computes (aligned lines come out as
context `'  '`, unaligned old lines as `'- '`, unaligned new lines as `'+ '`). -/
def lcsGo : Nat → List Str → List Str → List Str
  | 0, _, _ => []
  | _, [], _ => []
  | _, _ :: _, [] => []
  | fuel + 1, x :: xs, y :: ys =>
    if x = y then x :: lcsGo fuel xs ys
    else
      let a := lcsGo fuel xs (y :: ys)
      let b := lcsGo fuel (x :: xs) ys
      if b.length ≤ a.length then a else b

/-- Entry point with enough fuel for the whole alignment. -/
def lcs (xs ys : List Str) : List Str := lcsGo (xs.length + ys.length + 1) xs ys

/-- Remove one embedding of the subsequence `m` from `xs` (the lines of `xs`
that the alignment matched), leaving the unmatched lines. -/
def subtractSeq : List Str → List Str → List Str
  | xs, [] => xs
  | [], _ :: _ => []
  | x :: xs, m :: ms => if x = m then subtractSeq xs ms else x :: subtractSeq xs (m :: ms)

/-- The result of `calc_diff`: `{'added': [...], 'removed': [...]}`. -/
structure DiffResult where
  added : List Str
  removed : List Str
deriving DecidableEq, Repr

/-- `diff.calc_diff`: split both texts into lines, align them, and collect the
`'+ '` lines as `added` and the `'- '` lines as `removed` (hint and context
lines are dropped). -/
def calc_diff (old_content new_content : Str) : DiffResult :=
  let old_lines := splitlines old_content
  let new_lines := splitlines new_content
  let m := lcs old_lines new_lines
  { added := subtractSeq new_lines m, removed := subtractSeq old_lines m }

/-- `diff.has_changes`. -/
def has_changes (old_content new_content : Str) : Bool :=
  let d := calc_diff old_content new_content
  0 < d.added.length || 0 < d.removed.length

/-! ## RecordStore: `utils.py` -/

/-- One entry of a history `changes` list: `{'type': 'add'|'rem', 'line': ...}`. -/
structure Change where
  ctype : Str
  line : Str
deriving DecidableEq, Repr

/-- One history entry: `{'action': ..., 'changes': [...], 'comments': [...]}`
(`comments` only populated by `parse_dwml_history`; writers leave it empty). -/
structure Entry where
  action : Str
  changes : List Change := []
  comments : List Str := []
deriving DecidableEq, Repr

/-- A loaded record: `{'meta': {...}, 'history': [...], 'archive': [...]}`. -/
structure Loc where
  meta : Dict DV := []
  history : List Entry := []
  archive : List Str := []
deriving DecidableEq, Repr

/-- `d.get(k, dflt)` on a meta dictionary. -/
def metaGet (m : Dict DV) (k : Str) (dflt : DV) : DV := (dlookup m k).getD dflt

/-- File-system micro-steps a write decomposes into.  `openTrunc` is
`open(path, 'w')` (truncates in place), `writeData` is `f.write(content)`,
and `replaceFile` is the atomic `os.replace` primitive — which this code
base never performs. -/
inductive FsStep where
  | openTrunc (path : Str)
  | writeData (path : Str) (content : Str)
  | replaceFile (src dst : Str)
deriving DecidableEq, Repr

/-- A file system: mapping from path to content of the existing files. -/
abbrev FileSys := Dict Str

/-- Look a path up in the file system. -/
def fsRead (fs : FileSys) (p : Str) : Option Str := dlookup fs p

/-- Execute one file-system step. -/
def runStep (fs : FileSys) : FsStep → FileSys
  | FsStep.openTrunc p => dinsert fs p []
  | FsStep.writeData p c => dinsert fs p (((dlookup fs p).getD []) ++ c)
  | FsStep.replaceFile src dst =>
    match dlookup fs src with
    | some c => dinsert fs dst c
    | none => fs

/-- Execute a sequence of file-system steps. -/
def runSteps (fs : FileSys) (steps : List FsStep) : FileSys := steps.foldl runStep fs

/-- `utils.write_file`: `open(path, 'w', ...)` followed by `f.write(content)` —
a plain in-place truncate-then-write. -/
def write_file_steps (path content : Str) : List FsStep :=
  [FsStep.openTrunc path, FsStep.writeData path content]

/-- `utils.read_file`: the file's content, or `''` when the path does not exist. -/
def read_file (fs : FileSys) (path : Str) : Str := (dlookup fs path).getD []

/-- A step trace writes `target` atomically by write-temp-then-replace: it
never truncates or writes the target directly, only substitutes it through a
`replaceFile` step. -/
def writeTempThenReplace (steps : List FsStep) (target : Str) : Bool :=
  steps.all (fun st =>
    match st with
    | FsStep.openTrunc p => decide (p ≠ target)
    | FsStep.writeData p _ => decide (p ≠ target)
    | FsStep.replaceFile _ _ => true)

/-- Crash safety of a write: after any prefix of the steps (an interruption
point), the target holds either its previous content or the complete new
content. -/
def crashSafe (fs : FileSys) (steps : List FsStep) (target newContent : Str) : Prop :=
  ∀ k : Nat, fsRead (runSteps fs (steps.take k)) target = fsRead fs target ∨
    fsRead (runSteps fs (steps.take k)) target = some newContent

/-- Python `'\n\n'.join(parts)`. -/
def joinNlNl : List Str → Str
  | [] => []
  | [l] => l
  | l :: ls => l ++ '\n' :: '\n' :: joinNlNl ls

/-- `utils.format_dwml_block`: render a dict as a `=d=name=w= ... =q=name=e=`
block (list values comma-joined, other values via `str()`). -/
def format_dwml_block (name : Str) (data : Dict DV) (comments : List Str := []) : Str :=
  joinNl ((("=d=".data) ++ name ++ ("=w=".data))
    :: (comments.map (fun cm => ("=#= ".data) ++ cm ++ (" =o=".data))
        ++ data.map (fun kv =>
          match kv.2 with
          | DV.l vs =>
            ("=x= ".data) ++ kv.1 ++
              joinComma (vs.map (fun v => (";|".data) ++ v ++ ("|;".data))) ++ (" =z=".data)
          | other => ("=x= ".data) ++ kv.1 ++ (";|".data) ++ other.pyStr ++ ("|; =z=".data))
        ++ [("=q=".data) ++ name ++ ("=e=".data)]))

/-- `utils.format_dwml_meta`. -/
def format_dwml_meta (meta : Dict DV) : Str := format_dwml_block ("meta".data) meta

/-- `utils.format_dwml_entry`: one history entry as a `=dw=...=wd=` container
(the action is split at its first space into `timestamp;|action|;`; `changes`
with a type other than `add`/`rem` are dropped). -/
def format_dwml_entry (action : Str) (changes : List Change) (comments : List Str) : Str :=
  let actionLine :=
    match breakOn [' '] action with
    | some pr => ("=x= ".data) ++ pr.1 ++ (";|".data) ++ pr.2 ++ ("|; =z=".data)
    | none => ("=x= action;|".data) ++ action ++ ("|; =z=".data)
  joinNl (("=dw=".data)
    :: actionLine
    :: ((changes.filterMap (fun ch =>
          if ch.ctype = ("add".data) then some (("=+=".data) ++ ch.line ++ ("=o=".data))
          else if ch.ctype = ("rem".data) then some (("=-=".data) ++ ch.line ++ ("=o=".data))
          else none))
        ++ comments.map (fun cm => ("=#= ".data) ++ cm ++ (" =o=".data))
        ++ [("=wd=".data)]))

/-- `utils.format_dwml_history`. -/
def format_dwml_history (entries : List Entry) : Str :=
  joinNl (("=d=history=w=".data)
    :: (entries.map (fun e => format_dwml_entry e.action e.changes e.comments)
        ++ [("=q=history=e=".data)]))

/-- The content `utils.write_loc` renders: the meta block built from the
record (with `saves` stringified and `ref_versions`/`archive` folded in when
present and truthy), then the history block when the history is non-empty.
A non-dict `ref_versions` value would raise on `.items()` in Python. -/
def write_loc_content (data : Loc) : Except Unit Str := do
  let meta := data.meta
  let out1 : Dict DV :=
    [ (("file".data), metaGet meta ("file".data) (DV.s [])),
      (("version".data), metaGet meta ("version".data) (DV.s ("av1r1".data))),
      (("saves".data), DV.s (metaGet meta ("saves".data) (DV.i 0)).pyStr),
      (("updated".data), metaGet meta ("updated".data) (DV.s [])) ]
  let out2 ←
    match dlookup meta ("ref_versions".data) with
    | none => Except.ok out1
    | some rv =>
      if rv.truthy then
        match rv with
        | DV.d m =>
          Except.ok (dinsert out1 ("ref_versions".data)
            (DV.l (m.map (fun kv => kv.1 ++ '=' :: kv.2))))
        | _ => Except.error ()
      else Except.ok out1
  let out3 :=
    if data.archive.isEmpty then out2
    else dinsert out2 ("archive".data) (DV.l data.archive)
  let parts := [format_dwml_meta out3] ++
    (if data.history.isEmpty then [] else [format_dwml_history data.history])
  Except.ok (joinNlNl parts ++ ['\n'])

/-- `utils.write_loc` as file-system steps: render, then `write_file`. -/
def write_loc_steps (path : Str) (data : Loc) : Except Unit (List FsStep) :=
  (write_loc_content data).map (write_file_steps path)

/-- Python `s.split(sep)` for a one-character separator. -/
def splitOnChar (sep : Char) : Str → List Str
  | [] => [[]]
  | c :: rest =>
    if c = sep then [] :: splitOnChar sep rest
    else
      match splitOnChar sep rest with
      | [] => [[c]]
      | l :: ls => (c :: l) :: ls

/-- One attempted match of `VALUE_LIST_PATTERN` (`;\|([^|]*)\|;`) at the start
of `s`. -/
def tryVL (s : Str) : Option (Str × Str) :=
  match stripPre (";|".data) s with
  | none => none
  | some s1 =>
    match stripPre ("|;".data) (takeNoPipe s1).2 with
    | none => none
    | some s3 => some ((takeNoPipe s1).1, s3)

theorem tryVL_eq {s v rest : Str} (h : tryVL s = some (v, rest)) :
    s = (";|".data) ++ v ++ ("|;".data) ++ rest := by
  rw [tryVL] at h
  split at h
  · exact absurd h (by simp)
  · rename_i s1 h1
    split at h
    · exact absurd h (by simp)
    · rename_i s3 h3
      cases h
      rw [stripPre_eq h1]
      conv_lhs => rw [takeNoPipe_eq s1]
      rw [stripPre_eq h3]
      simp

theorem tryVL_length {s v rest : Str} (h : tryVL s = some (v, rest)) :
    rest.length + 4 ≤ s.length := by
  have el := congrArg List.length (tryVL_eq h)
  simp only [List.length_append, List.length_cons, List.length_nil] at el
  omega

/-- Fuel-driven worker for `vlFindall`. -/
def vlFindallGo : Nat → Str → List Str
  | 0, _ => []
  | _, [] => []
  | fuel + 1, c :: rest =>
    match tryVL (c :: rest) with
    | some (v, r) => v :: vlFindallGo fuel r
    | none => vlFindallGo fuel rest

/-- `VALUE_LIST_PATTERN.findall`. -/
def vlFindall (s : Str) : List Str := vlFindallGo (s.length + 1) s

/-- Scan for the closing literal of a `(.*?)` group without DOTALL: stop at
the first occurrence of `cls`, failing if a newline comes first. -/
def scanToCls (cls : Str) : Str → Option (Str × Str)
  | [] => none
  | s@(c :: rest) =>
    if isPre cls s then some ([], s.drop cls.length)
    else if c = '\n' then none
    else (scanToCls cls rest).map (fun pq => (c :: pq.1, pq.2))

theorem scanToCls_eq {cls s g r : Str} (h : scanToCls cls s = some (g, r)) :
    s = g ++ cls ++ r := by
  induction s generalizing g r with
  | nil => exact absurd h (by simp [scanToCls])
  | cons c rest ih =>
    rw [scanToCls] at h
    split at h
    · rename_i hp
      cases h
      rcases isPre_iff.mp hp with ⟨t, ht⟩
      have hdrop : (c :: rest).drop cls.length = t := by
        rw [ht, List.drop_append_of_le_length (le_refl _)]
        simp
      rw [hdrop]
      simpa using ht
    · split at h
      · exact absurd h (by simp)
      · rcases Option.map_eq_some'.mp h with ⟨⟨p, q⟩, hpq, hco⟩
        cases hco
        have := ih hpq
        simp [this]

/-- One attempted match of `opn(.*?)cls` (no DOTALL) at the start of `s`. -/
def tryTagAt (opn cls s : Str) : Option (Str × Str) :=
  match stripPre opn s with
  | none => none
  | some s1 => scanToCls cls s1

theorem tryTagAt_length {opn cls : Str} (hop : opn ≠ []) (hcl : cls ≠ [])
    {s g r : Str} (h : tryTagAt opn cls s = some (g, r)) : r.length < s.length := by
  rw [tryTagAt] at h
  split at h
  · exact absurd h (by simp)
  · rename_i s1 h1
    have e1 := stripPre_eq h1
    have e2 := scanToCls_eq h
    have el1 := congrArg List.length e1
    have el2 := congrArg List.length e2
    simp only [List.length_append] at el1 el2
    have : opn.length ≠ 0 := fun h0 => hop (List.length_eq_zero.mp h0)
    have : cls.length ≠ 0 := fun h0 => hcl (List.length_eq_zero.mp h0)
    omega

/-- Fuel-driven worker for `tagFindall`. -/
def tagFindallGo (opn cls : Str) : Nat → Str → List Str
  | 0, _ => []
  | _, [] => []
  | fuel + 1, c :: rest =>
    match tryTagAt opn cls (c :: rest) with
    | some (g, r) => g :: tagFindallGo opn cls fuel r
    | none => tagFindallGo opn cls fuel rest

/-- `finditer` for a tag pattern `opn(.*?)cls` without DOTALL: all matched
groups in order. -/
def tagFindall (opn cls : Str) (s : Str) : List Str := tagFindallGo opn cls (s.length + 1) s

/-- All decompositions `s = pre ++ "=z=" ++ post`, in order of position. -/
def zSplits : Str → List (Str × Str)
  | [] => []
  | c :: rest =>
    let tailSplits := (zSplits rest).map (fun pq => (c :: pq.1, pq.2))
    if isPre ("=z=".data) (c :: rest) then ([], (c :: rest).drop 3) :: tailSplits
    else tailSplits

/-- Whether the candidate text between `=x=` and a `=z=` matches
`\s*(.*?)\s*`: the stripped core must not contain a newline; the group is
that core. -/
def wsWrapNoNl (t : Str) : Option Str :=
  let m := pyStrip t
  if '\n' ∈ m then none else some m

/-- First viable `=z=` close for a `CONTENT_PATTERN` match. -/
def firstZ : List (Str × Str) → Option Str
  | [] => none
  | pq :: rest =>
    match wsWrapNoNl pq.1 with
    | some m => some m
    | none => firstZ rest

/-- `CONTENT_PATTERN.search` over a multi-line string (used by
`parse_dwml_history` on whole containers): `.` does not cross newlines but
the flanking `\s*` may. -/
def contentSearchMLGo : Nat → Str → Option Str
  | 0, _ => none
  | fuel + 1, s =>
    match breakOn ("=x=".data) s with
    | none => none
    | some pr =>
      match firstZ (zSplits pr.2) with
      | some m => some m
      | none => contentSearchMLGo fuel pr.2

/-- `CONTENT_PATTERN.search` over a multi-line string: worker entry point. -/
def contentSearchML (s : Str) : Option Str := contentSearchMLGo (s.length + 1) s

/-- `utils.parse_dwml_block`: find the named block, then parse its `=x=` lines
via `VALUE_PATTERN`, re-reading each match's tail with
`VALUE_LIST_PATTERN.findall` from `inner.find(key)` to detect list values. -/
def parse_dwml_block (content : Str) (name : Str) : Dict DV :=
  match breakOn (("=d=".data) ++ name ++ ("=w=".data)) content with
  | none => []
  | some pr =>
    match breakOn (("=q=".data) ++ name ++ ("=e=".data)) pr.2 with
    | none => []
    | some mq =>
      (splitNl mq.1).foldl (fun result rawLine =>
        let line := pyStrip rawLine
        if line.isEmpty then result
        else if isPre ("=#=".data) line then result
        else
          match searchContent line with
          | none => result
          | some inner =>
            (valueMatches inner).foldl (fun res kv =>
              let tail :=
                match breakOn kv.1 inner with
                | some t => kv.1 ++ t.2
                | none => inner.drop (inner.length - 1)
              let all_values := vlFindall tail
              if 1 < all_values.length then dinsert res kv.1 (DV.l all_values)
              else dinsert res kv.1 (DV.s kv.2)) result) []

/-- `utils.parse_dwml_meta`. -/
def parse_dwml_meta (content : Str) : Dict DV := parse_dwml_block content ("meta".data)

/-- `utils.parse_dwml_history`: each `=dw=...=wd=` container of the history
block becomes one entry; the action line is re-joined from the
`timestamp;|action|;` split, added/removed lines map to `changes`, comment
lines to `comments`. -/
def parse_dwml_history (content : Str) : List Entry :=
  match breakOn ("=d=history=w=".data) content with
  | none => []
  | some pr =>
    match breakOn ("=q=history=e=".data) pr.2 with
    | none => []
    | some mq =>
      (DWML.splitContainers mq.1).1.map (fun container =>
        let actionStr :=
          match contentSearchML container with
          | some g =>
            let inner := pyStrip g
            match (vlFindall inner).head? with
            | some val_part =>
              let key_part :=
                match breakOn (";|".data) inner with
                | some kp => pyStrip kp.1
                | none => pyStrip (inner.take (inner.length - 1))
              key_part ++ ' ' :: val_part
            | none => inner
          | none => []
        { action := actionStr,
          changes :=
            (tagFindall ("=+=".data) ("=o=".data) container).map
              (fun g => { ctype := ("add".data), line := g })
            ++ (tagFindall ("=-=".data) ("=o=".data) container).map
              (fun g => { ctype := ("rem".data), line := g }),
          comments :=
            (tagFindall ("=#=".data) ("=o=".data) container).map pyStrip })

/-- Python `int()` on a string: optional surrounding whitespace, optional
sign, decimal digits; `None` models the `ValueError`. -/
def pyInt (s : Str) : Option Int :=
  let t := pyStrip s
  match t with
  | '-' :: ds =>
    if ds.isEmpty ∨ ¬(ds.all Char.isDigit) then none
    else some (-(Int.ofNat (natOfDigits ds)))
  | '+' :: ds =>
    if ds.isEmpty ∨ ¬(ds.all Char.isDigit) then none
    else some (Int.ofNat (natOfDigits ds))
  | ds =>
    if ds.isEmpty ∨ ¬(ds.all Char.isDigit) then none
    else some (Int.ofNat (natOfDigits ds))

/-- `utils.read_loc` on the content `read_file` returned (empty content — the
missing-record case — yields the empty default record without parsing). -/
def read_loc (content : Str) : Except Unit Loc :=
  if content.isEmpty then Except.ok { meta := [], history := [], archive := [] }
  else do
    let raw_meta := parse_dwml_meta content
    let saves : Int ←
      match dlookup raw_meta ("saves".data) with
      | none => Except.ok 0
      | some v =>
        if v.truthy = false then Except.ok 0
        else
          match v with
          | DV.s sv =>
            match pyInt sv with
            | some n => Except.ok n
            | none => Except.error ()
          | DV.i n => Except.ok n
          | _ => Except.error ()
    let m0 : Dict DV :=
      [ (("file".data), metaGet raw_meta ("file".data) (DV.s [])),
        (("version".data), metaGet raw_meta ("version".data) (DV.s ("av1r1".data))),
        (("saves".data), DV.i saves),
        (("updated".data), metaGet raw_meta ("updated".data) (DV.s [])) ]
    let m1 :=
      match dlookup raw_meta ("ref_versions".data) with
      | none => m0
      | some rv =>
        let pairs : List (Str × Str) :=
          match rv with
          | DV.l vs =>
            vs.foldl (fun acc p =>
              match breakOn ['='] p with
              | some pq => dinsert acc (pyStrip pq.1) (pyStrip pq.2)
              | none => acc) []
          | DV.s sv =>
            if '=' ∈ sv then
              (splitOnChar ',' sv).foldl (fun acc p =>
                match breakOn ['='] p with
                | some pq => dinsert acc (pyStrip pq.1) (pyStrip pq.2)
                | none => acc) []
            else []
          | _ => []
        dinsert m0 ("ref_versions".data) (DV.d pairs)
    let archive : List Str ←
      match dlookup raw_meta ("archive".data) with
      | none => Except.ok []
      | some (DV.l vs) => Except.ok vs
      | some (DV.s sv) =>
        Except.ok (((splitOnChar ',' sv).map pyStrip).filter (fun a => !a.isEmpty))
      | some _ => Except.error ()
    Except.ok { meta := m1, history := parse_dwml_history content, archive := archive }

/-! ## Save pipeline: `watch.py` -/

/-- The bounded changes list `DWEventHandler._process_save` builds from a
diff result: at most 50 added and 50 removed lines retained (`max_lines`),
each truncated to 200 characters (`max_line_len`). -/
def buildChanges (diff_result : DiffResult) : List Change :=
  ((diff_result.added.take 50).map (fun line =>
      { ctype := ("add".data), line := line.take 200 }))
  ++ ((diff_result.removed.take 50).map (fun line =>
      { ctype := ("rem".data), line := line.take 200 }))

/-- Outcome of one `_process_save` invocation. -/
inductive SaveResult where
  /-- The document carries no tracking header: early return, nothing written. -/
  | ignored
  /-- The rebase branch was entered: building the archive path references the
  unbound name `stem` and raises `NameError` before anything is written. -/
  | nameError
  /-- A non-integer `saves` or a list-valued `version` makes the untyped
  Python raise before the record is written. -/
  | typeError
  /-- The diff was empty: nothing written. -/
  | noChange
  /-- The updated record was persisted and the snapshot overwritten with the
  current content. -/
  | saved (loc : Loc) (snapshot : Str)
deriving DecidableEq, Repr

/-- `DWEventHandler._process_save`, as a function of the current document
content, the stored snapshot content, the loaded record, the timestamp and
the document's display path. -/
def process_save (current_content snp_content : Str) (loc_data : Loc)
    (ts rel_path : Str) : SaveResult :=
  if has_header current_content = false then SaveResult.ignored
  else
    let header_version : FieldValue :=
      (dlookup (parse_header current_content) ("version".data)).getD
        (FieldValue.scalar ("av1r1".data))
    let loc_version : DV := metaGet loc_data.meta ("version".data) (DV.s ("av1r1".data))
    match check_rebase_dv loc_version header_version.dv with
    | Except.error _ => SaveResult.typeError
    | Except.ok true => SaveResult.nameError
    | Except.ok false =>
      if has_changes snp_content current_content then
        let diff_result := calc_diff snp_content current_content
        match metaGet loc_data.meta ("saves".data) (DV.i 0) with
        | DV.i n =>
          let saves := n + 1
          let meta1 := dinsert loc_data.meta ("saves".data) (DV.i saves)
          let meta2 := dinsert meta1 ("updated".data) (DV.s ts)
          let meta3 := dinsert meta2 ("file".data) (DV.s rel_path)
          let meta4 := dinsert meta3 ("version".data) header_version.dv
          let changes := buildChanges diff_result
          let entry : Entry :=
            { action := ts ++ (" save:".data) ++ intToStr saves, changes := changes }
          SaveResult.saved
            { loc_data with meta := meta4, history := loc_data.history ++ [entry] }
            current_content
        | _ => SaveResult.typeError
      else SaveResult.noChange

/-- The record mutation `DWEventHandler._process_move` performs when the
record exists at the source key: append a rename entry and refresh
`meta.file`. -/
def process_move_record (loc_data : Loc) (ts src_rel dest_rel : Str) : Loc :=
  let entry : Entry :=
    { action := ts ++ (" renamed ".data) ++ src_rel ++ (" -> ".data) ++ dest_rel,
      changes := [] }
  let loc1 : Loc := { loc_data with history := loc_data.history ++ [entry] }
  { loc1 with meta := dinsert loc1.meta ("file".data) (DV.s dest_rel) }

/-! ## Revision bump: `cli.do_bump` -/

/-- The per-record body of `cli.do_bump`: with unbumped saves, increment the
revision, zero the `saves` counter, and append a `bumped` entry; otherwise
leave the record untouched. -/
def bumpRecord (loc_data : Loc) (ts : Str) : Except Unit Loc :=
  match metaGet loc_data.meta ("saves".data) (DV.i 0) with
  | DV.i n =>
    if 0 < n then do
      let old_version := metaGet loc_data.meta ("version".data) (DV.s ("av1r1".data))
      let new_version ← increment_r_dv old_version
      Except.ok { loc_data with
        meta := dinsert (dinsert loc_data.meta ("version".data) (DV.s new_version))
          ("saves".data) (DV.i 0),
        history := loc_data.history ++
          [{ action := ts ++ (" bumped ".data) ++ new_version, changes := [] }] }
    else Except.ok loc_data
  | _ => Except.error ()

/-! ## Sync: `sync.py` -/

/-- `sync.parse_refs`: split the `dw:refs` value on `|`, strip, drop empties. -/
def parse_refs (refs_string : Str) : List Str :=
  if refs_string.isEmpty then []
  else ((splitOnChar '|' refs_string).map pyStrip).filter (fun r => !r.isEmpty)

/-- The per-document body of `sync.do_sync`: refresh `meta.file` and
`meta.version` from the header, and replace `meta.ref_versions` wholesale
with the declared references — but only when at least one reference is
declared (`if refs:`).  `history` and `saves` are untouched.  A truthy
list-valued `refs` field would raise inside `parse_refs`. -/
def syncRecord (loc_data : Loc) (fields : Fields) (refIndex : List (Str × Str))
    (rel_path : Str) : Except Unit Loc := do
  let meta1 := dinsert loc_data.meta ("file".data) (DV.s rel_path)
  let version : DV :=
    match dlookup fields ("version".data) with
    | some fv => fv.dv
    | none => metaGet loc_data.meta ("version".data) (DV.s ("av1r1".data))
  let meta2 := dinsert meta1 ("version".data) version
  let refs : List Str ←
    match dlookup fields ("refs".data) with
    | none => Except.ok []
    | some (FieldValue.scalar v) => Except.ok (parse_refs v)
    | some (FieldValue.list vs) =>
      if vs.isEmpty then Except.ok [] else Except.error ()
  if refs.isEmpty then Except.ok { loc_data with meta := meta2 }
  else do
    let meta3 := dinsert meta2 ("ref_versions".data)
      (DV.d (refs.map (fun r => (r, (dlookup refIndex r).getD ("unknown".data)))))
    Except.ok { loc_data with meta := meta3 }

/-! ## Scan: `fix.py` -/

/-- One scan issue: `{'type', 'tag', 'file', 'detail', 'fixable'}`. -/
structure Issue where
  itype : Str
  tag : Str
  file : Str
  detail : Str
  fixable : Bool
deriving DecidableEq, Repr

/-- Python `', '.join(parts)`. -/
def joinCommaSpace : List Str → Str
  | [] => []
  | [l] => l
  | l :: ls => l ++ ',' :: ' ' :: joinCommaSpace ls

/-- `Path(r).name`: the final path component. -/
def pathName (p : Str) : Str :=
  ((splitOnChar '/' p).getLast?).getD p

/-- The per-record body of `fix.scan_issues`: an ORPHAN issue (and nothing
else) when the document is gone; otherwise a LARGE issue exactly when the
history length exceeds the threshold, followed — when the document still has
a header — by at most one STALE and one BROKEN issue from the declared
references.  A truthy list-valued `refs` field or a non-dict stored
`ref_versions` would raise. -/
def scanRecordIssues (loc_data : Loc) (txt_exists : Bool) (txt_rel : Str)
    (threshold : Nat) (content_header : Option Fields) (refExists : Str → Bool)
    (currentRefVersions : List (Str × Str)) : Except Unit (List Issue) := do
  let display_name := (metaGet loc_data.meta ("file".data) (DV.s txt_rel)).pyStr
  if txt_exists = false then
    let orphan : Issue :=
      { itype := ("ORPHAN".data), tag := ("AF".data),
        file := display_name ++ (" (loc)".data),
        detail := ("no .txt found".data), fixable := true }
    Except.ok [orphan]
  else do
    let largeIssues : List Issue :=
      if threshold < loc_data.history.length then
        [{ itype := ("LARGE".data), tag := ("AF".data), file := display_name,
           detail := natToStr loc_data.history.length ++ (" entries".data),
           fixable := true }]
      else []
    match content_header with
    | none => Except.ok largeIssues
    | some fields => do
      let refs : List Str ←
        match dlookup fields ("refs".data) with
        | none => Except.ok []
        | some (FieldValue.scalar v) => Except.ok (parse_refs v)
        | some (FieldValue.list vs) =>
          if vs.isEmpty then Except.ok [] else Except.error ()
      let stored : List (Str × Str) ←
        match metaGet loc_data.meta ("ref_versions".data) (DV.d []) with
        | DV.d m => Except.ok m
        | _ => Except.error ()
      let broken_refs := refs.filter (fun r => !refExists r)
      let stale_refs := refs.filter (fun r =>
        refExists r && ((dlookup stored r).isSome && (dlookup currentRefVersions r).isSome
          && decide (dlookup stored r ≠ dlookup currentRefVersions r)))
      let staleIssue : Issue :=
        { itype := ("STALE".data), tag := ("MF".data), file := display_name,
          detail := ("refs changed: ".data) ++ joinCommaSpace (stale_refs.map pathName),
          fixable := false }
      let staleIssues : List Issue := if stale_refs.isEmpty then [] else [staleIssue]
      let brokenIssue : Issue :=
        { itype := ("BROKEN".data), tag := ("MF".data), file := display_name,
          detail := ("refs not found: ".data) ++ joinCommaSpace (broken_refs.map pathName),
          fixable := false }
      let brokenIssues : List Issue := if broken_refs.isEmpty then [] else [brokenIssue]
      Except.ok (largeIssues ++ staleIssues ++ brokenIssues)

/-! ## Archiver: `archive.py` -/

/-- The record transformation of `archive.do_archive_file`: `none` when
there is no history to archive; otherwise the archive side-file record
(provenance meta plus the full history) and the rewritten live record (one
`archived` entry, archive pointer appended). -/
def archiveRecord (loc_data : Loc) (stem timestamp ts : Str) : Option (Loc × Loc) :=
  if loc_data.history.isEmpty then none
  else
    let n := loc_data.history.length
    let acv_data : Loc :=
      { meta := [ (("archived".data), DV.s ts),
                  (("entries".data), DV.s (natToStr n)),
                  (("source".data), DV.s (("./.dw/loc/".data) ++ stem ++ (".txt".data))) ],
        history := loc_data.history,
        archive := [] }
    let archivedEntry : Entry :=
      { action := ts ++ (" archived ".data) ++ natToStr n ++
          (" entries to acv/".data) ++ stem ++ ('-' :: timestamp) ++ (".txt".data),
        changes := [] }
    let live : Loc := { loc_data with
      archive := loc_data.archive ++
        [("./.dw/acv/".data) ++ stem ++ ('-' :: timestamp) ++ (".txt".data)],
      history := [archivedEntry] }
    some (acv_data, live)

/-! ## Dictionary lemmas -/

theorem dlookup_dinsert_self {α : Type} (d : Dict α) (k : Str) (v : α) :
    dlookup (dinsert d k v) k = some v := by
  induction d with
  | nil => simp [dinsert, dlookup]
  | cons kv rest ih =>
    obtain ⟨k', v'⟩ := kv
    rw [dinsert]
    by_cases h : k' = k
    · rw [if_pos h, dlookup, if_pos rfl]
    · rw [if_neg h, dlookup, if_neg h, ih]

theorem dlookup_dinsert_ne {α : Type} (d : Dict α) (k k' : Str) (v : α) (h : k' ≠ k) :
    dlookup (dinsert d k v) k' = dlookup d k' := by
  induction d with
  | nil => simp [dinsert, dlookup, Ne.symm h]
  | cons kv rest ih =>
    obtain ⟨k0, v0⟩ := kv
    rw [dinsert]
    by_cases h0 : k0 = k
    · subst h0
      rw [if_pos rfl, dlookup, if_neg (fun he => h he.symm), dlookup,
        if_neg (fun he => h he.symm)]
    · rw [if_neg h0, dlookup, dlookup]
      by_cases h1 : k0 = k'
      · rw [if_pos h1, if_pos h1]
      · rw [if_neg h1, if_neg h1, ih]

theorem dinsert_fresh {α : Type} (d : Dict α) (k : Str) (v : α)
    (h : dlookup d k = none) : dinsert d k v = d ++ [(k, v)] := by
  induction d with
  | nil => rfl
  | cons kv rest ih =>
    obtain ⟨k0, v0⟩ := kv
    rw [dlookup] at h
    by_cases h0 : k0 = k
    · rw [if_pos h0] at h
      exact absurd h (by simp)
    · rw [if_neg h0] at h
      rw [dinsert, if_neg h0, ih h]
      rfl

theorem dinsert_last {α : Type} (d : Dict α) (k : Str) (v v' : α)
    (h : dlookup d k = none) : dinsert (d ++ [(k, v)]) k v' = d ++ [(k, v')] := by
  induction d with
  | nil => simp [dinsert]
  | cons kv rest ih =>
    obtain ⟨k0, v0⟩ := kv
    rw [dlookup] at h
    by_cases h0 : k0 = k
    · rw [if_pos h0] at h
      exact absurd h (by simp)
    · rw [if_neg h0] at h
      rw [List.cons_append, dinsert, if_neg h0, ih h]
      rfl

instance {e a : Type} [DecidableEq e] [DecidableEq a] : DecidableEq (Except e a) := fun x y =>
  match x, y with
  | Except.ok v, Except.ok w =>
    if h : v = w then isTrue (by rw [h]) else isFalse (by simp [h])
  | Except.error v, Except.error w =>
    if h : v = w then isTrue (by rw [h]) else isFalse (by simp [h])
  | Except.ok _, Except.error _ => isFalse (by simp)
  | Except.error _, Except.ok _ => isFalse (by simp)

/-! ## Claim C2: the save step of the pipeline -/

/-- C2: on a tracked document (header present, revision base unchanged) whose
current content differs from the snapshot, one `_process_save` invocation
increments `saves` by exactly one, appends a single history entry labelled
`save:{saves}` carrying the bounded diff, persists exactly that record, and
overwrites the snapshot with the current content; when the diff is empty it
changes nothing. -/
theorem C2_save_pipeline (current snp : Str) (loc : Loc) (ts rel : Str) (n : Int)
    (hhdr : has_header current = true)
    (hreb : check_rebase_dv (metaGet loc.meta ("version".data) (DV.s ("av1r1".data)))
      ((dlookup (parse_header current) ("version".data)).getD
        (FieldValue.scalar ("av1r1".data))).dv = Except.ok false)
    (hsaves : metaGet loc.meta ("saves".data) (DV.i 0) = DV.i n) :
    (has_changes snp current = true →
      ∃ loc' : Loc, process_save current snp loc ts rel = SaveResult.saved loc' current ∧
        metaGet loc'.meta ("saves".data) (DV.i 0) = DV.i (n + 1) ∧
        loc'.history = loc.history ++
          [{ action := ts ++ (" save:".data) ++ intToStr (n + 1),
             changes := buildChanges (calc_diff snp current) }] ∧
        loc'.archive = loc.archive)
    ∧ (has_changes snp current = false →
        process_save current snp loc ts rel = SaveResult.noChange) := by
  constructor
  · intro hch
    have hps : process_save current snp loc ts rel = SaveResult.saved
        { loc with
          meta := dinsert (dinsert (dinsert (dinsert loc.meta ("saves".data)
            (DV.i (n + 1))) ("updated".data) (DV.s ts)) ("file".data) (DV.s rel))
            ("version".data)
            ((dlookup (parse_header current) ("version".data)).getD
              (FieldValue.scalar ("av1r1".data))).dv,
          history := loc.history ++
            [{ action := ts ++ (" save:".data) ++ intToStr (n + 1),
               changes := buildChanges (calc_diff snp current) }] } current := by
      rw [process_save]
      simp only [hhdr, hreb, hch, hsaves, Bool.true_eq_false, if_false, if_true]
    refine ⟨_, hps, ?_, rfl, rfl⟩
    rw [metaGet, dlookup_dinsert_ne _ _ _ _ (by decide),
      dlookup_dinsert_ne _ _ _ _ (by decide),
      dlookup_dinsert_ne _ _ _ _ (by decide),
      dlookup_dinsert_self]
    rfl
  · intro hch
    rw [process_save]
    simp only [hhdr, hreb, hch, Bool.true_eq_false, Bool.false_eq_true, if_false, if_true]

/-- A concrete tracked save: header revision `av1r1` against an empty record
(same base letter, so no rebase), content differing from the snapshot. -/
def c2current : Str :=
  ("=d=meta=w=\n=x= version;|av1r1|; =z=\n=q=meta=e=\n\nline1\nline2").data

/-- Witness for C2: the concrete save increments `saves` to 1, appends the
single `save:1` entry with the diff, and returns the new snapshot content. -/
theorem C2_save_pipeline_witness :
    ∃ loc' : Loc,
      process_save c2current ("old".data)
          { meta := [], history := [], archive := [] } ("t1".data) ("./d.txt".data) =
        SaveResult.saved loc' c2current ∧
      metaGet loc'.meta ("saves".data) (DV.i 0) = DV.i (0 + 1) ∧
      loc'.history = ([] : List Entry) ++
        [{ action := ("t1".data) ++ (" save:".data) ++ intToStr (0 + 1),
           changes := buildChanges (calc_diff ("old".data) c2current) }] ∧
      loc'.archive = ([] : List Str) :=
  (C2_save_pipeline c2current ("old".data)
      { meta := [], history := [], archive := [] } ("t1".data) ("./d.txt".data) 0
      (by decide) (by decide) (by decide)).1 (by decide)

/-! ## Claim C3: the rebase branch crashes on the unbound `stem` -/

/-- C3: whenever the rebase check fires (the record's revision base differs
from the header's), `_process_save` raises `NameError` on the unbound name
`stem` while building the archive side-file path — before archiving anything,
before starting a fresh record, and before any diff/save step. -/
theorem C3_rebase_crashes (current snp : Str) (loc : Loc) (ts rel : Str)
    (hhdr : has_header current = true)
    (hreb : check_rebase_dv (metaGet loc.meta ("version".data) (DV.s ("av1r1".data)))
      ((dlookup (parse_header current) ("version".data)).getD
        (FieldValue.scalar ("av1r1".data))).dv = Except.ok true) :
    process_save current snp loc ts rel = SaveResult.nameError := by
  rw [process_save]
  simp only [hhdr, hreb, Bool.true_eq_false, if_false]

/-- A concrete rebase event: record revision `av1r1` (the empty default),
header revision `bv1r1`. -/
def c3content : Str :=
  ("=d=meta=w=\n=x= file;|./doc.txt|; =z=\n=x= version;|bv1r1|; =z=\n=q=meta=e=\n\nbody").data

/-- Witness for C3: the concrete rebase event crashes with `NameError`. -/
theorem C3_rebase_crashes_witness :
    process_save c3content ("old".data) { meta := [], history := [], archive := [] }
      ("t1".data) ("./doc.txt".data) = SaveResult.nameError :=
  C3_rebase_crashes c3content ("old".data) _ ("t1".data) ("./doc.txt".data)
    (by decide) (by decide)

/-! ## Claim C4: the retained diff is bounded -/

theorem filter_ctype_map_same (t : Str) (l : List Str) :
    ((l.map (fun line => ({ ctype := t, line := line.take 200 } : Change))).filter
      (fun c => c.ctype = t)).length = l.length := by
  induction l with
  | nil => rfl
  | cons x xs ih => simp [ih]

theorem filter_ctype_map_other (t t' : Str) (h : ¬(t = t')) (l : List Str) :
    ((l.map (fun line => ({ ctype := t, line := line.take 200 } : Change))).filter
      (fun c => c.ctype = t')) = [] := by
  induction l with
  | nil => rfl
  | cons x xs ih => simp [ih, h]

/-- C4: for every pair of input texts, the changes the save pipeline retains
from the diff are bounded: at most 50 added entries, at most 50 removed
entries, and every retained line truncated to at most 200 characters
(`calc_diff` itself is unbounded; the bounds are applied where the changes
list is built). -/
theorem C4_diff_bounded (old_content new_content : Str) :
    ((buildChanges (calc_diff old_content new_content)).filter
        (fun c => c.ctype = ("add".data))).length ≤ 50 ∧
    ((buildChanges (calc_diff old_content new_content)).filter
        (fun c => c.ctype = ("rem".data))).length ≤ 50 ∧
    ∀ ch ∈ buildChanges (calc_diff old_content new_content), ch.line.length ≤ 200 := by
  refine ⟨?_, ?_, ?_⟩
  · rw [buildChanges, List.filter_append, List.length_append,
      filter_ctype_map_same, filter_ctype_map_other _ _ (by decide)]
    simp [List.length_take]
  · rw [buildChanges, List.filter_append, List.length_append,
      filter_ctype_map_same, filter_ctype_map_other _ _ (by decide)]
    simp [List.length_take]
  · intro ch hch
    rw [buildChanges] at hch
    rcases List.mem_append.mp hch with hm | hm <;>
    · rcases List.mem_map.mp hm with ⟨line, _, rfl⟩
      simpa [List.length_take] using Nat.min_le_left 200 line.length

/-! ## Claim C9: a missing record loads as the empty default -/

/-- C9: loading the record for a path with no existing file returns the empty
default record — `saves` 0, revision `av1r1`, empty history — without
raising. -/
theorem C9_missing_record_default (fs : FileSys) (path : Str)
    (h : fsRead fs path = none) :
    ∃ loc : Loc, read_loc (read_file fs path) = Except.ok loc ∧
      metaGet loc.meta ("saves".data) (DV.i 0) = DV.i 0 ∧
      metaGet loc.meta ("version".data) (DV.s ("av1r1".data)) = DV.s ("av1r1".data) ∧
      loc.history = [] := by
  refine ⟨{ meta := [], history := [], archive := [] }, ?_, rfl, rfl, rfl⟩
  rw [read_file, show dlookup fs path = none from h]
  rfl

/-- Witness for C9: the empty file system has no record at `k`. -/
theorem C9_missing_record_default_witness :
    ∃ loc : Loc, read_loc (read_file [] ("k".data)) = Except.ok loc ∧
      metaGet loc.meta ("saves".data) (DV.i 0) = DV.i 0 ∧
      metaGet loc.meta ("version".data) (DV.s ("av1r1".data)) = DV.s ("av1r1".data) ∧
      loc.history = [] :=
  C9_missing_record_default [] ("k".data) rfl

/-! ## Claim C8: record writes are not write-temp-then-replace -/

/-- A concrete record for the write-path analysis. -/
def c8loc : Loc := { meta := [], history := [], archive := [] }

/-- The target path of the concrete write. -/
def c8path : Str := ("loc/a.txt".data)

/-- The content `write_loc` renders for `c8loc`. -/
def c8content : Str :=
  ("=d=meta=w=\n=x= file;||; =z=\n=x= version;|av1r1|; =z=\n" ++
   "=x= saves;|0|; =z=\n=x= updated;||; =z=\n=q=meta=e=\n").data

/-- Counterexample for C8: the store's write decomposes into an in-place
truncate then write on the target itself — no temporary file, no replace
step — and an interruption right after the truncate leaves the record empty,
neither the previous version nor the new one. -/
theorem C8_not_temp_then_replace :
    ∃ steps : List FsStep,
      write_loc_steps c8path c8loc = Except.ok steps ∧
      writeTempThenReplace steps c8path = false ∧
      ¬ crashSafe [(c8path, ("old".data))] steps c8path c8content := by
  refine ⟨write_file_steps c8path c8content, by decide, by decide, ?_⟩
  intro hcs
  have h1 := hcs 1
  revert h1
  decide

/-- C8 (amended): `write_loc` writes the record in place — the step trace is
exactly an `open(path, 'w')` truncate followed by one write of the rendered
content on the target path itself; the full sequence does leave the target
holding the complete new content. -/
theorem C8_write_in_place (path : Str) (data : Loc) (content : Str) (fs : FileSys)
    (h : write_loc_content data = Except.ok content) :
    write_loc_steps path data =
      Except.ok [FsStep.openTrunc path, FsStep.writeData path content] ∧
    fsRead (runSteps fs [FsStep.openTrunc path, FsStep.writeData path content]) path =
      some content := by
  constructor
  · rw [write_loc_steps, h]
    rfl
  · rw [runSteps]
    simp only [List.foldl, runStep, fsRead, dlookup_dinsert_self, Option.getD,
      List.nil_append]

/-- Witness for C8's amended theorem: the concrete record's write trace. -/
theorem C8_write_in_place_witness :
    write_loc_steps c8path c8loc =
      Except.ok [FsStep.openTrunc c8path, FsStep.writeData c8path c8content] ∧
    fsRead (runSteps [] [FsStep.openTrunc c8path, FsStep.writeData c8path c8content])
      c8path = some c8content :=
  C8_write_in_place c8path c8loc c8content [] (by decide)

/-! ## Claim C5: `ref_versions` replacement is guarded by `if refs:` -/

/-- A record whose stored `ref_versions` names a reference. -/
def c5loc : Loc :=
  { meta := [(("ref_versions".data), DV.d [(("./b.txt".data), ("av1r1".data))])],
    history := [], archive := [] }

/-- Counterexample for C5: a sync pass over a header that declares no
references at all leaves the prior `ref_versions` mapping — with its
no-longer-declared reference — in place, instead of replacing it wholesale
with the empty mapping. -/
theorem C5_stale_ref_survives :
    ∃ loc' : Loc,
      syncRecord c5loc [] [] ("./d.txt".data) = Except.ok loc' ∧
      metaGet loc'.meta ("ref_versions".data) (DV.d []) =
        DV.d [(("./b.txt".data), ("av1r1".data))] :=
  ⟨_, rfl, by decide⟩

/-- C5 (amended): when the header's `refs` field parses to at least one
reference, sync replaces `ref_versions` wholesale with exactly the declared
references mapped to their current revisions; when it parses to none, the
stored `ref_versions` entry — whatever it held — is left untouched. -/
theorem C5_sync_ref_versions (loc : Loc) (fields : Fields)
    (refIndex : List (Str × Str)) (rel v : Str)
    (hrefs : dlookup fields ("refs".data) = some (FieldValue.scalar v)) :
    (parse_refs v ≠ [] →
      ∃ loc' : Loc, syncRecord loc fields refIndex rel = Except.ok loc' ∧
        metaGet loc'.meta ("ref_versions".data) (DV.d []) =
          DV.d ((parse_refs v).map
            (fun r => (r, (dlookup refIndex r).getD ("unknown".data))))) ∧
    (parse_refs v = [] →
      ∃ loc' : Loc, syncRecord loc fields refIndex rel = Except.ok loc' ∧
        dlookup loc'.meta ("ref_versions".data) =
          dlookup loc.meta ("ref_versions".data)) := by
  constructor
  · intro hne
    rw [syncRecord, hrefs]
    dsimp only [Bind.bind, Except.bind]
    rw [if_neg (fun he => hne (List.isEmpty_iff.mp he))]
    exact ⟨_, rfl, by rw [metaGet, dlookup_dinsert_self]; rfl⟩
  · intro he
    rw [syncRecord, hrefs]
    dsimp only [Bind.bind, Except.bind]
    rw [if_pos (by rw [he]; rfl)]
    refine ⟨_, rfl, ?_⟩
    rw [dlookup_dinsert_ne _ _ _ _ (by decide), dlookup_dinsert_ne _ _ _ _ (by decide)]

/-- Witness for C5's amended theorem: one declared reference replaces the
mapping with exactly that reference's current revision. -/
theorem C5_sync_ref_versions_witness :
    ∃ loc' : Loc,
      syncRecord c5loc [(("refs".data), FieldValue.scalar ("./c.txt".data))]
          [(("./c.txt".data), ("av1r2".data))] ("./d.txt".data) = Except.ok loc' ∧
      metaGet loc'.meta ("ref_versions".data) (DV.d []) =
        DV.d ((parse_refs ("./c.txt".data)).map
          (fun r => (r, (dlookup [(("./c.txt".data), ("av1r2".data))] r).getD
            ("unknown".data)))) :=
  (C5_sync_ref_versions c5loc [(("refs".data), FieldValue.scalar ("./c.txt".data))]
    [(("./c.txt".data), ("av1r2".data))] ("./d.txt".data) ("./c.txt".data)
    (by decide)).1 (by decide)

/-! ## Claim C6: `saves` resets to 0 exactly on a revision bump -/

theorem increment_r_dv_ok (v : Str) :
    ∃ w : Str, increment_r_dv (DV.s v) = Except.ok w := by
  rw [increment_r_dv]
  dsimp only [parse_version_dv, Bind.bind, Except.bind]
  cases parse_version v with
  | none => exact ⟨_, rfl⟩
  | some p => exact ⟨_, rfl⟩

/-- C6: on a record with a positive string-versioned `saves` counter, the bump
operation resets `saves` to 0, while a successful save strictly increments it,
and sync, rename and archive leave it untouched — no operation other than the
bump takes a positive counter back to 0. -/
theorem C6_saves_reset_only_on_bump (loc : Loc) (ts : Str) (n : Int) (v : Str)
    (hn : 0 < n)
    (hsaves : metaGet loc.meta ("saves".data) (DV.i 0) = DV.i n)
    (hver : metaGet loc.meta ("version".data) (DV.s ("av1r1".data)) = DV.s v) :
    (∃ loc' : Loc, bumpRecord loc ts = Except.ok loc' ∧
      metaGet loc'.meta ("saves".data) (DV.i 0) = DV.i 0) ∧
    (∀ (current snp rel : Str) (loc' : Loc) (out : Str),
      process_save current snp loc ts rel = SaveResult.saved loc' out →
      metaGet loc'.meta ("saves".data) (DV.i 0) = DV.i (n + 1) ∧ n + 1 ≠ 0) ∧
    (∀ (fields : Fields) (refIndex : List (Str × Str)) (rel : Str) (loc' : Loc),
      syncRecord loc fields refIndex rel = Except.ok loc' →
      metaGet loc'.meta ("saves".data) (DV.i 0) = DV.i n) ∧
    (∀ src dest : Str,
      metaGet (process_move_record loc ts src dest).meta ("saves".data) (DV.i 0) =
        DV.i n) ∧
    (∀ (stem timestamp : Str) (acv live : Loc),
      archiveRecord loc stem timestamp ts = some (acv, live) →
      metaGet live.meta ("saves".data) (DV.i 0) = DV.i n) := by
  refine ⟨?_, ?_, ?_, ?_, ?_⟩
  · obtain ⟨w, hw⟩ := increment_r_dv_ok v
    rw [bumpRecord, hsaves]
    dsimp only
    rw [if_pos hn, hver, hw]
    dsimp only [Bind.bind, Except.bind]
    exact ⟨_, rfl, by rw [metaGet, dlookup_dinsert_self]; rfl⟩
  · intro current snp rel loc' out hps
    rw [process_save] at hps
    split at hps
    · exact SaveResult.noConfusion hps
    · dsimp only at hps
      split at hps
      · exact SaveResult.noConfusion hps
      · exact SaveResult.noConfusion hps
      · split at hps
        · rw [hsaves] at hps
          dsimp only at hps
          cases hps
          rw [metaGet, dlookup_dinsert_ne _ _ _ _ (by decide),
            dlookup_dinsert_ne _ _ _ _ (by decide),
            dlookup_dinsert_ne _ _ _ _ (by decide), dlookup_dinsert_self]
          exact ⟨rfl, by omega⟩
        · exact SaveResult.noConfusion hps
  · intro fields refIndex rel loc' hs
    rw [syncRecord] at hs
    dsimp only at hs
    split at hs
    · dsimp only [Bind.bind, Except.bind] at hs
      split at hs
      · cases hs
        rw [metaGet, dlookup_dinsert_ne _ _ _ _ (by decide),
          dlookup_dinsert_ne _ _ _ _ (by decide)]
        exact hsaves
      · cases hs
        rw [metaGet, dlookup_dinsert_ne _ _ _ _ (by decide),
          dlookup_dinsert_ne _ _ _ _ (by decide),
          dlookup_dinsert_ne _ _ _ _ (by decide)]
        exact hsaves
    · dsimp only [Bind.bind, Except.bind] at hs
      split at hs
      · cases hs
        rw [metaGet, dlookup_dinsert_ne _ _ _ _ (by decide),
          dlookup_dinsert_ne _ _ _ _ (by decide)]
        exact hsaves
      · cases hs
        rw [metaGet, dlookup_dinsert_ne _ _ _ _ (by decide),
          dlookup_dinsert_ne _ _ _ _ (by decide),
          dlookup_dinsert_ne _ _ _ _ (by decide)]
        exact hsaves
    · split at hs
      · dsimp only [Bind.bind, Except.bind] at hs
        split at hs
        · cases hs
          rw [metaGet, dlookup_dinsert_ne _ _ _ _ (by decide),
            dlookup_dinsert_ne _ _ _ _ (by decide)]
          exact hsaves
        · cases hs
          rw [metaGet, dlookup_dinsert_ne _ _ _ _ (by decide),
            dlookup_dinsert_ne _ _ _ _ (by decide),
            dlookup_dinsert_ne _ _ _ _ (by decide)]
          exact hsaves
      · dsimp only [Bind.bind, Except.bind] at hs
        exact Except.noConfusion hs
  · intro src dest
    rw [process_move_record]
    dsimp only
    rw [metaGet, dlookup_dinsert_ne _ _ _ _ (by decide)]
    exact hsaves
  · intro stem timestamp acv live ha
    rw [archiveRecord] at ha
    split at ha
    · exact Option.noConfusion ha
    · dsimp only at ha
      cases ha
      exact hsaves

/-- A record with one unbumped save. -/
def c6loc : Loc :=
  { meta := [(("saves".data), DV.i 1), (("version".data), DV.s ("av1r1".data))],
    history := [], archive := [] }

/-- Witness for C6: bumping the concrete record resets its counter to 0. -/
theorem C6_saves_reset_only_on_bump_witness :
    ∃ loc' : Loc, bumpRecord c6loc ("t1".data) = Except.ok loc' ∧
      metaGet loc'.meta ("saves".data) (DV.i 0) = DV.i 0 :=
  (C6_saves_reset_only_on_bump c6loc ("t1".data) 1 ("av1r1".data) (by decide)
    (by decide) (by decide)).1

/-! ## Claim C7: the LARGE threshold and the archive fix -/

theorem filter_if_single {c : Prop} [inst : Decidable c] {tg fl dt : Str} {fx : Bool}
    (ty : Str) (hne : ¬ ty = ("LARGE".data)) :
    (if c then ([] : List Issue) else
      [({ itype := ty, tag := tg, file := fl, detail := dt, fixable := fx } : Issue)]).filter
      (fun j => j.itype = ("LARGE".data)) = [] := by
  split
  · rfl
  · simp [List.filter, hne]

/-- C7: on a record whose document still exists, the scan reports exactly one
LARGE issue when the history length exceeds the threshold and none otherwise;
and whenever there is history to archive, the fix produces a side-file record
holding the full original history, a live record with exactly one entry, and
appends the side-file's path to the live record's archive pointers. -/
theorem C7_large_threshold_and_archive (loc : Loc) (rel stem timestamp ts : Str)
    (threshold : Nat) (hdr : Option Fields) (refEx : Str → Bool)
    (cur : List (Str × Str)) :
    (∀ issues : List Issue,
      scanRecordIssues loc true rel threshold hdr refEx cur = Except.ok issues →
      (issues.filter (fun i => i.itype = ("LARGE".data))).length =
        (if threshold < loc.history.length then 1 else 0)) ∧
    (loc.history ≠ [] →
      ∃ acv live : Loc, archiveRecord loc stem timestamp ts = some (acv, live) ∧
        live.history.length = 1 ∧
        acv.history = loc.history ∧
        live.archive = loc.archive ++
          [("./.dw/acv/".data) ++ stem ++ ('-' :: timestamp) ++ (".txt".data)]) := by
  constructor
  · intro issues hok
    rw [scanRecordIssues] at hok
    dsimp only at hok
    split at hok
    · rename_i hfalse
      exact Bool.noConfusion hfalse
    · cases hdr with
      | none =>
        cases hok
        by_cases hl : threshold < loc.history.length
        · rw [if_pos hl, if_pos hl]
          rfl
        · rw [if_neg hl, if_neg hl]
          rfl
      | some fields =>
        dsimp only [Bind.bind, Except.bind] at hok
        split at hok
        · split at hok
          · cases hok
            rw [List.filter_append, List.filter_append,
              filter_if_single ("STALE".data) (by decide),
              filter_if_single ("BROKEN".data) (by decide),
              List.append_nil, List.append_nil]
            by_cases hl : threshold < loc.history.length
            · rw [if_pos hl, if_pos hl]
              rfl
            · rw [if_neg hl, if_neg hl]
              rfl
          · exact Except.noConfusion hok
        · split at hok
          · cases hok
            rw [List.filter_append, List.filter_append,
              filter_if_single ("STALE".data) (by decide),
              filter_if_single ("BROKEN".data) (by decide),
              List.append_nil, List.append_nil]
            by_cases hl : threshold < loc.history.length
            · rw [if_pos hl, if_pos hl]
              rfl
            · rw [if_neg hl, if_neg hl]
              rfl
          · exact Except.noConfusion hok
        · split at hok
          · split at hok
            · cases hok
              rw [List.filter_append, List.filter_append,
                filter_if_single ("STALE".data) (by decide),
              filter_if_single ("BROKEN".data) (by decide),
                List.append_nil, List.append_nil]
              by_cases hl : threshold < loc.history.length
              · rw [if_pos hl, if_pos hl]
                rfl
              · rw [if_neg hl, if_neg hl]
                rfl
            · exact Except.noConfusion hok
          · exact Except.noConfusion hok
  · intro hne
    rw [archiveRecord, if_neg (fun h => hne (List.isEmpty_iff.mp h))]
    exact ⟨_, _, rfl, rfl, rfl, rfl⟩

/-- A record with 101 history entries. -/
def c7loc : Loc :=
  { meta := [], history := List.replicate 101 { action := ("a".data), changes := [] },
    archive := [] }

/-- The issues the scan reports for `c7loc` at threshold 100. -/
def c7issues : List Issue :=
  [{ itype := ("LARGE".data), tag := ("AF".data), file := ("./a.txt".data),
     detail := natToStr 101 ++ (" entries".data), fixable := true }]

/-- Witness for C7: 101 entries over threshold 100 yield exactly one LARGE
issue, and archiving leaves one live entry with the full history side-filed. -/
theorem C7_large_threshold_and_archive_witness :
    (c7issues.filter (fun i => i.itype = ("LARGE".data))).length =
      (if 100 < c7loc.history.length then 1 else 0) ∧
    ∃ acv live : Loc,
      archiveRecord c7loc ("a".data) ("20240101".data) ("t1".data) =
        some (acv, live) ∧
      live.history.length = 1 ∧
      acv.history = c7loc.history ∧
      live.archive = c7loc.archive ++
        [("./.dw/acv/".data) ++ ("a".data) ++ ('-' :: ("20240101".data)) ++
          (".txt".data)] :=
  ⟨(C7_large_threshold_and_archive c7loc ("./a.txt".data) ("a".data)
      ("20240101".data) ("t1".data) 100 none (fun _ => false) []).1 c7issues
      (by decide),
   (C7_large_threshold_and_archive c7loc ("./a.txt".data) ("a".data)
      ("20240101".data) ("t1".data) 100 none (fun _ => false) []).2 (by decide)⟩

/-! ## Claim C10: duplicate block names collapse to the last occurrence -/

/-- C10: on any text whose top-level block matches are two blocks sharing a
name, parsing keeps only the second block's content under that name while
recording the name once per occurrence in the block order; parsing is not
injective (a text whose first duplicate already holds the second's content
parses identically), and rendering the parse repeats the surviving block's
content once per occurrence. -/
theorem C10_duplicate_blocks (c c2 n b1 b2 : Str)
    (hfb : DWML.findBlocks c = [(n, b1), (n, b2)])
    (hfb2 : DWML.findBlocks c2 = [(n, b2), (n, b2)])
    (hne : b1 ≠ b2) :
    DWML.parse c =
      { blocks := [(n, parse_block_content n b2)], block_order := [n, n] } ∧
    c ≠ c2 ∧
    DWML.parse c = DWML.parse c2 ∧
    DWML.render (DWML.parse c) =
      joinNl (renderBlockLines n (parse_block_content n b2) ++
        renderBlockLines n (parse_block_content n b2)) := by
  have h1 : DWML.parse c =
      { blocks := [(n, parse_block_content n b2)], block_order := [n, n] } := by
    rw [DWML.parse, hfb]
    simp [dinsert]
  have h2 : DWML.parse c2 =
      { blocks := [(n, parse_block_content n b2)], block_order := [n, n] } := by
    rw [DWML.parse, hfb2]
    simp [dinsert]
  refine ⟨h1, ?_, h1.trans h2.symm, ?_⟩
  · intro he
    rw [he, hfb2] at hfb
    simp only [List.cons.injEq, Prod.mk.injEq, true_and, and_true] at hfb
    exact hne hfb.symm
  · rw [h1, DWML.render]
    simp [dlookup]

/-- A text with two `a` blocks holding `1` then `2`. -/
def c10c : Str := ("=d=a=w=1=q=a=e=\n=d=a=w=2=q=a=e=").data

/-- The same text with the first block's content already replaced by `2`. -/
def c10c2 : Str := ("=d=a=w=2=q=a=e=\n=d=a=w=2=q=a=e=").data

/-- Witness for C10: the two concrete duplicate-block texts. -/
theorem C10_duplicate_blocks_witness :
    DWML.parse c10c =
      { blocks := [(("a".data), parse_block_content ("a".data) ("2".data))],
        block_order := [("a".data), ("a".data)] } ∧
    c10c ≠ c10c2 ∧
    DWML.parse c10c = DWML.parse c10c2 ∧
    DWML.render (DWML.parse c10c) =
      joinNl (renderBlockLines ("a".data) (parse_block_content ("a".data) ("2".data)) ++
        renderBlockLines ("a".data) (parse_block_content ("a".data) ("2".data))) :=
  C10_duplicate_blocks c10c c10c2 ("a".data) ("1".data) ("2".data)
    (by decide) (by decide) (by decide)

/-! ## Claim C1: the render/parse round trip

The counterexample is a singleton-list field; the amended round trip is
proved for the documents the builder operations produce whose names and keys
are word runs, whose values and texts avoid the codec's own marker
characters, and whose list values carry at least two elements. -/

/-- Characters safe inside rendered values, comments and change texts: they
cannot interfere with any DWML marker or the value syntax. -/
def goodChar (c : Char) : Bool :=
  !(c = '=' || c = '|' || c = ';' || c = '\n' || c = '#' || c = '+' || c = '-')

theorem wordChar_not_space {c : Char} (h : wordChar c = true) : pySpace c = false := by
  have key : ∀ x : Char, x = ' ' ∨ x = '\t' ∨ x = '\n' ∨ x = '\r' ∨ x = '\x0b' ∨
      x = '\x0c' → wordChar x = false := by
    rintro x (rfl | rfl | rfl | rfl | rfl | rfl) <;> decide
  rw [pySpace]
  by_cases h1 : c = ' '
  · rw [key c (Or.inl h1)] at h; exact Bool.noConfusion h
  by_cases h2 : c = '\t'
  · rw [key c (Or.inr (Or.inl h2))] at h; exact Bool.noConfusion h
  by_cases h3 : c = '\n'
  · rw [key c (Or.inr (Or.inr (Or.inl h3)))] at h; exact Bool.noConfusion h
  by_cases h4 : c = '\r'
  · rw [key c (Or.inr (Or.inr (Or.inr (Or.inl h4))))] at h; exact Bool.noConfusion h
  by_cases h5 : c = '\x0b'
  · rw [key c (Or.inr (Or.inr (Or.inr (Or.inr (Or.inl h5)))))] at h
    exact Bool.noConfusion h
  by_cases h6 : c = '\x0c'
  · rw [key c (Or.inr (Or.inr (Or.inr (Or.inr (Or.inr h6)))))] at h
    exact Bool.noConfusion h
  simp [h1, h2, h3, h4, h5, h6]

theorem goodChar_ne {c : Char} (h : goodChar c = true) :
    c ≠ '=' ∧ c ≠ '|' ∧ c ≠ ';' ∧ c ≠ '\n' ∧ c ≠ '#' ∧ c ≠ '+' ∧ c ≠ '-' := by
  rw [goodChar] at h
  refine ⟨?_, ?_, ?_, ?_, ?_, ?_, ?_⟩ <;> rintro rfl <;> revert h <;> decide

theorem notMem_of_good {v : Str} (hv : ∀ c ∈ v, goodChar c = true) :
    '=' ∉ v ∧ '|' ∉ v ∧ ';' ∉ v ∧ '\n' ∉ v ∧ '#' ∉ v ∧ '+' ∉ v ∧ '-' ∉ v := by
  refine ⟨?_, ?_, ?_, ?_, ?_, ?_, ?_⟩ <;>
    intro hm <;> have := goodChar_ne (hv _ hm) <;> tauto

/-- A pattern with a character the string lacks never occurs in it. -/
theorem hasSub_false_of_missing {pat s : Str} {c : Char} (hc : c ∈ pat) (hs : c ∉ s) :
    hasSub pat s = false := by
  by_cases h : hasSub pat s = true
  · exfalso
    rcases hasSub_iff.mp h with ⟨a, b, rfl⟩
    exact hs (by simp [hc])
  · simpa using h

/-- An occurrence of an extended pattern yields one of the pattern itself. -/
theorem hasSub_extend_false {p q s : Str} (h : hasSub p s = false) :
    hasSub (p ++ q) s = false := by
  by_cases h2 : hasSub (p ++ q) s = true
  · exfalso
    rcases hasSub_iff.mp h2 with ⟨a, b, rfl⟩
    have : hasSub p (a ++ (p ++ q) ++ b) = true :=
      hasSub_iff.mpr ⟨a, q ++ b, by simp⟩
    rw [h] at this
    exact Bool.noConfusion this
  · simpa using h2

theorem breakOn_none_of_no_sub {pat s : Str} (h : hasSub pat s = false) :
    breakOn pat s = none := by
  cases hb : breakOn pat s with
  | none => rfl
  | some pr =>
    exfalso
    obtain ⟨a, b⟩ := pr
    have := breakOn_eq hb
    rw [this, show a ++ pat ++ b = a ++ pat ++ b from rfl] at h
    have h2 : hasSub pat (a ++ pat ++ b) = true := hasSub_iff.mpr ⟨a, b, rfl⟩
    rw [h] at h2
    exact Bool.noConfusion h2

theorem searchTag_none {opn cls s : Str} (h : hasSub opn s = false) :
    searchTag opn cls s = none := by
  rw [searchTag, breakOn_none_of_no_sub h]

theorem stripPre_self (pat t : Str) : stripPre pat (pat ++ t) = some t := by
  rw [stripPre, if_pos (isPre_append pat t), List.drop_left]

/-- A run of word characters stops exactly at a non-word character. -/
theorem takeWordRun_all {s : Str} (hs : ∀ c ∈ s, wordChar c = true) :
    takeWordRun s = (s, []) := by
  induction s with
  | nil => rfl
  | cons c rest ih =>
    rw [takeWordRun, if_pos (hs c (List.mem_cons_self c rest)),
      ih fun c hc => hs c (List.mem_cons_of_mem _ hc)]

theorem takeWordRun_append_stop {a : Str} {c : Char} (b : Str)
    (hc : wordChar c = false) :
    takeWordRun (a ++ c :: b) = ((takeWordRun a).1, (takeWordRun a).2 ++ c :: b) := by
  induction a with
  | nil => simp [takeWordRun, hc]
  | cons x a' ih =>
    rw [List.cons_append, takeWordRun, takeWordRun]
    by_cases hx : wordChar x = true
    · rw [if_pos hx, if_pos hx, ih]
    · rw [if_neg hx, if_neg hx]
      simp

theorem takeNoPipe_all {s : Str} (hs : '|' ∉ s) : takeNoPipe s = (s, []) := by
  induction s with
  | nil => rfl
  | cons c rest ih =>
    have hc : ¬(c = '|') := fun h => hs (by simp [h])
    rw [takeNoPipe, if_neg hc, ih fun h => hs (List.mem_cons_of_mem _ h)]

theorem takeNoPipe_append_stop {a : Str} (b : Str) (ha : '|' ∉ a) :
    takeNoPipe (a ++ '|' :: b) = (a, '|' :: b) := by
  induction a with
  | nil => simp [takeNoPipe]
  | cons x a' ih =>
    have hx : ¬(x = '|') := fun h => ha (by simp [h])
    rw [List.cons_append, takeNoPipe, if_neg hx,
      ih fun h => ha (List.mem_cons_of_mem _ h)]

/-- A list of lines as a text in which every line is closed by a newline. -/
def nlConcat (ls : List Str) : Str := (ls.map (fun l => l ++ ['\n'])).flatten

theorem nlConcat_nil : nlConcat [] = [] := rfl

theorem nlConcat_cons (l : Str) (ls : List Str) :
    nlConcat (l :: ls) = l ++ '\n' :: nlConcat ls := by
  simp [nlConcat]

theorem nlConcat_append (a b : List Str) :
    nlConcat (a ++ b) = nlConcat a ++ nlConcat b := by
  simp [nlConcat]

theorem joinNl_cons_cons (l a : Str) (b : List Str) :
    joinNl (l :: a :: b) = l ++ '\n' :: joinNl (a :: b) := rfl

theorem joinNl_nl (x : Str) (xs : List Str) :
    joinNl (x :: xs) ++ ['\n'] = nlConcat (x :: xs) := by
  induction xs generalizing x with
  | nil => simp [joinNl, nlConcat]
  | cons y ys ih =>
    rw [joinNl_cons_cons, nlConcat_cons, ← ih y]
    simp

theorem splitNl_cons_nl (s : Str) : splitNl ('\n' :: s) = [] :: splitNl s := by
  rw [splitNl, if_pos rfl]

theorem splitNl_nlConcat {ls : List Str} (h : ∀ l ∈ ls, '\n' ∉ l) :
    splitNl (nlConcat ls) = ls ++ [[]] := by
  induction ls with
  | nil => rfl
  | cons l ls' ih =>
    rw [nlConcat_cons, splitNl_append_nl (h l (List.mem_cons_self l ls')),
      ih fun l hl => h l (List.mem_cons_of_mem _ hl)]
    rfl

theorem hasSub_cons_ne {p0 : Char} {p1 : Str} {c : Char} {s : Str} (h : p0 ≠ c) :
    hasSub (p0 :: p1) (c :: s) = hasSub (p0 :: p1) s := by
  rw [hasSub_cons]
  have : isPre (p0 :: p1) (c :: s) = false := by
    simp [isPre, h]
  rw [this]
  simp

theorem hasSub_nlConcat_false {pat : Str} (hp : pat ≠ []) (hnl : '\n' ∉ pat)
    {ls : List Str} (h : ∀ l ∈ ls, hasSub pat l = false) :
    hasSub pat (nlConcat ls) = false := by
  induction ls with
  | nil => exact hasSub_nil_of_ne hp
  | cons l ls' ih =>
    rw [nlConcat_cons, hasSub_append_nl hp hnl, h l (List.mem_cons_self l ls'),
      ih fun l hl => h l (List.mem_cons_of_mem _ hl)]
    rfl

theorem nl_nlConcat_shape : ∀ ls : List Str, ∃ a : Str, '\n' :: nlConcat ls = a ++ ['\n'] := by
  intro ls
  induction ls with
  | nil => exact ⟨[], rfl⟩
  | cons l ls' ih =>
    obtain ⟨a, ha⟩ := ih
    refine ⟨('\n' :: l) ++ a, ?_⟩
    rw [nlConcat_cons]
    have : '\n' :: (l ++ '\n' :: nlConcat ls') = ('\n' :: l) ++ ('\n' :: nlConcat ls') := rfl
    rw [this, ha]
    simp

theorem hasSub_nl_nlConcat_false {pat : Str} (hp : pat ≠ []) (hnl : '\n' ∉ pat)
    {ls : List Str} (h : ∀ l ∈ ls, hasSub pat l = false) :
    hasSub pat ('\n' :: nlConcat ls) = false := by
  cases pat with
  | nil => exact absurd rfl hp
  | cons p0 p1 =>
    have hne : p0 ≠ '\n' := fun he => hnl (by simp [he])
    rw [hasSub_cons_ne hne]
    exact hasSub_nlConcat_false hp hnl h

/-- Leftmost search for a marker that no preceding line contains finds the
marker exactly after those lines. -/
theorem breakOn_marker_bc {pat : Str} (hp : pat ≠ []) (hnl : '\n' ∉ pat)
    {ls : List Str} (hno : ∀ l ∈ ls, hasSub pat l = false) (b : Str) :
    breakOn pat (('\n' :: nlConcat ls) ++ pat ++ b) = some ('\n' :: nlConcat ls, b) := by
  obtain ⟨a, ha⟩ := nl_nlConcat_shape ls
  rw [ha]
  exact breakOn_marker_nl hp hnl (by rw [← ha]; exact hasSub_nl_nlConcat_false hp hnl hno)

/-- The rendered value chain of a field: `;|v1|;,;|v2|;,...` (the
`joinComma` part of `renderFieldLine`). -/
def chainStr (vs : List Str) : Str :=
  joinComma (vs.map (fun v => (";|".data) ++ v ++ ("|;".data)))

theorem joinComma_cons_cons (a b : Str) (ls : List Str) :
    joinComma (a :: b :: ls) = a ++ ',' :: joinComma (b :: ls) := rfl

theorem chainStr_cons_cons (v v2 : Str) (rest2 : List Str) :
    chainStr (v :: v2 :: rest2) =
      ';' :: '|' :: (v ++ '|' :: ';' :: (',' :: chainStr (v2 :: rest2))) := by
  rw [chainStr, chainStr, List.map_cons, List.map_cons, joinComma_cons_cons]
  simp

theorem chainStr_single (v : Str) :
    chainStr [v] = ';' :: '|' :: (v ++ '|' :: ';' :: []) := by
  rw [chainStr, List.map_cons, List.map_nil, joinComma]
  simp

theorem tryValueAt_nonword {c : Char} (s : Str) (hc : wordChar c = false) :
    tryValueAt (c :: s) = none := by
  have ht : takeWordRun (c :: s) = ([], c :: s) := by
    rw [takeWordRun, if_neg (by rw [hc]; exact Bool.false_ne_true)]
  rw [tryValueAt, ht]
  simp

theorem tryValueAt_exact {k v : Str} (t : Str) (hk : k ≠ [])
    (hkw : ∀ c ∈ k, wordChar c = true) (hv : '|' ∉ v) :
    tryValueAt (k ++ ';' :: '|' :: (v ++ '|' :: ';' :: t)) = some (k, v, t) := by
  have h1 : takeWordRun (k ++ ';' :: '|' :: (v ++ '|' :: ';' :: t)) =
      (k, ';' :: '|' :: (v ++ '|' :: ';' :: t)) := by
    rw [takeWordRun_append_stop _ (by decide), takeWordRun_all hkw]
    simp
  rw [tryValueAt, h1]
  simp only [List.isEmpty_eq_true]
  rw [if_neg hk]
  have h2 : stripPre ((";|".data)) (';' :: '|' :: (v ++ '|' :: ';' :: t)) =
      some (v ++ '|' :: ';' :: t) := stripPre_self (";|".data) _
  rw [h2]
  dsimp only
  have h3 : takeNoPipe (v ++ '|' :: ';' :: t) = (v, '|' :: ';' :: t) :=
    takeNoPipe_append_stop _ hv
  rw [h3]
  dsimp only
  have h4 : stripPre (("|;".data)) ('|' :: ';' :: t) = some t :=
    stripPre_self ("|;".data) t
  rw [h4]

theorem valueMatches_val_tail {v : Str} (t : Str) (hv : ';' ∉ v) :
    valueMatches (v ++ '|' :: ';' :: t) = valueMatches t := by
  induction v with
  | nil =>
    rw [List.nil_append, valueMatches_none (tryValueAt_nonword _ (by decide)),
      valueMatches_none (tryValueAt_nonword _ (by decide))]
  | cons c v' ih =>
    have hv' : ';' ∉ v' := fun h => hv (List.mem_cons_of_mem _ h)
    have hstep : tryValueAt (c :: (v' ++ '|' :: ';' :: t)) = none := by
      by_cases wc : wordChar c = true
      · have hrun : takeWordRun (c :: (v' ++ '|' :: ';' :: t)) =
            (c :: (takeWordRun v').1, (takeWordRun v').2 ++ '|' :: ';' :: t) := by
          rw [takeWordRun, if_pos wc, takeWordRun_append_stop _ (by decide)]
        rw [tryValueAt, hrun]
        simp only [List.isEmpty_cons, Bool.false_eq_true, if_false]
        have hsp : stripPre ((";|".data)) ((takeWordRun v').2 ++ '|' :: ';' :: t) =
            none := by
          rw [stripPre]
          cases hz : (takeWordRun v').2 with
          | nil =>
            rw [if_neg (by simp [isPre])]
          | cons d r =>
            have e := takeWordRun_eq v'
            rw [hz] at e
            have hd : d ∈ v' := by rw [e]; simp
            have hdne : ';' ≠ d := fun h => hv' (h ▸ hd)
            rw [if_neg (by simp [isPre, hdne])]
        rw [hsp]
      · exact tryValueAt_nonword _ (by simpa using wc)
    rw [List.cons_append, valueMatches_none hstep, ih hv']

theorem vm_chainStr_nil {vs : List Str} (hv : ∀ v ∈ vs, ';' ∉ v) :
    valueMatches (chainStr vs) = [] := by
  induction vs with
  | nil => rfl
  | cons v rest ih =>
    have hvv : ';' ∉ v := hv v (List.mem_cons_self v rest)
    cases rest with
    | nil =>
      show valueMatches (';' :: '|' :: (v ++ '|' :: ';' :: [])) = []
      rw [valueMatches_none (tryValueAt_nonword _ (by decide)),
        valueMatches_none (tryValueAt_nonword _ (by decide)),
        valueMatches_val_tail _ hvv]
      rfl
    | cons v2 rest2 =>
      rw [chainStr_cons_cons, valueMatches_none (tryValueAt_nonword _ (by decide)),
        valueMatches_none (tryValueAt_nonword _ (by decide)),
        valueMatches_val_tail _ hvv,
        valueMatches_none (tryValueAt_nonword _ (by decide))]
      exact ih fun x hx => hv x (List.mem_cons_of_mem _ hx)

theorem valueMatches_field {k : Str} {vs : List Str} (hk : k ≠ [])
    (hkw : ∀ c ∈ k, wordChar c = true) (hvs : vs ≠ [])
    (hv : ∀ v ∈ vs, '|' ∉ v ∧ ';' ∉ v) :
    valueMatches (k ++ chainStr vs) = [(k, vs.headI)] := by
  cases vs with
  | nil => exact absurd rfl hvs
  | cons v rest =>
    have hvv := hv v (List.mem_cons_self v rest)
    cases rest with
    | nil =>
      rw [chainStr_single]
      cases k with
      | nil => exact absurd rfl hk
      | cons k0 k' =>
        rw [List.cons_append,
          valueMatches_some (by
            rw [← List.cons_append]
            exact tryValueAt_exact [] hk hkw hvv.1)]
        rfl
    | cons v2 rest2 =>
      rw [chainStr_cons_cons]
      cases k with
      | nil => exact absurd rfl hk
      | cons k0 k' =>
        rw [List.cons_append,
          valueMatches_some (by
            rw [← List.cons_append]
            exact tryValueAt_exact _ hk hkw hvv.1),
          valueMatches_none (tryValueAt_nonword _ (by decide)),
          vm_chainStr_nil fun x hx => (hv x (List.mem_cons_of_mem _ hx)).2]
        rfl

theorem tryListRep_exact_end {v : Str} (hv : '|' ∉ v) :
    tryListRep (';' :: '|' :: (v ++ '|' :: ';' :: [])) = some (v, []) := by
  rw [tryListRep,
    show (';' :: '|' :: (v ++ '|' :: ';' :: []) : Str) =
      ((";|".data)) ++ (v ++ '|' :: ';' :: []) from rfl,
    stripPre_self]
  dsimp only
  rw [takeNoPipe_append_stop _ hv]
  rfl

theorem tryListRep_exact_comma {v : Str} (t : Str) (hv : '|' ∉ v) :
    tryListRep (';' :: '|' :: (v ++ '|' :: ';' :: (',' :: t))) = some (v, t) := by
  rw [tryListRep,
    show (';' :: '|' :: (v ++ '|' :: ';' :: (',' :: t)) : Str) =
      ((";|".data)) ++ (v ++ '|' :: ';' :: (',' :: t)) from rfl,
    stripPre_self]
  dsimp only
  rw [takeNoPipe_append_stop _ hv]
  rfl

theorem listChainAux_chain {vs : List Str} (hvs : vs ≠ [])
    (hv : ∀ v ∈ vs, '|' ∉ v) :
    listChainAux (chainStr vs) = (vs, []) := by
  induction vs with
  | nil => exact absurd rfl hvs
  | cons v rest ih =>
    have hvv : '|' ∉ v := hv v (List.mem_cons_self v rest)
    cases rest with
    | nil =>
      rw [chainStr_single, listChainAux_some (tryListRep_exact_end hvv),
        listChainAux_none (by decide)]
    | cons v2 rest2 =>
      rw [chainStr_cons_cons, listChainAux_some (tryListRep_exact_comma _ hvv),
        ih (by simp) fun x hx => hv x (List.mem_cons_of_mem _ hx)]

theorem chainStr_head {vs : List Str} (hvs : vs ≠ []) :
    ∃ X : Str, chainStr vs = ';' :: X := by
  cases vs with
  | nil => exact absurd rfl hvs
  | cons v rest =>
    cases rest with
    | nil => exact ⟨_, chainStr_single v⟩
    | cons v2 rest2 => exact ⟨_, chainStr_cons_cons v v2 rest2⟩

theorem tryListAt_exact {k : Str} {vs : List Str} (hk : k ≠ [])
    (hkw : ∀ c ∈ k, wordChar c = true) (hvs : vs ≠ [])
    (hv : ∀ v ∈ vs, '|' ∉ v) :
    tryListAt (k ++ chainStr vs) = some (k, vs, []) := by
  obtain ⟨X, hX⟩ := chainStr_head hvs
  have hrun : takeWordRun (k ++ chainStr vs) = (k, chainStr vs) := by
    rw [hX, takeWordRun_append_stop _ (by decide), takeWordRun_all hkw]
    simp
  have hch := listChainAux_chain hvs hv
  rw [tryListAt, hrun]
  simp only [List.isEmpty_eq_true]
  rw [if_neg hk, hch]
  simp only [List.isEmpty_eq_true]
  rw [if_neg hvs]

theorem listMatches_field {k : Str} {vs : List Str} (hk : k ≠ [])
    (hkw : ∀ c ∈ k, wordChar c = true) (hvs : vs ≠ [])
    (hv : ∀ v ∈ vs, '|' ∉ v) :
    listMatches (k ++ chainStr vs) = [(k, vs)] := by
  cases k with
  | nil => exact absurd rfl hk
  | cons k0 k' =>
    rw [List.cons_append,
      listMatches_some (by
        rw [← List.cons_append]
        exact tryListAt_exact hk hkw hvs hv)]
    rfl

theorem parse_value_line_scalar {fields : Fields} {k v : Str} (hk : k ≠ [])
    (hkw : ∀ c ∈ k, wordChar c = true) (hv : '|' ∉ v ∧ ';' ∉ v)
    (hfresh : dlookup fields k = none) :
    parse_value_line fields (k ++ chainStr [v]) =
      dinsert fields k (FieldValue.scalar v) := by
  have hv1 : ∀ x ∈ [v], '|' ∉ x ∧ ';' ∉ x := by
    intro x hx
    rw [List.mem_singleton] at hx
    rw [hx]
    exact hv
  rw [parse_value_line, valueMatches_field hk hkw (by simp) hv1,
    listMatches_field hk hkw (by simp) (fun x hx => (hv1 x hx).1)]
  dsimp only [List.foldl, List.headI]
  rw [hfresh]
  dsimp only
  rw [if_neg (by simp)]

theorem parse_value_line_list {fields : Fields} {k : Str} {vs : List Str} (hk : k ≠ [])
    (hkw : ∀ c ∈ k, wordChar c = true) (h2 : 2 ≤ vs.length)
    (hv : ∀ v ∈ vs, '|' ∉ v ∧ ';' ∉ v) (hfresh : dlookup fields k = none) :
    parse_value_line fields (k ++ chainStr vs) =
      dinsert fields k (FieldValue.list vs) := by
  have hvs : vs ≠ [] := by
    intro h
    rw [h] at h2
    simp at h2
  rw [parse_value_line,
    valueMatches_field hk hkw hvs (fun x hx => hv x hx),
    listMatches_field hk hkw hvs (fun x hx => (hv x hx).1)]
  dsimp only [List.foldl]
  rw [hfresh]
  dsimp only
  rw [if_pos (by omega), dinsert_fresh fields k (FieldValue.scalar vs.headI) hfresh,
    dinsert_last fields k _ _ hfresh, dinsert_fresh fields k (FieldValue.list vs) hfresh]

/-! Rendered line shapes and the absence of stray markers in them. -/

/-- A rendered comment line. -/
def commentLine (cm : Str) : Str := ("=#= ".data) ++ cm ++ (" =o=".data)

/-- A rendered added-change line. -/
def addedLine (a : Str) : Str := ("=+= ".data) ++ a ++ (" =o=".data)

/-- A rendered removed-change line. -/
def remLine (r : Str) : Str := ("=-= ".data) ++ r ++ (" =o=".data)

/-- A rendered field line over the value chain. -/
def fieldLine (k : Str) (vs : List Str) : Str :=
  ("=x= ".data) ++ k ++ chainStr vs ++ (" =z=".data)

/-- The values a field value carries. -/
def valsOf : FieldValue → List Str
  | FieldValue.scalar v => [v]
  | FieldValue.list vs => vs

theorem renderFieldLine_eq (k : Str) (fv : FieldValue) :
    renderFieldLine (k, fv) = fieldLine k (valsOf fv) := by
  cases fv with
  | scalar v =>
    rw [renderFieldLine, valsOf, fieldLine, chainStr_single]
    simp
  | list vs =>
    rw [renderFieldLine, valsOf, fieldLine, chainStr]

theorem hasSub_eq_step {q : Char} {p2 : Str} {c : Char} {s : Str} (hc : q ≠ c) :
    hasSub ('=' :: q :: p2) ('=' :: c :: s) = hasSub ('=' :: q :: p2) (c :: s) := by
  rw [hasSub_cons]
  have : isPre ('=' :: q :: p2) ('=' :: c :: s) = false := by
    simp [isPre, hc]
  rw [this]
  simp

theorem hasSub_eq_last {q : Char} {p2 : Str} :
    hasSub ('=' :: q :: p2) (['=']) = false := by
  simp [hasSub, isPre]

theorem wordChar_ne_eq {c : Char} (h : wordChar c = true) : c ≠ '=' := by
  rintro rfl
  revert h
  decide

theorem chainStr_no_eq {vs : List Str} (hv : ∀ v ∈ vs, '=' ∉ v) :
    '=' ∉ chainStr vs := by
  induction vs with
  | nil => simp [chainStr, joinComma]
  | cons v rest ih =>
    have hvv : '=' ∉ v := hv v (List.mem_cons_self v rest)
    cases rest with
    | nil =>
      rw [chainStr_single]
      intro hm
      rcases List.mem_cons.mp hm with h | hm2
      · exact absurd h (by decide)
      rcases List.mem_cons.mp hm2 with h | hm3
      · exact absurd h (by decide)
      rcases List.mem_append.mp hm3 with h | h
      · exact hvv h
      · revert h
        decide
    | cons v2 rest2 =>
      rw [chainStr_cons_cons]
      intro hm
      rcases List.mem_cons.mp hm with h | hm2
      · exact absurd h (by decide)
      rcases List.mem_cons.mp hm2 with h | hm3
      · exact absurd h (by decide)
      rcases List.mem_append.mp hm3 with h | hm4
      · exact hvv h
      rcases List.mem_cons.mp hm4 with h | hm5
      · exact absurd h (by decide)
      rcases List.mem_cons.mp hm5 with h | hm6
      · exact absurd h (by decide)
      rcases List.mem_cons.mp hm6 with h | hm7
      · exact absurd h (by decide)
      · exact ih (fun x hx => hv x (List.mem_cons_of_mem _ hx)) hm7

/-- No `=`-opened marker occurs in a comment-style line whose distinguishing
character avoids the line's own marker characters. -/
theorem hasSub_wrap_line {q : Char} {p2 : Str} {m : Char} {txt : Str}
    (hq1 : q ≠ m) (hq2 : q ≠ ' ') (hq3 : q ≠ 'o') (hm : '=' ≠ m)
    (htxt : '=' ∉ txt) :
    hasSub ('=' :: q :: p2)
      (('=' :: m :: '=' :: ' ' :: []) ++ txt ++ (' ' :: '=' :: 'o' :: '=' :: [])) =
      false := by
  rw [show (('=' :: m :: '=' :: ' ' :: []) ++ txt ++ (' ' :: '=' :: 'o' :: '=' :: []) : Str) =
    '=' :: m :: '=' :: ' ' :: (txt ++ (' ' :: '=' :: 'o' :: '=' :: [])) from by simp]
  rw [hasSub_eq_step hq1, hasSub_cons_ne hm, hasSub_eq_step hq2,
    hasSub_cons_ne (by decide),
    hasSub_append_no_head (fun c hc he => htxt (by rw [← he]; exact hc)),
    hasSub_cons_ne (by decide), hasSub_eq_step hq3, hasSub_cons_ne (by decide),
    hasSub_eq_last]

/-- No `=`-opened marker occurs in a rendered field line whose distinguishing
character avoids the field markers. -/
theorem hasSub_field_line {q : Char} {p2 : Str} {k : Str} {vs : List Str}
    (hq1 : q ≠ 'x') (hq2 : q ≠ ' ') (hq3 : q ≠ 'z')
    (hk : ∀ c ∈ k, wordChar c = true) (hv : ∀ v ∈ vs, '=' ∉ v) :
    hasSub ('=' :: q :: p2) (fieldLine k vs) = false := by
  rw [fieldLine,
    show (("=x= ".data) ++ k ++ chainStr vs ++ (" =z=".data) : Str) =
      '=' :: 'x' :: '=' :: ' ' ::
        (k ++ (chainStr vs ++ (' ' :: '=' :: 'z' :: '=' :: []))) from by simp]
  rw [hasSub_eq_step hq1, hasSub_cons_ne (by decide), hasSub_eq_step hq2,
    hasSub_cons_ne (by decide),
    hasSub_append_no_head (fun c hc => wordChar_ne_eq (hk c hc)),
    hasSub_append_no_head (fun c hc he => chainStr_no_eq hv (by rw [← he]; exact hc)),
    hasSub_cons_ne (by decide), hasSub_eq_step hq3, hasSub_cons_ne (by decide),
    hasSub_eq_last]

theorem commentLine_shape (cm : Str) :
    commentLine cm =
      ('=' :: '#' :: '=' :: ' ' :: []) ++ cm ++ (' ' :: '=' :: 'o' :: '=' :: []) := by
  simp [commentLine]

theorem addedLine_shape (a : Str) :
    addedLine a =
      ('=' :: '+' :: '=' :: ' ' :: []) ++ a ++ (' ' :: '=' :: 'o' :: '=' :: []) := by
  simp [addedLine]

theorem remLine_shape (r : Str) :
    remLine r =
      ('=' :: '-' :: '=' :: ' ' :: []) ++ r ++ (' ' :: '=' :: 'o' :: '=' :: []) := by
  simp [remLine]

theorem pyStrip_marker (a : Str) : pyStrip ('=' :: a ++ ['=']) = '=' :: a ++ ['='] := by
  apply pyStrip_of_trimmed
  rw [trimmedB]
  have h1 : headNonSpace ('=' :: a ++ ['=']) = true := by
    show !pySpace '=' = true
    decide
  have h2 : headNonSpace (('=' :: a ++ ['=']).reverse) = true := by
    rw [show ('=' :: a ++ ['=']).reverse = '=' :: ('=' :: a).reverse by simp]
    show !pySpace '=' = true
    decide
  rw [h1, h2]
  rfl

theorem pyStrip_wrap (m : Char) (txt : Str) :
    pyStrip (('=' :: m :: '=' :: ' ' :: []) ++ txt ++ (' ' :: '=' :: 'o' :: '=' :: [])) =
      ('=' :: m :: '=' :: ' ' :: []) ++ txt ++ (' ' :: '=' :: 'o' :: '=' :: []) := by
  rw [show (('=' :: m :: '=' :: ' ' :: []) ++ txt ++ (' ' :: '=' :: 'o' :: '=' :: []) : Str) =
    '=' :: ((m :: '=' :: ' ' :: txt) ++ [' ', '=', 'o']) ++ ['='] from by simp]
  exact pyStrip_marker _

theorem pyStrip_fieldLine (k : Str) (vs : List Str) :
    pyStrip (fieldLine k vs) = fieldLine k vs := by
  rw [fieldLine,
    show (("=x= ".data) ++ k ++ chainStr vs ++ (" =z=".data) : Str) =
      '=' :: (('x' :: '=' :: ' ' :: []) ++ k ++ chainStr vs ++ [' ', '=', 'z']) ++ ['=']
      from by simp]
  exact pyStrip_marker _

theorem chainStr_last {vs : List Str} (hvs : vs ≠ []) :
    ∃ Y : Str, chainStr vs = Y ++ [';'] := by
  induction vs with
  | nil => exact absurd rfl hvs
  | cons v rest ih =>
    cases rest with
    | nil =>
      refine ⟨';' :: '|' :: (v ++ ['|']), ?_⟩
      rw [chainStr_single]
      simp
    | cons v2 rest2 =>
      obtain ⟨Y, hY⟩ := ih (by simp)
      refine ⟨';' :: '|' :: (v ++ '|' :: ';' :: ',' :: Y), ?_⟩
      rw [chainStr_cons_cons, hY]
      simp

theorem trimmedB_key_chain {k : Str} {vs : List Str} (hk : k ≠ [])
    (hkw : ∀ c ∈ k, wordChar c = true) (hvs : vs ≠ []) :
    trimmedB (k ++ chainStr vs) = true := by
  obtain ⟨Y, hY⟩ := chainStr_last hvs
  rw [trimmedB]
  cases k with
  | nil => exact absurd rfl hk
  | cons k0 k' =>
    have h1 : headNonSpace ((k0 :: k') ++ chainStr vs) = true := by
      show (!pySpace k0) = true
      rw [wordChar_not_space (hkw k0 (List.mem_cons_self k0 k'))]
      rfl
    have h2 : headNonSpace (((k0 :: k') ++ chainStr vs).reverse) = true := by
      rw [hY, show ((k0 :: k') ++ (Y ++ [';'])).reverse =
        ';' :: ((k0 :: k') ++ Y).reverse by simp]
      show !pySpace ';' = true
      decide
    rw [h1, h2]
    rfl

/-- `searchTag` on a rendered wrap line finds the padded text. -/
theorem searchTag_wrap {m : Char} (txt : Str) (htxt : '=' ∉ txt) :
    searchTag ('=' :: m :: '=' :: []) ('=' :: 'o' :: '=' :: [])
      (('=' :: m :: '=' :: ' ' :: []) ++ txt ++ (' ' :: '=' :: 'o' :: '=' :: [])) =
      some (' ' :: (txt ++ [' '])) := by
  rw [show (('=' :: m :: '=' :: ' ' :: []) ++ txt ++ (' ' :: '=' :: 'o' :: '=' :: []) : Str) =
    ('=' :: m :: '=' :: []) ++ (((' ' :: txt) ++ [' ']) ++ (('=' :: 'o' :: '=' :: []) ++ []))
    from by simp]
  rw [searchTag, breakOn_self]
  dsimp only
  have ha : ∀ c ∈ (' ' :: txt) ++ [' '], c ≠ '=' := by
    intro c hc
    rcases List.mem_append.mp hc with h | h
    · rcases List.mem_cons.mp h with rfl | h2
      · decide
      · intro he
        exact htxt (he ▸ h2)
    · rw [List.mem_singleton] at h
      rw [h]
      decide
  rw [breakOn_append_no_head ha, breakOn_self]
  simp

/-- `searchContent` on a rendered field line recovers key and chain. -/
theorem searchContent_field {k : Str} {vs : List Str} (hk : k ≠ [])
    (hkw : ∀ c ∈ k, wordChar c = true) (hvs : vs ≠ [])
    (hv : ∀ v ∈ vs, '=' ∉ v) :
    searchContent (fieldLine k vs) = some (k ++ chainStr vs) := by
  rw [searchContent,
    show ("=x=".data) = ('=' :: 'x' :: '=' :: [] : Str) from rfl,
    show ("=z=".data) = ('=' :: 'z' :: '=' :: [] : Str) from rfl]
  rw [fieldLine,
    show (("=x= ".data) ++ k ++ chainStr vs ++ (" =z=".data) : Str) =
      ('=' :: 'x' :: '=' :: []) ++
        (((' ' :: (k ++ chainStr vs)) ++ [' ']) ++ (('=' :: 'z' :: '=' :: []) ++ []))
      from by simp]
  rw [searchTag, breakOn_self]
  dsimp only
  have ha : ∀ c ∈ (' ' :: (k ++ chainStr vs)) ++ [' '], c ≠ '=' := by
    intro c hc
    rcases List.mem_append.mp hc with h | h
    · rcases List.mem_cons.mp h with rfl | h2
      · decide
      · rcases List.mem_append.mp h2 with h3 | h3
        · exact wordChar_ne_eq (hkw c h3)
        · intro he
          exact chainStr_no_eq hv (he ▸ h3)
    · rw [List.mem_singleton] at h
      rw [h]
      decide
  rw [breakOn_append_no_head ha, breakOn_self]
  simp only [Option.map_some', List.append_nil]
  have hps := pyStrip_pad (trimmedB_key_chain hk hkw hvs)
  rw [show ((' ' :: (k ++ chainStr vs)) ++ [' '] : Str) =
    ' ' :: ((k ++ chainStr vs) ++ [' ']) from by simp, hps]

/-- The per-line step of `parse_fields_block`. -/
def pfbStep (blk : DWMLBlock) (rawLine : Str) : DWMLBlock :=
  let line := pyStrip rawLine
  if line.isEmpty then blk
  else
    match searchTag ("=#=".data) ("=o=".data) line with
    | some m => { blk with comments := blk.comments ++ [pyStrip m] }
    | none =>
      match searchContent line with
      | some inner => { blk with fields := parse_value_line blk.fields inner }
      | none => { blk with raw_lines := blk.raw_lines ++ [line] }

theorem parse_fields_block_eq (b : DWMLBlock) (content : Str) :
    parse_fields_block b content = (splitNl content).foldl pfbStep b := rfl

/-- The per-line step of `parse_container_content`. -/
def pccStep (cont : DWMLContainer) (rawLine : Str) : DWMLContainer :=
  let line := pyStrip rawLine
  if line.isEmpty then cont
  else
    match searchTag ("=#=".data) ("=o=".data) line with
    | some m => { cont with comments := cont.comments ++ [pyStrip m] }
    | none =>
      match searchTag ("=+=".data) ("=o=".data) line with
      | some m => { cont with added := cont.added ++ [pyStrip m] }
      | none =>
        match searchTag ("=-=".data) ("=o=".data) line with
        | some m => { cont with removed := cont.removed ++ [pyStrip m] }
        | none =>
          match searchContent line with
          | some inner => { cont with fields := parse_value_line cont.fields inner }
          | none => { cont with raw_lines := cont.raw_lines ++ [line] }

theorem parse_container_content_eq (content : Str) :
    parse_container_content content = (splitNl content).foldl pccStep {} := rfl

theorem pfbStep_empty (b : DWMLBlock) : pfbStep b [] = b := rfl

theorem pccStep_empty (c : DWMLContainer) : pccStep c [] = c := rfl

theorem wordChar_ne_hash {c : Char} (h : wordChar c = true) : c ≠ '#' := by
  rintro rfl
  revert h
  decide

theorem chainStr_not_mem {c : Char} (hc1 : c ≠ ';') (hc2 : c ≠ '|') (hc3 : c ≠ ',')
    {vs : List Str} (hv : ∀ v ∈ vs, c ∉ v) : c ∉ chainStr vs := by
  induction vs with
  | nil => simp [chainStr, joinComma]
  | cons v rest ih =>
    have hvv : c ∉ v := hv v (List.mem_cons_self v rest)
    cases rest with
    | nil =>
      rw [chainStr_single]
      intro hm
      rcases List.mem_cons.mp hm with h | hm2
      · exact hc1 h
      rcases List.mem_cons.mp hm2 with h | hm3
      · exact hc2 h
      rcases List.mem_append.mp hm3 with h | h
      · exact hvv h
      · rcases List.mem_cons.mp h with h2 | h2
        · exact hc2 h2
        · rw [List.mem_singleton] at h2
          exact hc1 h2
    | cons v2 rest2 =>
      rw [chainStr_cons_cons]
      intro hm
      rcases List.mem_cons.mp hm with h | hm2
      · exact hc1 h
      rcases List.mem_cons.mp hm2 with h | hm3
      · exact hc2 h
      rcases List.mem_append.mp hm3 with h | hm4
      · exact hvv h
      rcases List.mem_cons.mp hm4 with h | hm5
      · exact hc2 h
      rcases List.mem_cons.mp hm5 with h | hm6
      · exact hc1 h
      rcases List.mem_cons.mp hm6 with h | hm7
      · exact hc3 h
      · exact ih (fun x hx => hv x (List.mem_cons_of_mem _ hx)) hm7

theorem not_mem_wrap {c m : Char} {txt : Str} (hc1 : c ≠ '=') (hc2 : c ≠ m)
    (hc3 : c ≠ ' ') (hc4 : c ≠ 'o') (htxt : c ∉ txt) :
    c ∉ ('=' :: m :: '=' :: ' ' :: []) ++ txt ++ (' ' :: '=' :: 'o' :: '=' :: []) := by
  intro hm
  rcases List.mem_append.mp hm with h | h
  · rcases List.mem_append.mp h with h2 | h2
    · rcases List.mem_cons.mp h2 with h3 | h3
      · exact hc1 h3
      rcases List.mem_cons.mp h3 with h4 | h4
      · exact hc2 h4
      rcases List.mem_cons.mp h4 with h5 | h5
      · exact hc1 h5
      rcases List.mem_cons.mp h5 with h6 | h6
      · exact hc3 h6
      · simp at h6
    · exact htxt h2
  · rcases List.mem_cons.mp h with h3 | h3
    · exact hc3 h3
    rcases List.mem_cons.mp h3 with h4 | h4
    · exact hc1 h4
    rcases List.mem_cons.mp h4 with h5 | h5
    · exact hc4 h5
    · rw [List.mem_singleton] at h5
      exact hc1 h5

theorem not_mem_fieldLine {c : Char} (hc1 : c ≠ '=') (hc2 : c ≠ 'x') (hc3 : c ≠ ' ')
    (hc4 : c ≠ 'z') (hc5 : c ≠ ';') (hc6 : c ≠ '|') (hc7 : c ≠ ',')
    {k : Str} {vs : List Str} (hk : ∀ d ∈ k, wordChar d = true ∧ d ≠ c)
    (hv : ∀ v ∈ vs, c ∉ v) : c ∉ fieldLine k vs := by
  rw [fieldLine]
  intro hm
  rcases List.mem_append.mp hm with h | h
  · rcases List.mem_append.mp h with h2 | h2
    · rcases List.mem_append.mp h2 with h3 | h3
      · revert h3
        intro h3
        rcases List.mem_cons.mp h3 with h4 | h4
        · exact hc1 h4
        rcases List.mem_cons.mp h4 with h5 | h5
        · exact hc2 h5
        rcases List.mem_cons.mp h5 with h6 | h6
        · exact hc1 h6
        · rw [List.mem_singleton] at h6
          exact hc3 h6
      · exact (hk c h3).2 rfl
    · exact chainStr_not_mem hc5 hc6 hc7 hv h2
  · rcases List.mem_cons.mp h with h3 | h3
    · exact hc3 h3
    rcases List.mem_cons.mp h3 with h4 | h4
    · exact hc1 h4
    rcases List.mem_cons.mp h4 with h5 | h5
    · exact hc4 h5
    · rw [List.mem_singleton] at h5
      exact hc1 h5

theorem searchTag_comment_line {cm : Str} (hcm : '=' ∉ cm) :
    searchTag ("=#=".data) ("=o=".data) (commentLine cm) = some (' ' :: (cm ++ [' '])) := by
  rw [show ("=#=".data) = ('=' :: '#' :: '=' :: [] : Str) from rfl,
    show ("=o=".data) = ('=' :: 'o' :: '=' :: [] : Str) from rfl, commentLine_shape]
  exact searchTag_wrap cm hcm

theorem searchTag_added_line {a : Str} (ha : '=' ∉ a) :
    searchTag ("=+=".data) ("=o=".data) (addedLine a) = some (' ' :: (a ++ [' '])) := by
  rw [show ("=+=".data) = ('=' :: '+' :: '=' :: [] : Str) from rfl,
    show ("=o=".data) = ('=' :: 'o' :: '=' :: [] : Str) from rfl, addedLine_shape]
  exact searchTag_wrap a ha

theorem searchTag_rem_line {r : Str} (hr : '=' ∉ r) :
    searchTag ("=-=".data) ("=o=".data) (remLine r) = some (' ' :: (r ++ [' '])) := by
  rw [show ("=-=".data) = ('=' :: '-' :: '=' :: [] : Str) from rfl,
    show ("=o=".data) = ('=' :: 'o' :: '=' :: [] : Str) from rfl, remLine_shape]
  exact searchTag_wrap r hr

theorem pyStrip_commentLine (cm : Str) : pyStrip (commentLine cm) = commentLine cm := by
  rw [commentLine_shape]
  exact pyStrip_wrap '#' cm

theorem pyStrip_addedLine (a : Str) : pyStrip (addedLine a) = addedLine a := by
  rw [addedLine_shape]
  exact pyStrip_wrap '+' a

theorem pyStrip_remLine (r : Str) : pyStrip (remLine r) = remLine r := by
  rw [remLine_shape]
  exact pyStrip_wrap '-' r

theorem commentLine_ne_empty (cm : Str) : (commentLine cm).isEmpty = false := by
  rw [commentLine]
  rfl

theorem addedLine_ne_empty (a : Str) : (addedLine a).isEmpty = false := by
  rw [addedLine]
  rfl

theorem remLine_ne_empty (r : Str) : (remLine r).isEmpty = false := by
  rw [remLine]
  rfl

theorem fieldLine_ne_empty (k : Str) (vs : List Str) :
    (fieldLine k vs).isEmpty = false := by
  rw [fieldLine]
  rfl

theorem pfbStep_comment {cm : Str} (b : DWMLBlock) (hcm : '=' ∉ cm)
    (ht : trimmedB cm = true) :
    pfbStep b (commentLine cm) = { b with comments := b.comments ++ [cm] } := by
  rw [pfbStep]
  dsimp only
  rw [pyStrip_commentLine, commentLine_ne_empty]
  simp only [Bool.false_eq_true, if_false]
  rw [searchTag_comment_line hcm]
  dsimp only
  rw [pyStrip_pad ht]

theorem hash_not_in_fieldLine {k : Str} {vs : List Str}
    (hk : ∀ c ∈ k, wordChar c = true) (hv : ∀ v ∈ vs, '#' ∉ v) :
    '#' ∉ fieldLine k vs :=
  not_mem_fieldLine (by decide) (by decide) (by decide) (by decide) (by decide)
    (by decide) (by decide)
    (fun d hd => ⟨hk d hd, fun he => absurd (hk d hd) (by rw [he]; decide)⟩) hv

theorem pfbStep_field {k : Str} {vs : List Str} (b : DWMLBlock) (hk : k ≠ [])
    (hkw : ∀ c ∈ k, wordChar c = true) (hvs : vs ≠ [])
    (hve : ∀ v ∈ vs, '=' ∉ v) (hvh : ∀ v ∈ vs, '#' ∉ v) :
    pfbStep b (fieldLine k vs) =
      { b with fields := parse_value_line b.fields (k ++ chainStr vs) } := by
  rw [pfbStep]
  dsimp only
  rw [pyStrip_fieldLine, fieldLine_ne_empty]
  simp only [Bool.false_eq_true, if_false]
  rw [searchTag_none (hasSub_false_of_missing (by decide)
    (hash_not_in_fieldLine hkw hvh))]
  dsimp only
  rw [searchContent_field hk hkw hvs hve]

theorem pccStep_comment {cm : Str} (c : DWMLContainer) (hcm : '=' ∉ cm)
    (ht : trimmedB cm = true) :
    pccStep c (commentLine cm) = { c with comments := c.comments ++ [cm] } := by
  rw [pccStep]
  dsimp only
  rw [pyStrip_commentLine, commentLine_ne_empty]
  simp only [Bool.false_eq_true, if_false]
  rw [searchTag_comment_line hcm]
  dsimp only
  rw [pyStrip_pad ht]

theorem hash_not_in_addedLine {a : Str} (ha : '#' ∉ a) : '#' ∉ addedLine a := by
  rw [addedLine_shape]
  exact not_mem_wrap (by decide) (by decide) (by decide) (by decide) ha

theorem hash_not_in_remLine {r : Str} (hr : '#' ∉ r) : '#' ∉ remLine r := by
  rw [remLine_shape]
  exact not_mem_wrap (by decide) (by decide) (by decide) (by decide) hr

theorem plus_not_in_remLine {r : Str} (hr : '+' ∉ r) : '+' ∉ remLine r := by
  rw [remLine_shape]
  exact not_mem_wrap (by decide) (by decide) (by decide) (by decide) hr

theorem pccStep_added {a : Str} (c : DWMLContainer) (hae : '=' ∉ a) (hah : '#' ∉ a)
    (ht : trimmedB a = true) :
    pccStep c (addedLine a) = { c with added := c.added ++ [a] } := by
  rw [pccStep]
  dsimp only
  rw [pyStrip_addedLine, addedLine_ne_empty]
  simp only [Bool.false_eq_true, if_false]
  rw [searchTag_none (hasSub_false_of_missing (by decide)
    (hash_not_in_addedLine hah))]
  dsimp only
  rw [searchTag_added_line hae]
  dsimp only
  rw [pyStrip_pad ht]

theorem pccStep_rem {r : Str} (c : DWMLContainer) (hre : '=' ∉ r) (hrh : '#' ∉ r)
    (hrp : '+' ∉ r) (ht : trimmedB r = true) :
    pccStep c (remLine r) = { c with removed := c.removed ++ [r] } := by
  rw [pccStep]
  dsimp only
  rw [pyStrip_remLine, remLine_ne_empty]
  simp only [Bool.false_eq_true, if_false]
  rw [searchTag_none (hasSub_false_of_missing (by decide)
    (hash_not_in_remLine hrh))]
  dsimp only
  rw [searchTag_none (hasSub_false_of_missing (show ('+' : Char) ∈ ("=+=".data) from
    by decide) (plus_not_in_remLine hrp))]
  dsimp only
  rw [searchTag_rem_line hre]
  dsimp only
  rw [pyStrip_pad ht]

theorem dlookup_append_none {α : Type} {a b : Dict α} {k : Str}
    (ha : dlookup a k = none) (hb : dlookup b k = none) :
    dlookup (a ++ b) k = none := by
  induction a with
  | nil => exact hb
  | cons kv rest ih =>
    obtain ⟨k0, v0⟩ := kv
    rw [dlookup] at ha
    rw [List.cons_append, dlookup]
    by_cases h0 : k0 = k
    · rw [if_pos h0] at ha
      exact absurd ha (by simp)
    · rw [if_neg h0] at ha
      rw [if_neg h0]
      exact ih ha

theorem dlookup_single_ne {α : Type} {k k' : Str} {v : α} (h : k' ≠ k) :
    dlookup [(k, v)] k' = none := by
  rw [dlookup, if_neg (fun he => h he.symm)]
  rfl

/-- List values must carry at least two elements (a singleton renders like a
scalar). -/
def fvLenOk : FieldValue → Prop
  | FieldValue.scalar _ => True
  | FieldValue.list vs => 2 ≤ vs.length

instance : (fv : FieldValue) → Decidable (fvLenOk fv)
  | FieldValue.scalar _ => isTrue trivial
  | FieldValue.list vs => Nat.decLe 2 vs.length

/-- The goodness of one field entry for the restricted round trip. -/
def goodFieldP (kv : Str × FieldValue) : Prop :=
  kv.1 ≠ [] ∧ (∀ c ∈ kv.1, wordChar c = true) ∧
  (∀ v ∈ valsOf kv.2, '=' ∉ v ∧ '#' ∉ v ∧ '|' ∉ v ∧ ';' ∉ v ∧ '\n' ∉ v) ∧
  valsOf kv.2 ≠ [] ∧ fvLenOk kv.2

theorem parse_value_line_field {fields : Fields} {k : Str} {fv : FieldValue}
    (hg : goodFieldP (k, fv)) (hfresh : dlookup fields k = none) :
    parse_value_line fields (k ++ chainStr (valsOf fv)) = dinsert fields k fv := by
  obtain ⟨hk, hkw, hv, hvs, hlen⟩ := hg
  cases fv with
  | scalar v =>
    have hvv := hv v (by rw [valsOf]; exact List.mem_singleton.mpr rfl)
    exact parse_value_line_scalar hk hkw ⟨hvv.2.2.1, hvv.2.2.2.1⟩ hfresh
  | list vs =>
    exact parse_value_line_list hk hkw hlen
      (fun v hv2 => ⟨(hv v hv2).2.2.1, (hv v hv2).2.2.2.1⟩) hfresh

theorem foldl_pfb_comments (b : DWMLBlock) {cms : List Str}
    (h : ∀ cm ∈ cms, '=' ∉ cm ∧ trimmedB cm = true) :
    List.foldl pfbStep b (cms.map commentLine) =
      { b with comments := b.comments ++ cms } := by
  induction cms generalizing b with
  | nil => simp
  | cons cm cms' ih =>
    have hc := h cm (List.mem_cons_self cm cms')
    rw [List.map_cons, List.foldl_cons, pfbStep_comment b hc.1 hc.2,
      ih _ fun x hx => h x (List.mem_cons_of_mem _ hx)]
    simp

theorem foldl_pfb_fields (b : DWMLBlock) {fs : Fields}
    (hg : ∀ kv ∈ fs, goodFieldP kv)
    (hfresh : ∀ kv ∈ fs, dlookup b.fields kv.1 = none)
    (hnodup : (fs.map Prod.fst).Nodup) :
    List.foldl pfbStep b (fs.map (fun kv => fieldLine kv.1 (valsOf kv.2))) =
      { b with fields := b.fields ++ fs } := by
  induction fs generalizing b with
  | nil => simp
  | cons kv fs' ih =>
    obtain ⟨k, fv⟩ := kv
    have hgk := hg (k, fv) (List.mem_cons_self _ fs')
    obtain ⟨hk, hkw, hv, hvs, hlen⟩ := hgk
    have hfk := hfresh (k, fv) (List.mem_cons_self _ fs')
    rw [List.map_cons, List.foldl_cons,
      pfbStep_field b hk hkw hvs (fun v hv2 => (hv v hv2).1) (fun v hv2 => (hv v hv2).2.1),
      parse_value_line_field ⟨hk, hkw, hv, hvs, hlen⟩ hfk,
      dinsert_fresh _ _ _ hfk]
    rw [List.map_cons, List.nodup_cons] at hnodup
    rw [ih { b with fields := b.fields ++ [(k, fv)] }
      (fun kv2 hkv2 => hg kv2 (List.mem_cons_of_mem _ hkv2))
      (fun kv2 hkv2 => dlookup_append_none (hfresh kv2 (List.mem_cons_of_mem _ hkv2))
        (dlookup_single_ne (fun he => hnodup.1 (by
          have hmm : kv2.1 ∈ List.map Prod.fst fs' :=
            List.mem_map_of_mem Prod.fst hkv2
          rw [he] at hmm
          exact hmm))))
      hnodup.2]
    simp

theorem foldl_pfb_empties (b : DWMLBlock) {ls : List Str} (h : ∀ l ∈ ls, l = []) :
    List.foldl pfbStep b ls = b := by
  induction ls with
  | nil => rfl
  | cons l ls' ih =>
    rw [List.foldl_cons, h l (List.mem_cons_self l ls'), pfbStep_empty,
      ih fun x hx => h x (List.mem_cons_of_mem _ hx)]

theorem foldl_pcc_comments (c : DWMLContainer) {cms : List Str}
    (h : ∀ cm ∈ cms, '=' ∉ cm ∧ trimmedB cm = true) :
    List.foldl pccStep c (cms.map commentLine) =
      { c with comments := c.comments ++ cms } := by
  induction cms generalizing c with
  | nil => simp
  | cons cm cms' ih =>
    have hc := h cm (List.mem_cons_self cm cms')
    rw [List.map_cons, List.foldl_cons, pccStep_comment c hc.1 hc.2,
      ih _ fun x hx => h x (List.mem_cons_of_mem _ hx)]
    simp

theorem foldl_pcc_added (c : DWMLContainer) {as : List Str}
    (h : ∀ a ∈ as, '=' ∉ a ∧ '#' ∉ a ∧ trimmedB a = true) :
    List.foldl pccStep c (as.map addedLine) = { c with added := c.added ++ as } := by
  induction as generalizing c with
  | nil => simp
  | cons a as' ih =>
    have hc := h a (List.mem_cons_self a as')
    rw [List.map_cons, List.foldl_cons, pccStep_added c hc.1 hc.2.1 hc.2.2,
      ih _ fun x hx => h x (List.mem_cons_of_mem _ hx)]
    simp

theorem foldl_pcc_removed (c : DWMLContainer) {rs : List Str}
    (h : ∀ r ∈ rs, '=' ∉ r ∧ '#' ∉ r ∧ '+' ∉ r ∧ trimmedB r = true) :
    List.foldl pccStep c (rs.map remLine) = { c with removed := c.removed ++ rs } := by
  induction rs generalizing c with
  | nil => simp
  | cons r rs' ih =>
    have hc := h r (List.mem_cons_self r rs')
    rw [List.map_cons, List.foldl_cons, pccStep_rem c hc.1 hc.2.1 hc.2.2.1 hc.2.2.2,
      ih _ fun x hx => h x (List.mem_cons_of_mem _ hx)]
    simp

/-- The mid lines of one rendered container (fields empty). -/
def containerMid (c : DWMLContainer) : List Str :=
  c.comments.map commentLine ++ c.added.map addedLine ++ c.removed.map remLine

/-- Goodness of a free text for the restricted round trip. -/
def goodTextP (t : Str) : Prop :=
  '=' ∉ t ∧ '#' ∉ t ∧ '+' ∉ t ∧ '-' ∉ t ∧ '\n' ∉ t ∧ '|' ∉ t ∧ ';' ∉ t ∧
  trimmedB t = true

/-- Goodness of a container for the restricted round trip. -/
def goodContainerP (c : DWMLContainer) : Prop :=
  c.fields = [] ∧ c.raw_lines = [] ∧ (∀ t ∈ c.comments, goodTextP t) ∧
  (∀ t ∈ c.added, goodTextP t) ∧ (∀ t ∈ c.removed, goodTextP t)

theorem renderContainerLines_eq {c : DWMLContainer} (hf : c.fields = []) :
    renderContainerLines c = ("=dw=".data) :: (containerMid c ++ [("=wd=".data)]) := by
  rw [renderContainerLines, hf, containerMid]
  simp only [List.map_nil, List.append_nil]
  rfl

theorem wrap_no_nl {m : Char} (hm : m ≠ '\n') {txt : Str} (htxt : '\n' ∉ txt) :
    '\n' ∉ ('=' :: m :: '=' :: ' ' :: []) ++ txt ++ (' ' :: '=' :: 'o' :: '=' :: []) :=
  not_mem_wrap (by decide) (Ne.symm hm) (by decide) (by decide) htxt

theorem containerMid_no_nl {c : DWMLContainer} (hg : goodContainerP c) :
    ∀ l ∈ containerMid c, '\n' ∉ l := by
  obtain ⟨hf, hr, hcm, had, hrm⟩ := hg
  intro l hl
  rw [containerMid] at hl
  rcases List.mem_append.mp hl with h | h
  · rcases List.mem_append.mp h with h2 | h2
    · rcases List.mem_map.mp h2 with ⟨t, ht, rfl⟩
      rw [commentLine_shape]
      exact wrap_no_nl (by decide) (hcm t ht).2.2.2.2.1
    · rcases List.mem_map.mp h2 with ⟨t, ht, rfl⟩
      rw [addedLine_shape]
      exact wrap_no_nl (by decide) (had t ht).2.2.2.2.1
  · rcases List.mem_map.mp h with ⟨t, ht, rfl⟩
    rw [remLine_shape]
    exact wrap_no_nl (by decide) (hrm t ht).2.2.2.2.1

/-- Parsing the rendered inner span of a good container restores it. -/
theorem parse_container_content_rt {c : DWMLContainer} (hg : goodContainerP c) :
    parse_container_content ('\n' :: nlConcat (containerMid c)) = c := by
  obtain ⟨hf, hr, hcm, had, hrm⟩ := hg
  rw [parse_container_content_eq, splitNl_cons_nl,
    splitNl_nlConcat (containerMid_no_nl ⟨hf, hr, hcm, had, hrm⟩),
    List.foldl_cons, pccStep_empty, containerMid,
    List.foldl_append, List.foldl_append, List.foldl_append,
    foldl_pcc_comments _ (fun t ht => ⟨(hcm t ht).1, (hcm t ht).2.2.2.2.2.2.2⟩),
    foldl_pcc_added _ (fun t ht =>
      ⟨(had t ht).1, (had t ht).2.1, (had t ht).2.2.2.2.2.2.2⟩),
    foldl_pcc_removed _ (fun t ht =>
      ⟨(hrm t ht).1, (hrm t ht).2.1, (hrm t ht).2.2.1, (hrm t ht).2.2.2.2.2.2.2⟩),
    List.foldl_cons, pccStep_empty, List.foldl_nil]
  cases c with
  | mk f a r cm raw =>
    dsimp only at hf hr ⊢
    rw [hf, hr]
    simp

theorem isPre_of_line_no_sub {pat : Str} (hnl : '\n' ∉ pat) {line rest a1 a2 : Str}
    (hline : line = a1 ++ a2) (hno : hasSub pat line = false) :
    isPre pat (a2 ++ '\n' :: rest) = false := by
  by_cases h : isPre pat (a2 ++ '\n' :: rest) = true
  · exfalso
    rcases isPre_split h with h2 | ⟨t, hpt, h3⟩
    · have h4 : hasSub pat line = true := by
        rw [hline]
        exact hasSub_append_right a1 (hasSub_of_isPre h2)
      rw [hno] at h4
      exact Bool.noConfusion h4
    · cases t with
      | nil =>
        have h4 : hasSub pat line = true := by
          rw [hline, hpt]
          exact hasSub_iff.mpr ⟨a1, [], by simp⟩
        rw [hno] at h4
        exact Bool.noConfusion h4
      | cons u t' =>
        simp only [isPre, Bool.and_eq_true, decide_eq_true_eq] at h3
        exact hnl (by rw [hpt]; simp [h3.1])
  · simpa using h

theorem splitContainers_skip_line {line rest : Str} (hnl : '\n' ∉ line)
    (hno : hasSub ("=dw=".data) line = false) :
    DWML.splitContainers (line ++ '\n' :: rest) =
      ((DWML.splitContainers rest).1, line ++ '\n' :: (DWML.splitContainers rest).2) := by
  have hdnl : '\n' ∉ ("=dw=".data) := by decide
  have key : ∀ a2 a1 : Str, line = a1 ++ a2 →
      DWML.splitContainers (a2 ++ '\n' :: rest) =
        ((DWML.splitContainers rest).1, a2 ++ '\n' :: (DWML.splitContainers rest).2) := by
    intro a2
    induction a2 with
    | nil =>
      intro a1 hline
      rw [List.nil_append,
        splitContainers_step (Or.inl (by
          rw [show ("=dw=".data) = ('=' :: 'd' :: 'w' :: '=' :: [] : Str) from rfl]
          simp [isPre]))]
      rfl
    | cons x a2' ih =>
      intro a1 hline
      have hp : isPre ("=dw=".data) ((x :: a2') ++ '\n' :: rest) = false :=
        isPre_of_line_no_sub hdnl hline hno
      rw [List.cons_append,
        splitContainers_step (Or.inl (by rw [← List.cons_append]; exact hp)),
        ih (a1 ++ [x]) (by rw [hline]; simp)]
      rfl
  exact key line [] rfl

theorem splitContainers_skip_lines {ls : List Str}
    (h : ∀ l ∈ ls, '\n' ∉ l ∧ hasSub ("=dw=".data) l = false) (t : Str) :
    DWML.splitContainers (nlConcat ls ++ t) =
      ((DWML.splitContainers t).1, nlConcat ls ++ (DWML.splitContainers t).2) := by
  induction ls with
  | nil => simp [nlConcat]
  | cons l ls' ih =>
    have hl := h l (List.mem_cons_self l ls')
    rw [nlConcat_cons,
      show (l ++ '\n' :: nlConcat ls') ++ t = l ++ '\n' :: (nlConcat ls' ++ t) from by simp,
      splitContainers_skip_line hl.1 hl.2,
      ih fun x hx => h x (List.mem_cons_of_mem _ hx)]
    simp

theorem hasSub_wrap_shape {q : Char} {p2 : Str} {m : Char} {txt : Str}
    (hq1 : q ≠ m) (hq2 : q ≠ ' ') (hq3 : q ≠ 'o') (hm : '=' ≠ m) (htxt : '=' ∉ txt) :
    hasSub ('=' :: q :: p2)
      (('=' :: m :: '=' :: ' ' :: []) ++ txt ++ (' ' :: '=' :: 'o' :: '=' :: [])) =
      false :=
  hasSub_wrap_line hq1 hq2 hq3 hm htxt

theorem hasSub_wd_mid {c : DWMLContainer} (hg : goodContainerP c) :
    ∀ l ∈ containerMid c, hasSub ("=wd=".data) l = false := by
  obtain ⟨hf, hr, hcm, had, hrm⟩ := hg
  intro l hl
  rw [show ("=wd=".data) = ('=' :: 'w' :: 'd' :: '=' :: [] : Str) from rfl]
  rw [containerMid] at hl
  rcases List.mem_append.mp hl with h | h
  · rcases List.mem_append.mp h with h2 | h2
    · rcases List.mem_map.mp h2 with ⟨t, ht, rfl⟩
      rw [commentLine_shape]
      exact hasSub_wrap_shape (by decide) (by decide) (by decide) (by decide)
        (hcm t ht).1
    · rcases List.mem_map.mp h2 with ⟨t, ht, rfl⟩
      rw [addedLine_shape]
      exact hasSub_wrap_shape (by decide) (by decide) (by decide) (by decide)
        (had t ht).1
  · rcases List.mem_map.mp h with ⟨t, ht, rfl⟩
    rw [remLine_shape]
    exact hasSub_wrap_shape (by decide) (by decide) (by decide) (by decide)
      (hrm t ht).1

theorem splitContainers_nlstep (t : Str) :
    DWML.splitContainers ('\n' :: t) =
      ((DWML.splitContainers t).1, '\n' :: (DWML.splitContainers t).2) := by
  rw [splitContainers_step (Or.inl (by
    rw [show ("=dw=".data) = ('=' :: 'd' :: 'w' :: '=' :: [] : Str) from rfl]
    simp [isPre]))]

theorem splitContainers_group {c : DWMLContainer} (hg : goodContainerP c) (t : Str) :
    DWML.splitContainers
        (nlConcat (("=dw=".data) :: (containerMid c ++ [("=wd=".data)])) ++ t) =
      (('\n' :: nlConcat (containerMid c)) :: (DWML.splitContainers t).1,
        '\n' :: (DWML.splitContainers t).2) := by
  have hshape :
      nlConcat (("=dw=".data) :: (containerMid c ++ [("=wd=".data)])) ++ t =
        '=' :: 'd' :: 'w' :: '=' ::
          (('\n' :: nlConcat (containerMid c)) ++ ("=wd=".data) ++ ('\n' :: t)) := by
    rw [nlConcat_cons, nlConcat_append]
    simp [nlConcat]
  rw [hshape]
  have hp : isPre ("=dw=".data) ('=' :: 'd' :: 'w' :: '=' ::
      (('\n' :: nlConcat (containerMid c)) ++ ("=wd=".data) ++ ('\n' :: t))) = true := by
    rw [show ("=dw=".data) = ('=' :: 'd' :: 'w' :: '=' :: [] : Str) from rfl]
    simp [isPre]
  have hbr : breakOn ("=wd=".data) (('=' :: 'd' :: 'w' :: '=' ::
      (('\n' :: nlConcat (containerMid c)) ++ ("=wd=".data) ++ ('\n' :: t))).drop 4) =
      some ('\n' :: nlConcat (containerMid c), '\n' :: t) := by
    rw [show ('=' :: 'd' :: 'w' :: '=' ::
      (('\n' :: nlConcat (containerMid c)) ++ ("=wd=".data) ++ ('\n' :: t))).drop 4 =
      ('\n' :: nlConcat (containerMid c)) ++ ("=wd=".data) ++ ('\n' :: t) from rfl]
    exact breakOn_marker_bc (by decide) (by decide) (hasSub_wd_mid hg) ('\n' :: t)
  rw [splitContainers_open hp hbr, splitContainers_nlstep]

theorem splitContainers_groups {cs : List DWMLContainer}
    (hg : ∀ c ∈ cs, goodContainerP c) :
    DWML.splitContainers
        ((cs.map (fun c =>
          nlConcat (("=dw=".data) :: (containerMid c ++ [("=wd=".data)])))).flatten) =
      (cs.map (fun c => '\n' :: nlConcat (containerMid c)),
        List.replicate cs.length '\n') := by
  induction cs with
  | nil => rfl
  | cons c cs' ih =>
    rw [List.map_cons,
      show ((nlConcat (("=dw=".data) :: (containerMid c ++ [("=wd=".data)]))) ::
        (cs'.map (fun c =>
          nlConcat (("=dw=".data) :: (containerMid c ++ [("=wd=".data)]))))).flatten =
        nlConcat (("=dw=".data) :: (containerMid c ++ [("=wd=".data)])) ++
          (cs'.map (fun c =>
            nlConcat (("=dw=".data) :: (containerMid c ++ [("=wd=".data)])))).flatten
        from by simp,
      splitContainers_group (hg c (List.mem_cons_self c cs')) _,
      ih fun x hx => hg x (List.mem_cons_of_mem _ hx)]
    simp [List.replicate]

theorem nlConcat_flatten (L : List (List Str)) :
    nlConcat L.flatten = (L.map nlConcat).flatten := by
  induction L with
  | nil => rfl
  | cons x xs ih =>
    rw [List.flatten_cons, nlConcat_append, List.map_cons, List.flatten_cons, ih]

theorem splitNl_nlConcat_append {ls : List Str} (h : ∀ l ∈ ls, '\n' ∉ l) (t : Str) :
    splitNl (nlConcat ls ++ t) = ls ++ splitNl t := by
  induction ls with
  | nil => rfl
  | cons l ls' ih =>
    rw [nlConcat_cons,
      show (l ++ '\n' :: nlConcat ls') ++ t = l ++ '\n' :: (nlConcat ls' ++ t) from by simp,
      splitNl_append_nl (h l (List.mem_cons_self l ls')),
      ih fun x hx => h x (List.mem_cons_of_mem _ hx)]
    rfl

theorem splitNl_replicate (k : Nat) :
    splitNl (List.replicate k '\n') = List.replicate k [] ++ [[]] := by
  induction k with
  | zero => rfl
  | succ k' ih =>
    rw [List.replicate_succ, splitNl_cons_nl, ih, List.replicate_succ]
    rfl

/-- The plain (comment and field) lines of a rendered block. -/
def blockPlain (b : DWMLBlock) : List Str :=
  b.comments.map commentLine ++ b.fields.map (fun kv => fieldLine kv.1 (valsOf kv.2))

/-- The mid lines of a rendered block. -/
def blockMid (b : DWMLBlock) : List Str :=
  blockPlain b ++
    (b.containers.map (fun c => ("=dw=".data) :: (containerMid c ++ [("=wd=".data)]))).flatten

/-- Goodness of a block for the restricted round trip. -/
def goodBlockP (b : DWMLBlock) : Prop :=
  b.raw_lines = [] ∧ (∀ t ∈ b.comments, goodTextP t) ∧
  (∀ kv ∈ b.fields, goodFieldP kv) ∧ (b.fields.map Prod.fst).Nodup ∧
  (∀ c ∈ b.containers, goodContainerP c)

theorem renderBlockLines_eq {n : Str} {b : DWMLBlock}
    (hcf : ∀ c ∈ b.containers, c.fields = []) :
    renderBlockLines n b =
      (("=d=".data) ++ n ++ ("=w=".data)) ::
        (blockMid b ++ [("=q=".data) ++ n ++ ("=e=".data)]) := by
  rw [renderBlockLines, blockMid, blockPlain]
  have h1 : b.fields.map renderFieldLine =
      b.fields.map (fun kv => fieldLine kv.1 (valsOf kv.2)) :=
    List.map_congr_left fun kv _ => by
      rw [show renderFieldLine kv = renderFieldLine (kv.1, kv.2) from rfl,
        renderFieldLine_eq]
  have h2 : b.containers.map renderContainerLines =
      b.containers.map (fun c => ("=dw=".data) :: (containerMid c ++ [("=wd=".data)])) :=
    List.map_congr_left fun c hc => renderContainerLines_eq (hcf c hc)
  rw [h1, h2]
  simp
  intro a _
  rw [commentLine]
  simp

theorem wordChar_ne_nl {c : Char} (h : wordChar c = true) : c ≠ '\n' := by
  rintro rfl
  revert h
  decide

theorem blockPlain_safe {b : DWMLBlock} (hb : goodBlockP b) :
    ∀ l ∈ blockPlain b, '\n' ∉ l ∧ hasSub ("=dw=".data) l = false := by
  obtain ⟨hr, hcm, hfs, hnd, hcs⟩ := hb
  intro l hl
  rw [blockPlain] at hl
  rcases List.mem_append.mp hl with h | h
  · rcases List.mem_map.mp h with ⟨t, ht, rfl⟩
    constructor
    · rw [commentLine_shape]
      exact wrap_no_nl (by decide) (hcm t ht).2.2.2.2.1
    · rw [show ("=dw=".data) = ('=' :: 'd' :: 'w' :: '=' :: [] : Str) from rfl,
        commentLine_shape]
      exact hasSub_wrap_shape (by decide) (by decide) (by decide) (by decide)
        (hcm t ht).1
  · rcases List.mem_map.mp h with ⟨kv, hkv, rfl⟩
    obtain ⟨hk, hkw, hv, hvs, hlen⟩ := hfs kv hkv
    constructor
    · exact not_mem_fieldLine (by decide) (by decide) (by decide) (by decide)
        (by decide) (by decide) (by decide)
        (fun d hd => ⟨hkw d hd, wordChar_ne_nl (hkw d hd)⟩)
        (fun v hv2 => (hv v hv2).2.2.2.2)
    · rw [show ("=dw=".data) = ('=' :: 'd' :: 'w' :: '=' :: [] : Str) from rfl]
      exact hasSub_field_line (by decide) (by decide) (by decide) hkw
        (fun v hv2 => (hv v hv2).1)

theorem plain_lines_no_nl {cms : List Str} {fs : Fields}
    (hcm : ∀ t ∈ cms, goodTextP t) (hfs : ∀ kv ∈ fs, goodFieldP kv) :
    ∀ l ∈ cms.map commentLine ++ fs.map (fun kv => fieldLine kv.1 (valsOf kv.2)),
      '\n' ∉ l := by
  intro l hl
  rcases List.mem_append.mp hl with h | h
  · rcases List.mem_map.mp h with ⟨t, ht, rfl⟩
    rw [commentLine_shape]
    exact wrap_no_nl (by decide) (hcm t ht).2.2.2.2.1
  · rcases List.mem_map.mp h with ⟨kv, hkv, rfl⟩
    obtain ⟨hk, hkw, hv, hvs, hlen⟩ := hfs kv hkv
    exact not_mem_fieldLine (by decide) (by decide) (by decide) (by decide)
      (by decide) (by decide) (by decide)
      (fun d hd => ⟨hkw d hd, wordChar_ne_nl (hkw d hd)⟩)
      (fun v hv2 => (hv v hv2).2.2.2.2)

theorem parse_fields_block_run (blk : DWMLBlock) {cms : List Str} {fs : Fields}
    (hcm : ∀ t ∈ cms, goodTextP t) (hfs : ∀ kv ∈ fs, goodFieldP kv)
    (hnd : (fs.map Prod.fst).Nodup) (hbf : blk.fields = [])
    {tail : Str} (htail : ∀ l ∈ splitNl tail, l = []) :
    parse_fields_block blk ('\n' :: (nlConcat (cms.map commentLine ++
        fs.map (fun kv => fieldLine kv.1 (valsOf kv.2))) ++ tail)) =
      { blk with comments := blk.comments ++ cms, fields := blk.fields ++ fs } := by
  rw [parse_fields_block_eq, splitNl_cons_nl,
    splitNl_nlConcat_append (plain_lines_no_nl hcm hfs) tail,
    List.foldl_cons, pfbStep_empty, List.foldl_append, List.foldl_append,
    foldl_pfb_comments blk (fun t ht => ⟨(hcm t ht).1, (hcm t ht).2.2.2.2.2.2.2⟩)]
  rw [foldl_pfb_fields _ hfs (fun kv _ => by
      dsimp only
      rw [hbf]
      rfl) hnd]
  rw [foldl_pfb_empties _ htail]

theorem foldl_add_container (blk : DWMLBlock) {cs : List DWMLContainer}
    (hg : ∀ c ∈ cs, goodContainerP c) :
    (cs.map (fun c => '\n' :: nlConcat (containerMid c))).foldl
      (fun b ci => b.add_container (parse_container_content ci)) blk =
    { blk with containers := blk.containers ++ cs } := by
  induction cs generalizing blk with
  | nil => simp
  | cons c cs' ih =>
    rw [List.map_cons, List.foldl_cons,
      parse_container_content_rt (hg c (List.mem_cons_self c cs')),
      DWMLBlock.add_container,
      ih _ fun x hx => hg x (List.mem_cons_of_mem _ hx)]
    simp

/-- Parsing the rendered content span of a good block restores it. -/
theorem parse_block_content_rt {n : Str} {b : DWMLBlock} (hb : goodBlockP b)
    (hname : b.name = n) :
    parse_block_content n ('\n' :: nlConcat (blockMid b)) = b := by
  obtain ⟨hr, hcm, hfs, hnd, hcs⟩ := hb
  have hplain := blockPlain_safe ⟨hr, hcm, hfs, hnd, hcs⟩
  have hsc : DWML.splitContainers ('\n' :: nlConcat (blockMid b)) =
      (b.containers.map (fun c => '\n' :: nlConcat (containerMid c)),
        '\n' :: (nlConcat (blockPlain b) ++
          List.replicate b.containers.length '\n')) := by
    rw [blockMid, nlConcat_append, nlConcat_flatten, List.map_map,
      splitContainers_nlstep, splitContainers_skip_lines hplain,
      show (b.containers.map (nlConcat ∘ fun c =>
          ("=dw=".data) :: (containerMid c ++ [("=wd=".data)]))) =
        (b.containers.map (fun c =>
          nlConcat (("=dw=".data) :: (containerMid c ++ [("=wd=".data)])))) from rfl,
      splitContainers_groups hcs]
  rw [parse_block_content]
  dsimp only
  rw [hsc]
  dsimp only
  by_cases hemp : b.containers = []
  · rw [hemp]
    simp only [List.map_nil, List.isEmpty_nil, if_true]
    rw [show nlConcat (blockMid b) = nlConcat (b.comments.map commentLine ++
        b.fields.map (fun kv => fieldLine kv.1 (valsOf kv.2))) ++ [] from by
      rw [blockMid, blockPlain, hemp]
      simp]
    rw [parse_fields_block_run { name := n } hcm hfs hnd rfl
      (by
        intro l hl
        rw [show splitNl ([] : Str) = [[]] from rfl, List.mem_singleton] at hl
        exact hl)]
    cases b with
    | mk bn bf bc bcm braw =>
      dsimp only at hname hr hemp ⊢
      rw [hname, hr, hemp]
      simp
  · rw [if_neg (fun h => hemp (List.map_eq_nil.mp (List.isEmpty_iff.mp h)))]
    rw [foldl_add_container _ hcs]
    rw [show ('\n' :: (nlConcat (blockPlain b) ++
        List.replicate b.containers.length '\n') : Str) =
      '\n' :: (nlConcat (b.comments.map commentLine ++
        b.fields.map (fun kv => fieldLine kv.1 (valsOf kv.2))) ++
        List.replicate b.containers.length '\n') from by rw [blockPlain]]
    rw [parse_fields_block_run _ hcm hfs hnd rfl (by
      intro l hl
      rw [splitNl_replicate] at hl
      rcases List.mem_append.mp hl with h | h
      · exact List.eq_of_mem_replicate h
      · rw [List.mem_singleton] at h
        exact h)]
    cases b with
    | mk bn bf bc bcm braw =>
      dsimp only at hname hr ⊢
      rw [hname, hr]
      simp

theorem joinNl_append_single (xs : List Str) (y : Str) :
    joinNl (xs ++ [y]) = nlConcat xs ++ y := by
  induction xs with
  | nil => rfl
  | cons x xs' ih =>
    cases xs' with
    | nil =>
      rw [show ([x] ++ [y] : List Str) = [x, y] from rfl, joinNl_cons_cons, joinNl,
        nlConcat_cons, nlConcat_nil]
      simp
    | cons x2 xs2 =>
      rw [show ((x :: x2 :: xs2) ++ [y] : List Str) = x :: ((x2 :: xs2) ++ [y]) from rfl]
      rw [show ((x2 :: xs2) ++ [y] : List Str) = x2 :: (xs2 ++ [y]) from rfl]
      rw [joinNl_cons_cons]
      rw [show (x2 :: (xs2 ++ [y]) : List Str) = (x2 :: xs2) ++ [y] from rfl, ih,
        nlConcat_cons]
      simp [nlConcat_cons]

theorem joinNl_cons_ne (x : Str) {L : List Str} (h : L ≠ []) :
    joinNl (x :: L) = x ++ '\n' :: joinNl L := by
  cases L with
  | nil => exact absurd rfl h
  | cons y ys => exact joinNl_cons_cons x y ys

theorem joinNl_append_ne {xs ys : List Str} (hx : xs ≠ []) (hy : ys ≠ []) :
    joinNl (xs ++ ys) = joinNl xs ++ '\n' :: joinNl ys := by
  induction xs with
  | nil => exact absurd rfl hx
  | cons x xs' ih =>
    cases xs' with
    | nil =>
      rw [show ([x] ++ ys : List Str) = x :: ys from rfl, joinNl_cons_ne x hy]
      rfl
    | cons x2 xs2 =>
      rw [show ((x :: x2 :: xs2) ++ ys : List Str) = x :: ((x2 :: xs2) ++ ys) from rfl,
        joinNl_cons_ne x (by simp), ih (by simp), joinNl_cons_cons]
      simp

theorem blockMid_no_q {b : DWMLBlock} (hb : goodBlockP b) :
    ∀ l ∈ blockMid b, hasSub ("=q=".data) l = false := by
  obtain ⟨hr, hcm, hfs, hnd, hcs⟩ := hb
  intro l hl
  rw [show ("=q=".data) = ('=' :: 'q' :: '=' :: [] : Str) from rfl]
  rw [blockMid] at hl
  rcases List.mem_append.mp hl with h | h
  · rw [blockPlain] at h
    rcases List.mem_append.mp h with h2 | h2
    · rcases List.mem_map.mp h2 with ⟨t, ht, rfl⟩
      rw [commentLine_shape]
      exact hasSub_wrap_shape (by decide) (by decide) (by decide) (by decide)
        (hcm t ht).1
    · rcases List.mem_map.mp h2 with ⟨kv, hkv, rfl⟩
      obtain ⟨hk, hkw, hv, hvs, hlen⟩ := hfs kv hkv
      exact hasSub_field_line (by decide) (by decide) (by decide) hkw
        (fun v hv2 => (hv v hv2).1)
  · rcases List.mem_flatten.mp h with ⟨ls, hls, hlm⟩
    rcases List.mem_map.mp hls with ⟨c, hc, rfl⟩
    obtain ⟨hf2, hr2, hcm2, had2, hrm2⟩ := hcs c hc
    rcases List.mem_cons.mp hlm with rfl | h3
    · decide
    rcases List.mem_append.mp h3 with h4 | h4
    · rw [containerMid] at h4
      rcases List.mem_append.mp h4 with h5 | h5
      · rcases List.mem_append.mp h5 with h6 | h6
        · rcases List.mem_map.mp h6 with ⟨t, ht, rfl⟩
          rw [commentLine_shape]
          exact hasSub_wrap_shape (by decide) (by decide) (by decide) (by decide)
            (hcm2 t ht).1
        · rcases List.mem_map.mp h6 with ⟨t, ht, rfl⟩
          rw [addedLine_shape]
          exact hasSub_wrap_shape (by decide) (by decide) (by decide) (by decide)
            (had2 t ht).1
      · rcases List.mem_map.mp h5 with ⟨t, ht, rfl⟩
        rw [remLine_shape]
        exact hasSub_wrap_shape (by decide) (by decide) (by decide) (by decide)
          (hrm2 t ht).1
    · rw [List.mem_singleton] at h4
      rw [h4]
      decide

/-- An attempted block match at a rendered block start succeeds and stops at
the block's own close tag. -/
theorem tryBlockAt_render {n : Str} {mid : List Str} (T : Str) (hn : n ≠ [])
    (hnw : ∀ c ∈ n, wordChar c = true)
    (hq : ∀ l ∈ mid, hasSub ("=q=".data) l = false) :
    DWML.tryBlockAt ((("=d=".data) ++ n ++ ("=w=".data)) ++
        (('\n' :: nlConcat mid) ++ ((("=q=".data) ++ n ++ ("=e=".data)) ++ T))) =
      some (n, '\n' :: nlConcat mid, T) := by
  have hshape : (("=d=".data) ++ n ++ ("=w=".data)) ++
      (('\n' :: nlConcat mid) ++ ((("=q=".data) ++ n ++ ("=e=".data)) ++ T)) =
      ("=d=".data) ++ (n ++ ('=' :: 'w' :: '=' ::
        (('\n' :: nlConcat mid) ++ ((("=q=".data) ++ n ++ ("=e=".data)) ++ T)))) := by
    simp
  rw [hshape, DWML.tryBlockAt, stripPre_self]
  dsimp only
  have hrun : takeWordRun (n ++ ('=' :: 'w' :: '=' ::
      (('\n' :: nlConcat mid) ++ ((("=q=".data) ++ n ++ ("=e=".data)) ++ T)))) =
      (n, '=' :: 'w' :: '=' ::
        (('\n' :: nlConcat mid) ++ ((("=q=".data) ++ n ++ ("=e=".data)) ++ T))) := by
    rw [takeWordRun_append_stop _ (by decide), takeWordRun_all hnw]
    simp
  rw [hrun]
  dsimp only
  simp only [List.isEmpty_eq_true]
  rw [if_neg hn]
  rw [show ('=' :: 'w' :: '=' ::
      (('\n' :: nlConcat mid) ++ ((("=q=".data) ++ n ++ ("=e=".data)) ++ T)) : Str) =
    ("=w=".data) ++ (('\n' :: nlConcat mid) ++ ((("=q=".data) ++ n ++ ("=e=".data)) ++ T))
    from rfl, stripPre_self]
  dsimp only
  have hclose_nl : '\n' ∉ ("=q=".data) ++ n ++ ("=e=".data) := by
    intro hm
    rcases List.mem_append.mp hm with h | h
    · rcases List.mem_append.mp h with h2 | h2
      · revert h2
        decide
      · exact wordChar_ne_nl (hnw _ h2) rfl
    · revert h
      decide
  have hclose_ne : ("=q=".data) ++ n ++ ("=e=".data) ≠ [] := by
    intro h
    have := congrArg List.length h
    simp at this
  have hnoq : ∀ l ∈ mid, hasSub (("=q=".data) ++ n ++ ("=e=".data)) l = false := by
    intro l hl
    rw [show ("=q=".data) ++ n ++ ("=e=".data) =
      ("=q=".data) ++ (n ++ ("=e=".data)) from by simp]
    exact hasSub_extend_false (hq l hl)
  rw [show (('\n' :: nlConcat mid) ++ ((("=q=".data) ++ n ++ ("=e=".data)) ++ T) : Str) =
    ('\n' :: nlConcat mid) ++ (("=q=".data) ++ n ++ ("=e=".data)) ++ T from by simp]
  rw [breakOn_marker_bc hclose_ne hclose_nl hnoq T]

theorem tryBlockAt_nl (s : Str) : DWML.tryBlockAt ('\n' :: s) = none := by
  have hsp : stripPre ("=d=".data) ('\n' :: s) = none := by
    rw [stripPre, if_neg (by
      rw [show ("=d=".data) = ('=' :: 'd' :: '=' :: [] : Str) from rfl]
      simp [isPre])]
  rw [DWML.tryBlockAt, hsp]

theorem findBlocks_cons_eq {s : Str} {n bc rest : Str}
    (h : DWML.tryBlockAt s = some (n, bc, rest)) :
    DWML.findBlocks s = (n, bc) :: DWML.findBlocks rest := by
  cases s with
  | nil => exact absurd h (by rw [show DWML.tryBlockAt [] = none from rfl]; simp)
  | cons c s' => exact findBlocks_some h

theorem findBlocks_nl (s : Str) : DWML.findBlocks ('\n' :: s) = DWML.findBlocks s :=
  findBlocks_none_cons (tryBlockAt_nl s)

/-- The normalized rendered lines of one named block. -/
def blockLinesN (kv : Str × DWMLBlock) : List Str :=
  (("=d=".data) ++ kv.1 ++ ("=w=".data)) ::
    (blockMid kv.2 ++ [("=q=".data) ++ kv.1 ++ ("=e=".data)])

theorem findBlocks_render : ∀ (bs : List (Str × DWMLBlock)),
    (∀ kv ∈ bs, (kv.1 ≠ [] ∧ ∀ c ∈ kv.1, wordChar c = true) ∧ goodBlockP kv.2) →
    DWML.findBlocks (joinNl ((bs.map blockLinesN).flatten)) =
      bs.map (fun kv => (kv.1, '\n' :: nlConcat (blockMid kv.2))) := by
  intro bs
  induction bs with
  | nil => intro _; rfl
  | cons kv rest ih =>
    intro hg
    obtain ⟨⟨hn, hnw⟩, hgb⟩ := hg kv (List.mem_cons_self kv rest)
    have hq := blockMid_no_q hgb
    rw [List.map_cons, List.flatten_cons]
    cases rest with
    | nil =>
      rw [show blockLinesN kv ++ (List.map blockLinesN ([] : List (Str × DWMLBlock))).flatten
          = blockLinesN kv from by simp,
        show blockLinesN kv = (("=d=".data) ++ kv.1 ++ ("=w=".data)) ::
          (blockMid kv.2 ++ [("=q=".data) ++ kv.1 ++ ("=e=".data)]) from rfl,
        joinNl_cons_ne _ (by simp), joinNl_append_single]
      have hx := tryBlockAt_render [] hn hnw hq
      simp only [List.append_assoc, List.cons_append, List.nil_append,
        List.append_nil] at hx ⊢
      rw [findBlocks_cons_eq hx]
      rfl
    | cons kv2 rest2 =>
      have hfne : ((kv2 :: rest2).map blockLinesN).flatten ≠ [] := by
        rw [List.map_cons, List.flatten_cons, blockLinesN]
        simp
      rw [joinNl_append_ne (by rw [blockLinesN]; simp) hfne,
        show blockLinesN kv = (("=d=".data) ++ kv.1 ++ ("=w=".data)) ::
          (blockMid kv.2 ++ [("=q=".data) ++ kv.1 ++ ("=e=".data)]) from rfl,
        joinNl_cons_ne _ (by simp), joinNl_append_single]
      have hx := tryBlockAt_render
        ('\n' :: joinNl (((kv2 :: rest2).map blockLinesN).flatten)) hn hnw hq
      simp only [List.append_assoc, List.cons_append, List.nil_append] at hx ⊢
      rw [findBlocks_cons_eq hx, findBlocks_nl,
        ih fun x hx2 => hg x (List.mem_cons_of_mem _ hx2)]
      rfl

theorem dlookup_of_mem_nodup {α : Type} {d : Dict α} {k : Str} {v : α}
    (hnd : (d.map Prod.fst).Nodup) (hm : (k, v) ∈ d) : dlookup d k = some v := by
  induction d with
  | nil => exact absurd hm (by simp)
  | cons kv rest ih =>
    obtain ⟨k0, v0⟩ := kv
    rw [List.map_cons, List.nodup_cons] at hnd
    rcases List.mem_cons.mp hm with he | hm2
    · injection he with h1 h2
      rw [dlookup, if_pos h1.symm, h2]
    · rw [dlookup, if_neg (fun he0 => hnd.1 (by
        show k0 ∈ List.map Prod.fst rest
        rw [he0]
        exact List.mem_map_of_mem Prod.fst hm2))]
      exact ih hnd.2 hm2

/-- Goodness of a document for the restricted round trip: built by the
builder operations with word names and keys, marker-free texts and values,
and list values of at least two elements. -/
def goodDocP (doc : DWML) : Prop :=
  doc.block_order = doc.blocks.map Prod.fst ∧ (doc.blocks.map Prod.fst).Nodup ∧
  ∀ kv ∈ doc.blocks, kv.2.name = kv.1 ∧ (kv.1 ≠ [] ∧ ∀ c ∈ kv.1, wordChar c = true) ∧
    goodBlockP kv.2

theorem render_eq {doc : DWML} (hd : goodDocP doc) :
    DWML.render doc = joinNl ((doc.blocks.map blockLinesN).flatten) := by
  obtain ⟨hord, hnd, hbl⟩ := hd
  rw [DWML.render, hord, List.map_map]
  congr 2
  apply List.map_congr_left
  intro kv hkv
  dsimp only [Function.comp]
  rw [dlookup_of_mem_nodup hnd (by
    rw [show ((kv.1, kv.2) : Str × DWMLBlock) = kv from rfl]
    exact hkv)]
  rw [Option.getD_some, blockLinesN,
    renderBlockLines_eq (fun c hc => ((hbl kv hkv).2.2.2.2.2.2 c hc).1)]

theorem parse_render_fold : ∀ (bs : List (Str × DWMLBlock)) (d : DWML),
    (∀ kv ∈ bs, kv.2.name = kv.1 ∧ goodBlockP kv.2) →
    (∀ kv ∈ bs, dlookup d.blocks kv.1 = none) →
    (bs.map Prod.fst).Nodup →
    (bs.map (fun kv => (kv.1, '\n' :: nlConcat (blockMid kv.2)))).foldl
      (fun doc nb =>
        { blocks := dinsert doc.blocks nb.1 (parse_block_content nb.1 nb.2),
          block_order := doc.block_order ++ [nb.1] }) d =
    { blocks := d.blocks ++ bs, block_order := d.block_order ++ bs.map Prod.fst } := by
  intro bs
  induction bs with
  | nil =>
    intro d _ _ _
    simp
  | cons kv rest ih =>
    intro d hg hfresh hnd
    have hgk := hg kv (List.mem_cons_self kv rest)
    have hfk := hfresh kv (List.mem_cons_self kv rest)
    rw [List.map_cons, List.foldl_cons]
    rw [show parse_block_content kv.1 ('\n' :: nlConcat (blockMid kv.2)) = kv.2 from
      parse_block_content_rt hgk.2 hgk.1]
    rw [dinsert_fresh _ _ _ hfk]
    rw [List.map_cons, List.nodup_cons] at hnd
    have hih := ih ⟨d.blocks ++ [(kv.1, kv.2)], d.block_order ++ [kv.1]⟩
      (fun x hx => hg x (List.mem_cons_of_mem _ hx))
      (fun x hx => dlookup_append_none (hfresh x (List.mem_cons_of_mem _ hx))
        (dlookup_single_ne (fun he => hnd.1 (by
          have hmm : x.1 ∈ List.map Prod.fst rest :=
            List.mem_map_of_mem Prod.fst hx
          rw [he] at hmm
          exact hmm))))
      hnd.2
    dsimp only
    rw [hih]
    simp

/-- C1 (amended): for every document whose structure the builder operations
produce — block order listing each block key once, block names equal to their
keys, word-run names and field keys, values and texts free of the marker
characters `=`, `|`, `;`, `#`, `+`, `-` and newlines, list values of length
at least two, containers carrying only added/removed/comment texts, and no
raw lines — parsing the rendered text restores the document exactly. -/
theorem C1_roundtrip_restricted (doc : DWML) (hd : goodDocP doc) :
    DWML.parse (DWML.render doc) = doc := by
  obtain ⟨hord, hnd, hbl⟩ := hd
  rw [render_eq ⟨hord, hnd, hbl⟩, DWML.parse,
    findBlocks_render _ (fun kv hkv => (hbl kv hkv).2),
    parse_render_fold _ {} (fun kv hkv => ⟨(hbl kv hkv).1, (hbl kv hkv).2.2⟩)
      (fun kv _ => rfl) hnd]
  cases doc with
  | mk blocks order =>
    dsimp only at hord ⊢
    rw [hord]
    simp

/-- A builder document holding a singleton list value. -/
def c1doc : DWML :=
  DWML.add_block {} ("b".data) [(("k".data), FieldValue.list [("x".data)])]

/-- Counterexample for C1: a singleton list renders exactly like a scalar, so
the parse of the rendered text holds a scalar where the original document
holds a one-element list — the unrestricted round trip fails on a document
built with the codec's own operations. -/
theorem C1_roundtrip_fails : DWML.parse (DWML.render c1doc) ≠ c1doc := by decide

/-- A concrete good document: two blocks, scalar and two-element list fields,
a block comment, and a container with comment, added and removed texts. -/
def c1good : DWML :=
  { blocks :=
      [(("m".data),
        { name := ("m".data),
          fields := [(("k1".data), FieldValue.scalar ("v1".data)),
                     (("k2".data), FieldValue.list [("a b".data), ("c".data)])],
          containers := [{ fields := [], added := [("new line".data)],
                           removed := [("old".data)], comments := [("why".data)],
                           raw_lines := [] }],
          comments := [("hello world".data)], raw_lines := [] }),
       (("h2".data),
        { name := ("h2".data), fields := [], containers := [], comments := [],
          raw_lines := [] })],
    block_order := [("m".data), ("h2".data)] }

instance (t : Str) : Decidable (goodTextP t) := by
  unfold goodTextP
  infer_instance

instance (kv : Str × FieldValue) : Decidable (goodFieldP kv) := by
  unfold goodFieldP
  infer_instance

instance (c : DWMLContainer) : Decidable (goodContainerP c) := by
  unfold goodContainerP
  infer_instance

instance (b : DWMLBlock) : Decidable (goodBlockP b) := by
  unfold goodBlockP
  infer_instance

instance (doc : DWML) : Decidable (goodDocP doc) := by
  unfold goodDocP
  infer_instance

/-- Witness for C1's amended theorem: the concrete good document round-trips. -/
theorem C1_roundtrip_restricted_witness : DWML.parse (DWML.render c1good) = c1good :=
  C1_roundtrip_restricted c1good (by decide)

end DocWire
